import Mathlib

/-!
# Verification of the `vtt` WebVTT codec (`src/lib.rs`)

A shallow embedding of the library into Lean 4.  Rust `&str` values are
modelled as `List Char` (named `Str` below); Rust's `std::time::Duration`
produced by `Duration::from_millis` is modelled by its total number of
milliseconds (a `Nat`, reduced modulo `2 ^ 64` where the source performs
`u64` arithmetic); fallible parsing (`FromStr`) is modelled with `Except`.
`HashMap<String, String>` is modelled as an insertion-ordered association
list with replace-on-insert semantics (`metaInsert`); formatting iterates
it in list order, which models one fixed iteration order of the map.

Every definition mirrors the corresponding Rust item of `src/lib.rs`;
the doc comments name the source item.
-/

/-- Decidable equality for `Except`, used to evaluate the model at
concrete inputs. -/
instance exceptDecEq {ε α : Type} [DecidableEq ε] [DecidableEq α] :
    DecidableEq (Except ε α) := fun a b =>
  match a, b with
  | .error e1, .error e2 =>
    if h : e1 = e2 then .isTrue (by simp [h]) else .isFalse (by simp [h])
  | .error _, .ok _ => .isFalse (by simp)
  | .ok _, .error _ => .isFalse (by simp)
  | .ok a1, .ok a2 =>
    if h : a1 = a2 then .isTrue (by simp [h]) else .isFalse (by simp [h])

namespace Vtt

/-- Rust string slices are modelled as lists of characters. -/
abbrev Str := List Char

/-! ## Character classes -/

/-- The Unicode `White_Space` code points: the set recognised by Rust's
`char::is_whitespace`, which underlies `str::trim` and
`str::split_whitespace`. -/
def wsCodes : List Nat :=
  [9, 10, 11, 12, 13, 32, 0x85, 0xA0, 0x1680,
   0x2000, 0x2001, 0x2002, 0x2003, 0x2004, 0x2005, 0x2006, 0x2007,
   0x2008, 0x2009, 0x200A, 0x2028, 0x2029, 0x202F, 0x205F, 0x3000]

/-- Model of Rust `char::is_whitespace`. -/
def isWS (c : Char) : Bool := wsCodes.contains c.toNat

/-- Model of an ASCII decimal digit test (`char::to_digit(10)` succeeds). -/
def isDigitC (c : Char) : Bool := 48 ≤ c.toNat ∧ c.toNat ≤ 57

/-! ## Basic string operations -/

/-- Model of Rust `str::trim` (drops `White_Space` from both ends). -/
def trimL (s : Str) : Str :=
  ((s.dropWhile isWS).reverse.dropWhile isWS).reverse

/-- Model of Rust `str::split(sep)` for a one-character pattern: every
occurrence separates, empty pieces included, at least one piece always. -/
def splitOnC (sep : Char) : Str → List Str
  | [] => [[]]
  | c :: cs =>
    if c = sep then [] :: splitOnC sep cs
    else
      match splitOnC sep cs with
      | [] => [[c]]
      | p :: ps => (c :: p) :: ps

/-- Strip a single trailing carriage return, as Rust `str::lines` does to
every line that was terminated by `"\r\n"`. -/
def stripCR (s : Str) : Str :=
  if s.getLast? = some '\r' then s.dropLast else s

/-- Helper for `linesR`: `\r`-strip every piece except the last (only
terminated lines lose their `\r`), and drop a final empty piece. -/
def linesCore : List Str → List Str
  | [] => []
  | [last] => if last = [] then [] else [last]
  | p :: q :: ps => stripCR p :: linesCore (q :: ps)

/-- Model of Rust `str::lines`: split at `\n`, strip one `\r` before each
`\n`, no final empty line. -/
def linesR (s : Str) : List Str := linesCore (splitOnC '\n' s)

/-- Auxiliary state machine for `splitWS`: `acc` is the current token,
reversed. -/
def splitWSAux : Str → Str → List Str
  | [], acc => if acc = [] then [] else [acc.reverse]
  | c :: cs, acc =>
    if isWS c then
      if acc = [] then splitWSAux cs [] else acc.reverse :: splitWSAux cs []
    else splitWSAux cs (c :: acc)

/-- Model of Rust `str::split_whitespace`: maximal runs of
non-whitespace characters. -/
def splitWS (s : Str) : List Str := splitWSAux s []

/-- Model of Rust `str::contains("-->")`. -/
def containsArrow : Str → Bool
  | c :: d :: e :: rest =>
    if c = '-' ∧ d = '-' ∧ e = '>' then true else containsArrow (d :: e :: rest)
  | _ => false

/-- Auxiliary for `splitArrow`; `acc` is the current piece, reversed. -/
def splitArrowAux : Str → Str → List Str
  | [], acc => [acc.reverse]
  | [c], acc => [(c :: acc).reverse]
  | [c, d], acc => [(d :: c :: acc).reverse]
  | c :: d :: e :: rest, acc =>
    if c = '-' ∧ d = '-' ∧ e = '>' then acc.reverse :: splitArrowAux rest []
    else splitArrowAux (d :: e :: rest) (c :: acc)

/-- Model of Rust `str::split("-->")` (leftmost, non-overlapping). -/
def splitArrow (s : Str) : List Str := splitArrowAux s []

/-- Split a string at the first occurrence of `sep`, as Rust
`str::find(sep)` plus slicing, or `str::split_once(sep)`. -/
def splitFirst (sep : Char) : Str → Option (Str × Str)
  | [] => none
  | c :: cs =>
    if c = sep then some ([], cs)
    else
      match splitFirst sep cs with
      | none => none
      | some (a, b) => some (c :: a, b)

/-- Model of Rust `str::starts_with(p)` for a literal pattern. -/
def startsWithL (p s : Str) : Bool := decide (s.take p.length = p)

/-- Model of Rust `str::strip_suffix('%')`. -/
def stripPct (s : Str) : Option Str :=
  if s.getLast? = some '%' then some s.dropLast else none

/-- `List.intercalate` specialised to one separator character (used where
the source calls `join("\n")` / `join(" ")`). -/
def joinSep (sep : Char) : List Str → Str
  | [] => []
  | [p] => p
  | p :: q :: ps => p ++ sep :: joinSep sep (q :: ps)

/-! ## Decimal numbers -/

/-- Value of an ASCII digit character. -/
def digitVal (c : Char) : Nat := c.toNat - 48

/-- Most-significant-digit-first accumulation of a digit string, the value
computed by Rust's integer `FromStr` on an all-digit input. -/
def parseDigits (s : Str) : Nat := s.foldl (fun a c => 10 * a + digitVal c) 0

/-- All characters are ASCII digits. -/
def allDigits (s : Str) : Bool := s.all isDigitC

/-- Drop one leading occurrence of `c` (the optional sign of Rust's
integer `FromStr`). -/
def stripLead (c : Char) : Str → Str
  | [] => []
  | d :: r => if d = c then r else d :: r

/-- The digit run of an unsigned `FromStr`: nonempty, all ASCII digits,
value below `bound`. -/
def parseUBounded (bound : Nat) (t : Str) : Option Nat :=
  if t ≠ [] ∧ allDigits t then
    if parseDigits t < bound then some (parseDigits t) else none
  else none

/-- Model of Rust `u64::from_str`: an optional leading `+`, then one or
more ASCII digits, value below `2 ^ 64`. -/
def parseU64 (s : Str) : Option Nat := parseUBounded (2 ^ 64) (stripLead '+' s)

/-- Model of Rust `u32::from_str`. -/
def parseU32 (s : Str) : Option Nat := parseUBounded (2 ^ 32) (stripLead '+' s)

/-- The body of `parseI32` once the input is known to be nonempty. -/
def parseI32Core (c : Char) (r : Str) : Option Int :=
  if c = '-' then
    if r ≠ [] ∧ allDigits r then
      if parseDigits r ≤ 2 ^ 31 then some (-(parseDigits r : Int)) else none
    else none
  else
    let t := if c = '+' then r else c :: r
    if t ≠ [] ∧ allDigits t then
      if parseDigits t < 2 ^ 31 then some ((parseDigits t : Int)) else none
    else none

/-- Model of Rust `i32::from_str`: optional sign, digits, value within
`[-2^31, 2^31)`. -/
def parseI32 (s : Str) : Option Int :=
  match s with
  | [] => none
  | c :: r => parseI32Core c r

/-- The ASCII character of a decimal digit. -/
def digitCh : Nat → Char
  | 0 => '0' | 1 => '1' | 2 => '2' | 3 => '3' | 4 => '4'
  | 5 => '5' | 6 => '6' | 7 => '7' | 8 => '8' | _ => '9'

/-- Fuel-driven digit rendering (structural recursion, so that concrete
values reduce in the kernel). -/
def natCharsAux : Nat → Nat → Str
  | 0, _ => []
  | fuel + 1, n =>
    if n < 10 then [digitCh n] else natCharsAux fuel (n / 10) ++ [digitCh (n % 10)]

/-- Decimal rendering of a natural number (Rust `Display` for unsigned
integers). -/
def natChars (n : Nat) : Str := natCharsAux (n + 1) n

/-- Decimal rendering of an integer (Rust `Display` for `i32`). -/
def intChars (z : Int) : Str :=
  if z < 0 then '-' :: natChars z.natAbs else natChars z.toNat

/-- Zero-pad on the left to width `k`, Rust's `{:0k}` format. -/
def padZeros (k : Nat) (s : Str) : Str :=
  List.replicate (k - s.length) '0' ++ s

/-! ## The error taxonomy (`enum VttParseError`) -/

/-- Model of `VttParseError` in `src/lib.rs`. -/
inductive VttParseError where
  | invalidFormat
  | invalidHours
  | invalidMinutes
  | invalidSeconds
  | invalidMilliseconds
  | invalidSetting (s : Str)
  | missingHeader
  | invalidMetadataLine (line : Str)
deriving DecidableEq, Repr

/-! ## Timestamps (`VttTimestamp`) -/

/-- The fractional branch of `parse_seconds_ms` (src/lib.rs:104-131): a
fractional part shorter than 3 characters is right-zero-padded, a longer
one is parsed literally. -/
def parseSecondsMsFrac (secs ms : Str) : Except VttParseError (Nat × Nat) :=
  match parseU64 secs with
  | none => .error .invalidSeconds
  | some sec =>
    match parseU64 (if ms.length = 3 then ms
                    else ms ++ List.replicate (3 - ms.length) '0') with
    | none => .error .invalidMilliseconds
    | some m => .ok (sec, m)

/-- The fraction-free branch of `parse_seconds_ms`. -/
def parseSecondsMsPlain (s : Str) : Except VttParseError (Nat × Nat) :=
  match parseU64 s with
  | none => .error .invalidSeconds
  | some sec => .ok (sec, 0)

/-- Model of the free function `parse_seconds_ms` (src/lib.rs:104-131):
split the seconds token at the first `.`. -/
def parseSecondsMs (s : Str) : Except VttParseError (Nat × Nat) :=
  match splitFirst '.' s with
  | some (secs, ms) => parseSecondsMsFrac secs ms
  | none => parseSecondsMsPlain s

/-- The `HH:MM:SS.mmm` branch of `VttTimestamp::from_str`: any
colon-separated parts beyond the third are never inspected by the
source, so they do not appear here. -/
def tsFromHMS (first second third : Str) : Except VttParseError Nat :=
  match parseU64 first with
  | none => .error .invalidHours
  | some hours =>
    match parseU64 second with
    | none => .error .invalidMinutes
    | some minutes =>
      match parseSecondsMs third with
      | .error e => .error e
      | .ok (seconds, milliseconds) =>
        .ok ((hours * 3600000 + minutes * 60000 + seconds * 1000 + milliseconds) % 2 ^ 64)

/-- The `MM:SS.mmm` branch of `VttTimestamp::from_str`. -/
def tsFromMS (first second : Str) : Except VttParseError Nat :=
  match parseU64 first with
  | none => .error .invalidMinutes
  | some minutes =>
    match parseSecondsMs second with
    | .error e => .error e
    | .ok (seconds, milliseconds) =>
      .ok ((minutes * 60000 + seconds * 1000 + milliseconds) % 2 ^ 64)

/-- Model of `VttTimestamp::from_str` (src/lib.rs:64-102).  The result is
the total number of milliseconds of the produced `Duration`; the `u64`
arithmetic of the source wraps modulo `2 ^ 64`. -/
def parseTimestamp (s : Str) : Except VttParseError Nat :=
  match splitOnC ':' s with
  | [] => .error .invalidFormat
  | [_] => .error .invalidFormat
  | [first, second] => tsFromMS first second
  | first :: second :: third :: _ => tsFromHMS first second third

/-- Model of `impl fmt::Display for VttTimestamp` (src/lib.rs:133-148). -/
def formatTs (v : Nat) : Str :=
  padZeros 2 (natChars (v / 3600000)) ++ ':' ::
  (padZeros 2 (natChars (v % 3600000 / 60000)) ++ ':' ::
   (padZeros 2 (natChars (v % 60000 / 1000)) ++ '.' ::
    padZeros 3 (natChars (v % 1000))))

/-- The canonical zero-padded `HH:MM:SS.mmm` rendering of a total
millisecond value, written from the spec's words (hours zero-padded to at
least 2 digits, minutes and seconds in `[0,59]` zero-padded to 2 digits,
milliseconds zero-padded to 3 digits); stated independently of
`formatTs` so their equality is the refinement check of claim C1. -/
def canonicalTs (v : Nat) : Str :=
  padZeros 2 (natChars (v / 3600000)) ++ ':' ::
  (padZeros 2 (natChars (v / 60000 % 60)) ++ ':' ::
   (padZeros 2 (natChars (v / 1000 % 60)) ++ '.' ::
    padZeros 3 (natChars (v % 1000))))

/-- A valid timestamp string of the shapes claim C1 quantifies over:
`H+:MM:SS.mmm` when `hd = some hourDigits`, `MM:SS.mmm` when
`hd = none`, fraction optional. -/
def tsString (hd : Option Str) (m s2 : Nat) (fr : Option Nat) : Str :=
  match hd with
  | some x =>
    x ++ ':' ::
      (padZeros 2 (natChars m) ++ ':' ::
       (padZeros 2 (natChars s2) ++
        match fr with
        | some y => '.' :: padZeros 3 (natChars y)
        | none => []))
  | none =>
    padZeros 2 (natChars m) ++ ':' ::
      (padZeros 2 (natChars s2) ++
       match fr with
       | some y => '.' :: padZeros 3 (natChars y)
       | none => [])

/-- The total millisecond value denoted by `tsString hd m s2 fr`. -/
def tsValue (hd : Option Str) (m s2 : Nat) (fr : Option Nat) : Nat :=
  (match hd with
   | some x => parseDigits x
   | none => 0) * 3600000 + m * 60000 + s2 * 1000 +
  (match fr with
   | some y => y
   | none => 0)

/-! ## Settings (`VttSettings`, `parse_settings`) -/

/-- Model of `enum VerticalSetting`. -/
inductive VerticalSetting where
  | rightToLeft
  | leftToRight
deriving DecidableEq, Repr

/-- Model of `enum LineSetting`. -/
inductive LineSetting where
  | percentage (n : Nat)
  | number (n : Int)
  | auto
deriving DecidableEq, Repr

/-- Model of `enum AlignSetting`. -/
inductive AlignSetting where
  | start
  | middle
  | end_
  | left
  | right
deriving DecidableEq, Repr

/-- Model of `struct VttSettings`. -/
structure VttSettings where
  vertical : Option VerticalSetting
  line : Option LineSetting
  position : Option Nat
  size : Option Nat
  align : Option AlignSetting
deriving DecidableEq, Repr

/-- `VttSettings::default()`: every field absent. -/
def defaultSettings : VttSettings := ⟨none, none, none, none, none⟩

/-- The `"vertical"` arm of the `parse_settings` key match. -/
def applyVertical (settings : VttSettings) (value : Str) : Except VttParseError VttSettings :=
  if value = ("rl").toList then .ok { settings with vertical := some .rightToLeft }
  else if value = ("lr").toList then .ok { settings with vertical := some .leftToRight }
  else .error (.invalidSetting (("vertical:").toList ++ value))

/-- The percentage case of the `"line"` arm. -/
def applyLinePct (settings : VttSettings) (stripped : Str) : Except VttParseError VttSettings :=
  match parseU32 stripped with
  | some percent => .ok { settings with line := some (.percentage percent) }
  | none => .error (.invalidSetting ("line percentage").toList)

/-- The line-number case of the `"line"` arm. -/
def applyLineNum (settings : VttSettings) (value : Str) : Except VttParseError VttSettings :=
  match parseI32 value with
  | some number => .ok { settings with line := some (.number number) }
  | none => .error (.invalidSetting ("line number").toList)

/-- The `"line"` arm of the `parse_settings` key match. -/
def applyLine (settings : VttSettings) (value : Str) : Except VttParseError VttSettings :=
  if value = ("auto").toList then .ok { settings with line := some .auto }
  else
    match stripPct value with
    | some stripped => applyLinePct settings stripped
    | none => applyLineNum settings value

/-- The `%`-suffixed value grammar shared by `position` and `size`: the
source's two `InvalidSetting` exits (missing `%` suffix and unparsable
number) carry the same payload, so they are collapsed into the `none`
case here. -/
def pctValue (value : Str) : Option Nat :=
  match stripPct value with
  | some stripped => parseU32 stripped
  | none => none

/-- The `"position"` arm of the `parse_settings` key match. -/
def applyPosition (settings : VttSettings) (value : Str) : Except VttParseError VttSettings :=
  match pctValue value with
  | some pos => .ok { settings with position := some pos }
  | none => .error (.invalidSetting ("position").toList)

/-- The `"size"` arm of the `parse_settings` key match. -/
def applySize (settings : VttSettings) (value : Str) : Except VttParseError VttSettings :=
  match pctValue value with
  | some size => .ok { settings with size := some size }
  | none => .error (.invalidSetting ("size").toList)

/-- The `"align"` arm of the `parse_settings` key match. -/
def applyAlign (settings : VttSettings) (value : Str) : Except VttParseError VttSettings :=
  if value = ("start").toList then .ok { settings with align := some .start }
  else if value = ("middle").toList then .ok { settings with align := some .middle }
  else if value = ("end").toList then .ok { settings with align := some .end_ }
  else if value = ("left").toList then .ok { settings with align := some .left }
  else if value = ("right").toList then .ok { settings with align := some .right }
  else .error (.invalidSetting (("align:").toList ++ value))

/-- The key dispatch of the `parse_settings` loop body. -/
def applyKV (settings : VttSettings) (key value : Str) : Except VttParseError VttSettings :=
  if key = ("vertical").toList then applyVertical settings value
  else if key = ("line").toList then applyLine settings value
  else if key = ("position").toList then applyPosition settings value
  else if key = ("size").toList then applySize settings value
  else if key = ("align").toList then applyAlign settings value
  else .error (.invalidSetting (("Unknown setting: ").toList ++ key))

/-- One iteration of the `for setting in settings_str.split_whitespace()`
loop of `parse_settings` (src/lib.rs:262-347). -/
def applyToken (settings : VttSettings) (tok : Str) : Except VttParseError VttSettings :=
  match splitFirst ':' tok with
  | none => .error (.invalidSetting (("Invalid setting format: ").toList ++ tok))
  | some (key, value) => applyKV settings key value

/-- The whole token loop of `parse_settings`. -/
def settingsLoop (settings : VttSettings) : List Str → Except VttParseError VttSettings
  | [] => .ok settings
  | t :: ts =>
    match applyToken settings t with
    | .error e => .error e
    | .ok s2 => settingsLoop s2 ts

/-- Model of `parse_settings` (src/lib.rs:262-347). -/
def parseSettings (s : Str) : Except VttParseError VttSettings :=
  settingsLoop defaultSettings (splitWS s)

/-- The token pushed for the `vertical` field by
`impl fmt::Display for VttSettings` (src/lib.rs:408-448). -/
def vertTokens : Option VerticalSetting → List Str
  | some .rightToLeft => [("vertical:rl").toList]
  | some .leftToRight => [("vertical:lr").toList]
  | none => []

/-- The token pushed for the `line` field (`line:<n>%`, `line:<n>`, or
`line:auto`). -/
def lineTokens : Option LineSetting → List Str
  | some (.percentage n) => [("line").toList ++ ':' :: (natChars n ++ ['%'])]
  | some (.number n) => [("line").toList ++ ':' :: intChars n]
  | some .auto => [("line:auto").toList]
  | none => []

/-- The token pushed for the `position` field. -/
def posTokens : Option Nat → List Str
  | some n => [("position").toList ++ ':' :: (natChars n ++ ['%'])]
  | none => []

/-- The token pushed for the `size` field. -/
def sizeTokens : Option Nat → List Str
  | some n => [("size").toList ++ ':' :: (natChars n ++ ['%'])]
  | none => []

/-- The token pushed for the `align` field. -/
def alignTokens : Option AlignSetting → List Str
  | some .start => [("align:start").toList]
  | some .middle => [("align:middle").toList]
  | some .end_ => [("align:end").toList]
  | some .left => [("align:left").toList]
  | some .right => [("align:right").toList]
  | none => []

/-- The token list pushed by `impl fmt::Display for VttSettings`
(src/lib.rs:408-448), in the fixed field order. -/
def settingsTokens (st : VttSettings) : List Str :=
  vertTokens st.vertical ++
  (lineTokens st.line ++ (posTokens st.position ++ (sizeTokens st.size ++ alignTokens st.align)))

/-- Effect of one `vertical` token on the accumulator (no token when the
field is absent). -/
def setVert (acc : VttSettings) : Option VerticalSetting → VttSettings
  | none => acc
  | some v => { acc with vertical := some v }

/-- Effect of one `line` token on the accumulator. -/
def setLine (acc : VttSettings) : Option LineSetting → VttSettings
  | none => acc
  | some l => { acc with line := some l }

/-- Effect of one `position` token on the accumulator. -/
def setPos (acc : VttSettings) : Option Nat → VttSettings
  | none => acc
  | some n => { acc with position := some n }

/-- Effect of one `size` token on the accumulator. -/
def setSize (acc : VttSettings) : Option Nat → VttSettings
  | none => acc
  | some n => { acc with size := some n }

/-- Effect of one `align` token on the accumulator. -/
def setAlign (acc : VttSettings) : Option AlignSetting → VttSettings
  | none => acc
  | some a => { acc with align := some a }

/-- Model of `impl fmt::Display for VttSettings`: the tokens joined with
single spaces. -/
def formatSettings (st : VttSettings) : Str := joinSep ' ' (settingsTokens st)

/-! ## Cues (`VttCue`) -/

/-- Model of `struct VttCue`. -/
structure VttCue where
  identifier : Option Str
  start : Nat
  end_ : Nat
  settings : Option VttSettings
  payload : Str
deriving DecidableEq, Repr

/-- The optional-settings step of `VttCue::from_str`: the settings string
is parsed only when non-empty. -/
def parseOptSettings (settingsStr : Str) : Except VttParseError (Option VttSettings) :=
  if settingsStr ≠ [] then
    match parseSettings settingsStr with
    | .error e => .error e
    | .ok st => .ok (some st)
  else .ok none

/-- `VttCue::from_str` once the start timestamp, the end timestamp and
the settings token list are known. -/
def cueAfterEnd (identifier : Option Str) (start end_ : Nat) (settingToks : List Str)
    (rest : List Str) : Except VttParseError VttCue :=
  match parseOptSettings (joinSep ' ' settingToks) with
  | .error e => .error e
  | .ok st => .ok ⟨identifier, start, end_, st, joinSep '\n' rest⟩

/-- `VttCue::from_str` once the start timestamp and the end token are
known. -/
def cueAfterEndTok (identifier : Option Str) (start : Nat) (endTok : Str)
    (settingToks : List Str) (rest : List Str) : Except VttParseError VttCue :=
  match parseTimestamp endTok with
  | .error e => .error e
  | .ok end_ => cueAfterEnd identifier start end_ settingToks rest

/-- `VttCue::from_str` once the start timestamp is known: the right part
of the timing line is whitespace-split into the end token and the
settings tokens. -/
def cueAfterStart (identifier : Option Str) (start : Nat) (b : Str)
    (rest : List Str) : Except VttParseError VttCue :=
  match splitWS (trimL b) with
  | [] => .error .invalidFormat
  | endTok :: settingToks => cueAfterEndTok identifier start endTok settingToks rest

/-- The part of `VttCue::from_str` after the timing line has been split on
`-->` into exactly the two parts `a` and `b`. -/
def cueCore2 (identifier : Option Str) (a b : Str) (rest : List Str) :
    Except VttParseError VttCue :=
  match parseTimestamp (trimL a) with
  | .error e => .error e
  | .ok start => cueAfterStart identifier start b rest

/-- The part of `VttCue::from_str` after the timing line has been
identified: the timing line must split on `-->` into exactly two parts. -/
def cueCore (identifier : Option Str) (timing : Str) (rest : List Str) :
    Except VttParseError VttCue :=
  match splitArrow timing with
  | [a, b] => cueCore2 identifier a b rest
  | _ => .error .invalidFormat

/-- Model of `VttCue::from_str` (src/lib.rs:186-239). -/
def VttCue.fromStr (s : Str) : Except VttParseError VttCue :=
  match linesR s with
  | [] => .error .invalidFormat
  | firstLine :: rest0 =>
    if containsArrow firstLine then cueCore none firstLine rest0
    else
      match rest0 with
      | [] => .error .invalidFormat
      | timing :: rest => cueCore (some firstLine) timing rest

/-- Model of `impl fmt::Display for VttCue` (src/lib.rs:349-371). -/
def formatCue (c : VttCue) : Str :=
  (match c.identifier with
   | some id => id ++ ['\n']
   | none => []) ++
  formatTs c.start ++ (" --> ").toList ++ formatTs c.end_ ++
  (match c.settings with
   | some st =>
     let s := formatSettings st
     if s ≠ [] then ' ' :: s else []
   | none => []) ++
  '\n' :: trimL c.payload

/-! ## Header and document (`VttHeader`, `WebVtt`) -/

/-- Model of `struct VttHeader`.  The `HashMap<String, String>` is
modelled as an insertion-ordered association list. -/
structure VttHeader where
  description : Option Str
  metadata : List (Str × Str)
deriving DecidableEq, Repr

/-- Model of `HashMap::insert`: replace the value in place if the key is
present, append otherwise. -/
def metaInsert (k v : Str) : List (Str × Str) → List (Str × Str)
  | [] => [(k, v)]
  | (k2, v2) :: rest =>
    if k2 = k then (k, v) :: rest else (k2, v2) :: metaInsert k v rest

/-- Model of `struct WebVtt`. -/
structure WebVtt where
  header : VttHeader
  cues : List VttCue
deriving DecidableEq, Repr

/-- The metadata loop of `WebVtt::from_str`: consume `key: value` lines
until the first blank line, returning the map together with the lines
remaining after the blank. -/
def parseMeta (meta : List (Str × Str)) : List Str →
    Except VttParseError (List (Str × Str) × List Str)
  | [] => .ok (meta, [])
  | l :: ls =>
    if trimL l = [] then .ok (meta, ls)
    else
      match splitFirst ':' (trimL l) with
      | some (k, v) => parseMeta (metaInsert (trimL k) (trimL v) meta) ls
      | none => .error (.invalidMetadataLine (trimL l))

/-- The cue loop of `WebVtt::from_str`: group lines by blank-line
separators; `group` holds the current group's lines in reverse. -/
def parseCues (group : List Str) : List Str → Except VttParseError (List VttCue)
  | [] =>
    if group = [] then .ok []
    else
      match VttCue.fromStr (joinSep '\n' group.reverse) with
      | .error e => .error e
      | .ok c => .ok [c]
  | l :: ls =>
    if trimL l = [] then
      if group = [] then parseCues [] ls
      else
        match VttCue.fromStr (joinSep '\n' group.reverse) with
        | .error e => .error e
        | .ok c =>
          match parseCues [] ls with
          | .error e => .error e
          | .ok cs => .ok (c :: cs)
    else parseCues (l :: group) ls

/-- `WebVtt::from_str` once the header metadata has been consumed. -/
def docAfterMeta (description : Option Str) (meta : List (Str × Str))
    (remaining : List Str) : Except VttParseError WebVtt :=
  match parseCues [] remaining with
  | .error e => .error e
  | .ok cues => .ok ⟨⟨description, meta⟩, cues⟩

/-- `WebVtt::from_str` once the `WEBVTT` marker has been checked and the
description extracted. -/
def docBody (description : Option Str) (rest : List Str) :
    Except VttParseError WebVtt :=
  match parseMeta [] rest with
  | .error e => .error e
  | .ok (meta, remaining) => docAfterMeta description meta remaining

/-- The description of the first (already trimmed) header line: the text
after the 6-byte `WEBVTT` marker, trimmed, when anything follows it. -/
def headerDescription (firstLine : Str) : Option Str :=
  if 6 < firstLine.length then some (trimL (firstLine.drop 6)) else none

/-- Model of `WebVtt::from_str` (src/lib.rs:627-685). -/
def WebVtt.fromStr (s : Str) : Except VttParseError WebVtt :=
  match linesR s with
  | [] => .error .invalidFormat
  | l0 :: rest =>
    if startsWithL ("WEBVTT").toList (trimL l0) then
      docBody (headerDescription (trimL l0)) rest
    else .error .missingHeader

/-- The metadata lines written by `impl fmt::Display for WebVtt`. -/
def formatMeta : List (Str × Str) → Str
  | [] => []
  | (k, v) :: rest => k ++ ':' :: ' ' :: v ++ '\n' :: formatMeta rest

/-- The cue loop of `impl fmt::Display for WebVtt`: two `writeln!` (bare
newlines) before every cue except the first. -/
def formatCuesLoop (isFirst : Bool) : List VttCue → Str
  | [] => []
  | c :: cs =>
    (if isFirst then [] else ['\n', '\n']) ++ formatCue c ++ formatCuesLoop false cs

/-- Model of `impl fmt::Display for WebVtt` (src/lib.rs:687-716). -/
def formatDoc (d : WebVtt) : Str :=
  ("WEBVTT").toList ++
  (match d.header.description with
   | some ds => ' ' :: ds
   | none => []) ++ '\n' ::
  (formatMeta d.header.metadata ++ '\n' :: formatCuesLoop true d.cues)

/-- `f` applied to every element except the last. -/
def mapExceptLast (f : Str → Str) : List Str → List Str
  | [] => []
  | [x] => [x]
  | x :: y :: r => f x :: mapExceptLast f (y :: r)

/-- The tokens the claim C6 is about: no colon at all, or an unrecognized
key before the first colon. -/
def badTokenB (t : Str) : Bool :=
  match splitFirst ':' t with
  | none => true
  | some (k, _) =>
    if k = ("vertical").toList ∨ k = ("line").toList ∨ k = ("position").toList ∨
       k = ("size").toList ∨ k = ("align").toList then false else true

/-- Join pieces with a multi-character separator (used to state the
spec-side layout of a formatted document). -/
def sepJoin (sep : Str) : List Str → Str
  | [] => []
  | [p] => p
  | p :: q :: ps => p ++ sep ++ sepJoin sep (q :: ps)

/-- The document layout claimed by the spec (claim C8), written
independently of `formatDoc`: the `WEBVTT` line (with a space and the
description when present), one `key: value` line per metadata entry, one
blank line, then the formatted cues joined by one blank line (`"\n\n"`),
with no trailing separator. -/
def docLayout (d : WebVtt) : Str :=
  ("WEBVTT").toList ++
  (match d.header.description with
   | some ds => ' ' :: ds
   | none => []) ++ '\n' ::
  ((d.header.metadata.map (fun kv => kv.1 ++ ':' :: ' ' :: kv.2 ++ ['\n'])).flatten ++
   '\n' :: sepJoin ['\n', '\n'] (d.cues.map formatCue))

/-! ## Definitions for the document round trip (claim C7) -/

/-- Trim only leading whitespace (`str::trim_start`). -/
def trimStartL (s : Str) : Str := s.dropWhile isWS

/-- Trim only trailing whitespace (`str::trim_end`). -/
def trimEndL (s : Str) : Str := (s.reverse.dropWhile isWS).reverse

/-- Every character of the string is whitespace. -/
def AllWS (s : Str) : Prop := ∀ c ∈ s, isWS c = true

/-- The numeric fields a parsed settings record holds stay within the
`u32`/`i32` machine ranges the code reads them with. -/
def SettingsBounds (st : VttSettings) : Prop :=
  (∀ n, st.line = some (.percentage n) → n < 2 ^ 32) ∧
  (∀ z, st.line = some (.number z) → -(2 ^ 31) ≤ z ∧ z < 2 ^ 31) ∧
  (∀ n, st.position = some n → n < 2 ^ 32) ∧
  (∀ n, st.size = some n → n < 2 ^ 32)

/-- At least one of the five optional settings fields is set. -/
def HasSome (st : VttSettings) : Prop :=
  st.vertical.isSome = true ∨ st.line.isSome = true ∨ st.position.isSome = true ∨
  st.size.isSome = true ∨ st.align.isSome = true

/-- Structural invariant of every cue produced by a successful parse: the
identifier (when present) is a non-blank newline-free line that does not
contain `-->`; the timestamps fit in `u64`; the settings (when present)
satisfy the machine-range bounds and set at least one field; and the
trimmed payload is empty or splits into non-blank lines. -/
def GoodCue (c : VttCue) : Prop :=
  (∀ id, c.identifier = some id →
    containsArrow id = false ∧ trimL id ≠ [] ∧ '\n' ∉ id) ∧
  c.start < 2 ^ 64 ∧ c.end_ < 2 ^ 64 ∧
  (∀ st, c.settings = some st → SettingsBounds st ∧ HasSome st) ∧
  (trimL c.payload = [] ∨ ∀ q ∈ splitOnC '\n' (trimL c.payload), trimL q ≠ [])

/-- Structural invariant of the header description produced by a
successful parse: trimmed, non-empty and newline-free. -/
def DescOK : Option Str → Prop
  | none => True
  | some x => trimL x = x ∧ x ≠ [] ∧ '\n' ∉ x

/-- Structural invariant of the metadata list produced by a successful
parse: keys and values trimmed and newline-free, keys colon-free and
pairwise distinct. -/
def MetaOK (meta : List (Str × Str)) : Prop :=
  (∀ kv ∈ meta, trimL kv.1 = kv.1 ∧ trimL kv.2 = kv.2 ∧
    ':' ∉ kv.1 ∧ '\n' ∉ kv.1 ∧ '\n' ∉ kv.2) ∧
  meta.Pairwise (fun a b => a.1 ≠ b.1)

/-- Structural invariant of every document produced by a successful
parse. -/
def GoodDoc (d : WebVtt) : Prop :=
  DescOK d.header.description ∧ MetaOK d.header.metadata ∧ ∀ c ∈ d.cues, GoodCue c

/-- A cue whose formatted block survives line splitting unchanged: the
identifier does not end with a carriage return, and no line of the
trimmed payload does.  (`str::lines` strips a carriage return at the end
of every line, so a formatted `\r` before a line break is lost on
reparse.) -/
def CRSafeCue (c : VttCue) : Prop :=
  (∀ id, c.identifier = some id → id.getLast? ≠ some '\r') ∧
  (∀ q ∈ splitOnC '\n' (trimL c.payload), q.getLast? ≠ some '\r')

/-- No cue of the document formats a carriage return before a line
break. -/
def CRSafe (d : WebVtt) : Prop := ∀ c ∈ d.cues, CRSafeCue c

/-- The normalization the formatter applies to a cue: `Display for
VttCue` writes `self.payload.trim()`, so one format-parse pass replaces
the stored payload by its trim. -/
def normCue (c : VttCue) : VttCue := { c with payload := trimL c.payload }

/-- The normalization one format-parse pass applies to a whole
document. -/
def normDoc (d : WebVtt) : WebVtt := { d with cues := d.cues.map normCue }

/-- The `key: value` metadata line written by the document formatter. -/
def metaLine (kv : Str × Str) : Str := kv.1 ++ ':' :: ' ' :: kv.2

/-- The settings tail the cue formatter appends to the timing line. -/
def settingsPart : Option VttSettings → Str
  | some st =>
    let s := formatSettings st
    if s ≠ [] then ' ' :: s else []
  | none => []

/-- The timing line written by the cue formatter. -/
def timingLine (c : VttCue) : Str :=
  formatTs c.start ++ (" --> ").toList ++ formatTs c.end_ ++ settingsPart c.settings

/-- The payload lines written by the cue formatter (none when the
trimmed payload is empty). -/
def cueTailLines (c : VttCue) : List Str :=
  if trimL c.payload = [] then [] else splitOnC '\n' (trimL c.payload)

/-- The lines of one formatted cue. -/
def blockLines (c : VttCue) : List Str :=
  (match c.identifier with
   | some id => [id]
   | none => []) ++ timingLine c :: cueTailLines c

/-- The header line written by the document formatter. -/
def headerLine (d : WebVtt) : Str :=
  ("WEBVTT").toList ++
  (match d.header.description with
   | some ds => ' ' :: ds
   | none => [])

/-! ## Lemmas: decimal digits -/

theorem natCharsAux_irrel (f1 f2 n : Nat) (h1 : n < f1) (h2 : n < f2) :
    natCharsAux f1 n = natCharsAux f2 n := by
  induction n using Nat.strongRecOn generalizing f1 f2 with
  | _ n ih =>
    match f1, f2 with
    | g1 + 1, g2 + 1 =>
      simp only [natCharsAux]
      by_cases hn : n < 10
      · simp [hn]
      · simp only [if_neg hn]
        have hd : n / 10 < n := Nat.div_lt_self (by omega) (by omega)
        rw [ih (n / 10) hd g1 g2 (by omega) (by omega)]

/-- The recursion equation satisfied by `natChars`. -/
theorem natChars_eq (n : Nat) :
    natChars n = if n < 10 then [digitCh n] else natChars (n / 10) ++ [digitCh (n % 10)] := by
  show natCharsAux (n + 1) n = _
  simp only [natCharsAux]
  by_cases hn : n < 10
  · simp [hn]
  · simp only [if_neg hn]
    rw [natCharsAux_irrel n (n / 10 + 1) (n / 10)
      (Nat.div_lt_self (by omega) (by omega)) (Nat.lt_succ_self _)]
    rfl

theorem digitVal_digitCh {d : Nat} (h : d < 10) : digitVal (digitCh d) = d := by
  interval_cases d <;> rfl

theorem isDigitC_digitCh {d : Nat} (h : d < 10) : isDigitC (digitCh d) = true := by
  interval_cases d <;> rfl

theorem parseDigits_cons (c : Char) (s : Str) :
    parseDigits (c :: s) = List.foldl (fun a x => 10 * a + digitVal x) (digitVal c) s := by
  simp [parseDigits]

theorem foldl_digits_eq (s : Str) (init : Nat) :
    List.foldl (fun a c => 10 * a + digitVal c) init s =
      init * 10 ^ s.length + parseDigits s := by
  induction s generalizing init with
  | nil => simp [parseDigits]
  | cons c cs ih =>
    simp only [List.foldl_cons, List.length_cons]
    rw [ih, parseDigits_cons c cs, ih (digitVal c)]
    ring

theorem parseDigits_append (a b : Str) :
    parseDigits (a ++ b) = parseDigits a * 10 ^ b.length + parseDigits b := by
  unfold parseDigits
  rw [List.foldl_append]
  exact foldl_digits_eq b _

theorem parseDigits_natChars (n : Nat) : parseDigits (natChars n) = n := by
  induction n using Nat.strongRecOn with
  | _ n ih =>
    rw [natChars_eq]
    by_cases hn : n < 10
    · simp only [if_pos hn]
      show 10 * 0 + digitVal (digitCh n) = n
      rw [digitVal_digitCh hn]; omega
    · simp only [if_neg hn]
      rw [parseDigits_append, ih (n / 10) (Nat.div_lt_self (by omega) (by omega))]
      have : parseDigits [digitCh (n % 10)] = n % 10 := by
        show 10 * 0 + digitVal (digitCh (n % 10)) = n % 10
        rw [digitVal_digitCh (Nat.mod_lt _ (by omega))]; omega
      rw [this]
      simp only [List.length_singleton, pow_one]
      omega

theorem natChars_ne_nil (n : Nat) : natChars n ≠ [] := by
  rw [natChars_eq]
  by_cases hn : n < 10 <;> simp [hn]

theorem allDigits_natChars (n : Nat) : allDigits (natChars n) = true := by
  induction n using Nat.strongRecOn with
  | _ n ih =>
    rw [natChars_eq]
    by_cases hn : n < 10
    · simp only [if_pos hn, allDigits, List.all_cons, List.all_nil, Bool.and_true]
      exact isDigitC_digitCh hn
    · simp only [if_neg hn, allDigits, List.all_append]
      refine Bool.and_eq_true_iff.mpr ⟨ih (n / 10) (Nat.div_lt_self (by omega) (by omega)), ?_⟩
      have hlt : n % 10 < 10 := Nat.mod_lt n (by omega)
      simp [isDigitC_digitCh hlt]

theorem natChars_length_le {n k : Nat} (hk : 0 < k) (h : n < 10 ^ k) :
    (natChars n).length ≤ k := by
  induction n using Nat.strongRecOn generalizing k with
  | _ n ih =>
    rw [natChars_eq]
    by_cases hn : n < 10
    · simp only [if_pos hn, List.length_singleton]; omega
    · simp only [if_neg hn, List.length_append, List.length_singleton]
      have hk2 : 2 ≤ k := by
        by_contra hcon
        have hk1 : k = 1 := by omega
        subst hk1
        rw [pow_one] at h
        omega
      have hdiv : n / 10 < 10 ^ (k - 1) := by
        have hpow : n < 10 * 10 ^ (k - 1) := by
          have : 10 * 10 ^ (k - 1) = 10 ^ k := by
            obtain ⟨j, rfl⟩ : ∃ j, k = j + 1 := ⟨k - 1, by omega⟩
            simp [pow_succ, Nat.mul_comm]
          omega
        exact Nat.div_lt_of_lt_mul hpow
      have := ih (n / 10) (Nat.div_lt_self (by omega) (by omega)) (by omega) hdiv
      omega

theorem parseDigits_replicate_zero (j : Nat) : parseDigits (List.replicate j '0') = 0 := by
  induction j with
  | zero => rfl
  | succ j ih =>
    rw [List.replicate_succ, parseDigits_cons]
    have : digitVal '0' = 0 := rfl
    rw [this, foldl_digits_eq, ih]
    simp

theorem parseDigits_padZeros (k : Nat) (s : Str) :
    parseDigits (padZeros k s) = parseDigits s := by
  unfold padZeros
  rw [parseDigits_append, parseDigits_replicate_zero]
  simp

theorem allDigits_padZeros {k : Nat} {s : Str} (h : allDigits s = true) :
    allDigits (padZeros k s) = true := by
  unfold padZeros allDigits
  rw [List.all_append]
  refine Bool.and_eq_true_iff.mpr ⟨?_, h⟩
  simp only [List.all_eq_true]
  intro c hc
  rw [List.eq_of_mem_replicate hc]
  rfl

theorem padZeros_ne_nil {k : Nat} {s : Str} (h : s ≠ []) : padZeros k s ≠ [] := by
  unfold padZeros
  simp [h]

theorem padZeros_length {k : Nat} {s : Str} (h : s.length ≤ k) :
    (padZeros k s).length = k := by
  unfold padZeros
  simp only [List.length_append, List.length_replicate]
  omega

theorem padZeros_tsLen {v k : Nat} (hk : 0 < k) (hv : v < 10 ^ k) :
    (padZeros k (natChars v)).length = k :=
  padZeros_length (natChars_length_le hk hv)

/-! ## Lemmas: character classes -/

theorem isDigitC_range {c : Char} (h : isDigitC c = true) :
    48 ≤ c.toNat ∧ c.toNat ≤ 57 := by
  simpa [isDigitC] using h

theorem isDigitC_ne {c k : Char} (h : isDigitC c = true) (hk : isDigitC k = false) :
    c ≠ k := by
  intro hck
  rw [hck] at h
  rw [h] at hk
  cases hk

theorem isWS_of_digit {c : Char} (h : isDigitC c = true) : isWS c = false := by
  obtain ⟨h1, h2⟩ := isDigitC_range h
  unfold isWS
  by_contra hcon
  rw [Bool.not_eq_false] at hcon
  have : c.toNat ∈ wsCodes := by
    simpa [List.contains] using hcon
  simp only [wsCodes, List.mem_cons, List.not_mem_nil, or_false] at this
  omega

theorem allDigits_mem {s : Str} (h : allDigits s = true) {c : Char} (hc : c ∈ s) :
    isDigitC c = true := by
  unfold allDigits at h
  exact (List.all_eq_true.mp h) c hc

/-! ## Lemmas: integer parsing round trips -/

theorem stripLead_of_digits {s : Str} {c : Char} (hne : s ≠ [])
    (hd : allDigits s = true) (hc : isDigitC c = false) : stripLead c s = s := by
  match s with
  | x :: r =>
    have hx : isDigitC x = true := allDigits_mem hd (List.mem_cons_self x r)
    show (if x = c then r else x :: r) = x :: r
    rw [if_neg (isDigitC_ne hx hc)]

theorem parseUBounded_of_digits {s : Str} {bound : Nat} (hne : s ≠ [])
    (hd : allDigits s = true) (hb : parseDigits s < bound) :
    parseUBounded bound s = some (parseDigits s) := by
  unfold parseUBounded
  rw [if_pos ⟨hne, hd⟩, if_pos hb]

theorem parseU64_of_digits {s : Str} (hne : s ≠ []) (hd : allDigits s = true)
    (hb : parseDigits s < 2 ^ 64) : parseU64 s = some (parseDigits s) := by
  unfold parseU64
  rw [stripLead_of_digits hne hd (show isDigitC '+' = false from rfl)]
  exact parseUBounded_of_digits hne hd hb

theorem parseU32_of_digits {s : Str} (hne : s ≠ []) (hd : allDigits s = true)
    (hb : parseDigits s < 2 ^ 32) : parseU32 s = some (parseDigits s) := by
  unfold parseU32
  rw [stripLead_of_digits hne hd (show isDigitC '+' = false from rfl)]
  exact parseUBounded_of_digits hne hd hb

theorem parseU64_natChars {n : Nat} (hb : n < 2 ^ 64) :
    parseU64 (natChars n) = some n := by
  have := parseU64_of_digits (natChars_ne_nil n) (allDigits_natChars n)
    (by rw [parseDigits_natChars]; exact hb)
  rwa [parseDigits_natChars] at this

theorem parseU32_natChars {n : Nat} (hb : n < 2 ^ 32) :
    parseU32 (natChars n) = some n := by
  have := parseU32_of_digits (natChars_ne_nil n) (allDigits_natChars n)
    (by rw [parseDigits_natChars]; exact hb)
  rwa [parseDigits_natChars] at this

theorem parseU64_padZeros_natChars {n k : Nat} (hb : n < 2 ^ 64) :
    parseU64 (padZeros k (natChars n)) = some n := by
  have h1 : parseU64 (padZeros k (natChars n)) =
      some (parseDigits (padZeros k (natChars n))) :=
    parseU64_of_digits (padZeros_ne_nil (natChars_ne_nil n))
      (allDigits_padZeros (allDigits_natChars n))
      (by rw [parseDigits_padZeros, parseDigits_natChars]; exact hb)
  rwa [parseDigits_padZeros, parseDigits_natChars] at h1

theorem parseI32_intChars {z : Int} (hlo : -(2 ^ 31) ≤ z) (hhi : z < 2 ^ 31) :
    parseI32 (intChars z) = some z := by
  unfold intChars
  by_cases hz : z < 0
  · rw [if_pos hz]
    show parseI32Core '-' (natChars z.natAbs) = some z
    unfold parseI32Core
    rw [if_pos rfl, if_pos ⟨natChars_ne_nil _, allDigits_natChars _⟩]
    rw [parseDigits_natChars]
    have habs : z.natAbs ≤ 2 ^ 31 := by omega
    rw [if_pos habs]
    congr 1
    omega
  · rw [if_neg hz]
    have hall0 := allDigits_natChars z.toNat
    have hpd0 := parseDigits_natChars z.toNat
    match hnc : natChars z.toNat with
    | [] => exact absurd hnc (natChars_ne_nil _)
    | c :: r =>
      rw [hnc] at hall0 hpd0
      have hx : isDigitC c = true := allDigits_mem hall0 (List.mem_cons_self c r)
      have hminus : c ≠ '-' := isDigitC_ne hx (show isDigitC '-' = false from rfl)
      have hplus : c ≠ '+' := isDigitC_ne hx (show isDigitC '+' = false from rfl)
      show parseI32Core c r = some z
      unfold parseI32Core
      rw [if_neg hminus]
      simp only [if_neg hplus]
      rw [if_pos ⟨List.cons_ne_nil c r, hall0⟩]
      rw [hpd0, if_pos (by omega)]
      congr 1
      omega

/-! ## Lemmas: `splitOnC` and `joinSep` -/

theorem splitOnC_ne_nil (sep : Char) (s : Str) : splitOnC sep s ≠ [] := by
  cases s with
  | nil => simp [splitOnC]
  | cons c cs =>
    unfold splitOnC
    by_cases h : c = sep
    · simp [h]
    · rw [if_neg h]
      match splitOnC sep cs with
      | [] => simp
      | p :: ps => simp

theorem splitOnC_of_not_mem {sep : Char} {s : Str} (h : sep ∉ s) :
    splitOnC sep s = [s] := by
  induction s with
  | nil => rfl
  | cons c cs ih =>
    unfold splitOnC
    have hc : c ≠ sep := fun hcs => h (hcs ▸ List.mem_cons_self c cs)
    rw [if_neg hc, ih (fun hm => h (List.mem_cons_of_mem c hm))]

theorem splitOnC_cons (sep c : Char) (cs : Str) :
    splitOnC sep (c :: cs) =
      if c = sep then [] :: splitOnC sep cs
      else
        match splitOnC sep cs with
        | [] => [[c]]
        | p :: ps => (c :: p) :: ps := rfl

theorem splitOnC_append_sep {sep : Char} {a : Str} (b : Str) (h : sep ∉ a) :
    splitOnC sep (a ++ sep :: b) = a :: splitOnC sep b := by
  induction a with
  | nil => simp [splitOnC]
  | cons c cs ih =>
    have hc : c ≠ sep := fun hcs => h (hcs ▸ List.mem_cons_self c cs)
    show splitOnC sep (c :: (cs ++ sep :: b)) = (c :: cs) :: splitOnC sep b
    rw [splitOnC_cons, if_neg hc, ih (fun hm => h (List.mem_cons_of_mem c hm))]

theorem not_mem_of_mem_splitOnC {sep : Char} {s p : Str}
    (hp : p ∈ splitOnC sep s) : sep ∉ p := by
  induction s generalizing p with
  | nil =>
    simp only [splitOnC, List.mem_singleton] at hp
    subst hp
    simp
  | cons c cs ih =>
    unfold splitOnC at hp
    by_cases h : c = sep
    · rw [if_pos h] at hp
      rcases List.mem_cons.mp hp with h1 | h1
      · subst h1; simp
      · exact ih h1
    · rw [if_neg h] at hp
      match hsp : splitOnC sep cs with
      | [] => exact absurd hsp (splitOnC_ne_nil sep cs)
      | q :: qs =>
        rw [hsp] at hp
        rcases List.mem_cons.mp hp with h1 | h1
        · subst h1
          intro hmem
          rcases List.mem_cons.mp hmem with h2 | h2
          · exact h h2.symm
          · exact ih (hsp ▸ List.mem_cons_self q qs) h2
        · exact ih (hsp ▸ List.mem_cons_of_mem q h1)

theorem joinSep_splitOnC (sep : Char) (s : Str) :
    joinSep sep (splitOnC sep s) = s := by
  induction s with
  | nil => rfl
  | cons c cs ih =>
    unfold splitOnC
    by_cases h : c = sep
    · rw [if_pos h]
      match hsp : splitOnC sep cs with
      | [] => exact absurd hsp (splitOnC_ne_nil sep cs)
      | q :: qs =>
        show joinSep sep ([] :: q :: qs) = c :: cs
        unfold joinSep
        rw [← hsp, ih, h]
        rfl
    · rw [if_neg h]
      match hsp : splitOnC sep cs with
      | [] => exact absurd hsp (splitOnC_ne_nil sep cs)
      | q :: qs =>
        match qs with
        | [] =>
          show c :: q = c :: cs
          have : joinSep sep [q] = cs := by rw [← hsp, ih]
          simpa [joinSep] using this
        | q2 :: qs2 =>
          show (c :: q) ++ sep :: joinSep sep (q2 :: qs2) = c :: cs
          have : q ++ sep :: joinSep sep (q2 :: qs2) = cs := by
            have := ih
            rw [hsp] at this
            simpa [joinSep] using this
          simp [this]

theorem splitOnC_joinSep {sep : Char} {ps : List Str} (hne : ps ≠ [])
    (h : ∀ p ∈ ps, sep ∉ p) :
    splitOnC sep (joinSep sep ps) = ps := by
  induction ps with
  | nil => exact absurd rfl hne
  | cons p ps ih =>
    match ps with
    | [] =>
      show splitOnC sep p = [p]
      exact splitOnC_of_not_mem (h p (List.mem_cons_self p []))
    | q :: qs =>
      show splitOnC sep (p ++ sep :: joinSep sep (q :: qs)) = p :: q :: qs
      rw [splitOnC_append_sep _ (h p (List.mem_cons_self p _))]
      rw [ih (List.cons_ne_nil q qs) (fun x hx => h x (List.mem_cons_of_mem p hx))]

theorem mem_joinSep (sep : Char) {c : Char} {ps : List Str} {p : Str}
    (hp : p ∈ ps) (hc : c ∈ p) : c ∈ joinSep sep ps := by
  induction ps with
  | nil => cases hp
  | cons q qs ih =>
    match qs with
    | [] =>
      simp only [List.mem_singleton] at hp
      subst hp
      simpa [joinSep] using hc
    | q2 :: qs2 =>
      rcases List.mem_cons.mp hp with h1 | h1
      · subst h1
        simp [joinSep, hc]
      · have := ih h1
        simp [joinSep, this]

theorem mem_of_mem_splitOnC {sep c : Char} {s p : Str}
    (hp : p ∈ splitOnC sep s) (hc : c ∈ p) : c ∈ s := by
  have h2 := mem_joinSep sep hp hc
  rwa [joinSep_splitOnC] at h2

/-! ## Lemmas: `trimL` and `stripCR` -/

theorem head_dropWhile_false {p : Char → Bool} {l : Str} {c : Char}
    (h : (l.dropWhile p).head? = some c) : p c = false := by
  have h2 := List.head?_dropWhile_not p l
  rw [h] at h2
  exact h2

theorem mem_dropWhile_of_not {p : Char → Bool} {l : Str} {c : Char}
    (hm : c ∈ l) (hp : p c = false) : c ∈ l.dropWhile p := by
  induction l with
  | nil => cases hm
  | cons x xs ih =>
    rw [List.dropWhile_cons]
    by_cases hx : p x
    · rw [if_pos hx]
      rcases List.mem_cons.mp hm with h1 | h1
      · subst h1
        rw [hx] at hp
        cases hp
      · exact ih h1
    · rw [if_neg hx]
      exact hm

theorem mem_of_mem_dropWhile {p : Char → Bool} {l : Str} {c : Char}
    (h : c ∈ l.dropWhile p) : c ∈ l :=
  (List.dropWhile_sublist p).subset h

theorem getLast_dropWhile {p : Char → Bool} {l : Str}
    (h : l.dropWhile p ≠ []) : (l.dropWhile p).getLast? = l.getLast? := by
  induction l with
  | nil => simp at h
  | cons x xs ih =>
    rw [List.dropWhile_cons] at h ⊢
    by_cases hx : p x
    · rw [if_pos hx] at h ⊢
      have hxs : xs ≠ [] := by
        intro hnil
        subst hnil
        simp at h
      rw [ih h]
      match xs, hxs with
      | y :: ys, _ => rfl
    · rw [if_neg hx]

theorem mem_trimL {s : Str} {c : Char} (h : c ∈ trimL s) : c ∈ s := by
  unfold trimL at h
  rw [List.mem_reverse] at h
  have h1 := mem_of_mem_dropWhile h
  rw [List.mem_reverse] at h1
  exact mem_of_mem_dropWhile h1

theorem mem_trimL_of_not_ws {s : Str} {c : Char} (hm : c ∈ s)
    (hc : isWS c = false) : c ∈ trimL s := by
  unfold trimL
  rw [List.mem_reverse]
  refine mem_dropWhile_of_not ?_ hc
  rw [List.mem_reverse]
  exact mem_dropWhile_of_not hm hc

theorem trimL_ne_nil {s : Str} {c : Char} (hm : c ∈ s) (hc : isWS c = false) :
    trimL s ≠ [] :=
  List.ne_nil_of_mem (mem_trimL_of_not_ws hm hc)

theorem trimL_exists_of_ne_nil {s : Str} (h : trimL s ≠ []) :
    ∃ c ∈ s, isWS c = false := by
  match hs : trimL s, h with
  | c :: r, _ =>
    have hc : isWS c = false := by
      unfold trimL at hs
      have hrev : ((s.dropWhile isWS).reverse.dropWhile isWS).getLast? = some c := by
        rw [← List.head?_reverse, hs]
        rfl
      have hne2 : (s.dropWhile isWS).reverse.dropWhile isWS ≠ [] := by
        intro hnil
        rw [hnil] at hrev
        cases hrev
      rw [getLast_dropWhile hne2, List.getLast?_reverse] at hrev
      exact head_dropWhile_false hrev
    exact ⟨c, mem_trimL (hs ▸ List.mem_cons_self c r), hc⟩

theorem trimL_head {s : Str} {c : Char} (h : (trimL s).head? = some c) :
    isWS c = false := by
  unfold trimL at h
  rw [List.head?_reverse] at h
  have hne2 : (s.dropWhile isWS).reverse.dropWhile isWS ≠ [] := by
    intro hnil
    rw [hnil] at h
    cases h
  rw [getLast_dropWhile hne2, List.getLast?_reverse] at h
  exact head_dropWhile_false h

theorem trimL_last {s : Str} {c : Char} (h : (trimL s).getLast? = some c) :
    isWS c = false := by
  unfold trimL at h
  rw [List.getLast?_reverse] at h
  exact head_dropWhile_false h

theorem trimL_eq_self {s : Str}
    (h1 : ∀ c, s.head? = some c → isWS c = false)
    (h2 : ∀ c, s.getLast? = some c → isWS c = false) : trimL s = s := by
  match s with
  | [] => rfl
  | x :: xs =>
    unfold trimL
    rw [List.dropWhile_cons, if_neg (by rw [h1 x rfl]; simp)]
    match hrev : (x :: xs).reverse with
    | [] =>
      have := List.reverse_eq_nil_iff.mp hrev
      cases this
    | y :: ys =>
      have hy : (x :: xs).getLast? = some y := by
        rw [← List.head?_reverse, hrev]
        rfl
      rw [List.dropWhile_cons, if_neg (by rw [h2 y hy]; simp)]
      rw [← hrev, List.reverse_reverse]

theorem trimL_idem (s : Str) : trimL (trimL s) = trimL s :=
  trimL_eq_self (fun _ h => trimL_head h) (fun _ h => trimL_last h)

theorem trimL_cons_ws {c : Char} {s : Str} (h : isWS c = true) :
    trimL (c :: s) = trimL s := by
  unfold trimL
  rw [List.dropWhile_cons, if_pos (by rw [h])]

theorem trimL_append_ws {c : Char} {s : Str} (h : isWS c = true) :
    trimL (s ++ [c]) = trimL s := by
  unfold trimL
  rw [List.dropWhile_append]
  by_cases he : (s.dropWhile isWS).isEmpty
  · rw [if_pos he]
    have hc0 : List.dropWhile isWS [c] = [] := by
      rw [show [c] = c :: ([] : Str) from rfl, List.dropWhile_cons, if_pos (by rw [h])]
      rfl
    rw [hc0]
    have hs0 : s.dropWhile isWS = [] := by
      cases hdw : s.dropWhile isWS with
      | nil => rfl
      | cons a b =>
        rw [hdw] at he
        simp at he
    rw [hs0]
  · rw [if_neg he]
    rw [List.reverse_append]
    show ((c :: (s.dropWhile isWS).reverse).dropWhile isWS).reverse = _
    rw [List.dropWhile_cons, if_pos (by rw [h])]

/-- `trimL` of a string whose ends are already non-whitespace, with one
space added on the left: the space is the only character removed. -/
theorem trimL_space_cons {s : Str} (h : trimL s = s) : trimL (' ' :: s) = s := by
  rw [trimL_cons_ws (show isWS ' ' = true from rfl), h]

theorem stripCR_of_getLast {s : Str}
    (h : ∀ c, s.getLast? = some c → isWS c = false) : stripCR s = s := by
  unfold stripCR
  cases hl : s.getLast? with
  | none => rw [if_neg (by intro hx; cases hx)]
  | some c =>
    have := h c hl
    have hcr : c ≠ '\r' := by
      intro hc
      subst hc
      cases this
    rw [if_neg (by intro hx; exact hcr (Option.some_inj.mp hx))]

theorem stripCR_of_ne_cr {s : Str} (h : s.getLast? ≠ some '\r') : stripCR s = s := by
  unfold stripCR
  rw [if_neg h]

theorem mem_stripCR {s : Str} {c : Char} (h : c ∈ stripCR s) : c ∈ s := by
  unfold stripCR at h
  by_cases hl : s.getLast? = some '\r'
  · rw [if_pos hl] at h
    exact (List.dropLast_sublist s).subset h
  · rwa [if_neg hl] at h

theorem trimL_stripCR_ne_nil {s : Str} (h : trimL s ≠ []) :
    trimL (stripCR s) ≠ [] := by
  obtain ⟨c, hm, hc⟩ := trimL_exists_of_ne_nil h
  unfold stripCR
  by_cases hl : s.getLast? = some '\r'
  · rw [if_pos hl]
    have hcr : c ≠ '\r' := by
      intro hcc
      subst hcc
      cases hc
    have hne : s ≠ [] := List.ne_nil_of_mem hm
    have hsplit : s = s.dropLast ++ [s.getLast hne] := (List.dropLast_append_getLast hne).symm
    have hlast : s.getLast hne = '\r' := by
      have := List.getLast?_eq_getLast s hne
      rw [hl] at this
      exact (Option.some_inj.mp this).symm
    have hmem2 : c ∈ s.dropLast := by
      rw [hsplit] at hm
      rcases List.mem_append.mp hm with h1 | h1
      · exact h1
      · rw [hlast] at h1
        simp only [List.mem_singleton] at h1
        exact absurd h1 hcr
    exact trimL_ne_nil hmem2 hc
  · rw [if_neg hl]
    exact h

/-! ## Lemmas: `splitFirst` -/

theorem splitFirst_of_not_mem {sep : Char} {s : Str} (h : sep ∉ s) :
    splitFirst sep s = none := by
  induction s with
  | nil => rfl
  | cons c cs ih =>
    unfold splitFirst
    have hc : c ≠ sep := fun hcs => h (hcs ▸ List.mem_cons_self c cs)
    rw [if_neg hc, ih (fun hm => h (List.mem_cons_of_mem c hm))]

theorem splitFirst_append {sep : Char} {a : Str} (b : Str) (h : sep ∉ a) :
    splitFirst sep (a ++ sep :: b) = some (a, b) := by
  induction a with
  | nil => simp [splitFirst]
  | cons c cs ih =>
    have hc : c ≠ sep := fun hcs => h (hcs ▸ List.mem_cons_self c cs)
    show splitFirst sep (c :: (cs ++ sep :: b)) = some (c :: cs, b)
    unfold splitFirst
    rw [if_neg hc, ih (fun hm => h (List.mem_cons_of_mem c hm))]

theorem splitFirst_some {sep : Char} {s a b : Str}
    (h : splitFirst sep s = some (a, b)) : sep ∉ a ∧ s = a ++ sep :: b := by
  induction s generalizing a b with
  | nil => cases h
  | cons c cs ih =>
    unfold splitFirst at h
    by_cases hc : c = sep
    · rw [if_pos hc] at h
      simp only [Option.some_inj, Prod.mk.injEq] at h
      obtain ⟨ha, hb⟩ := h
      subst ha
      subst hb
      subst hc
      exact ⟨by simp, rfl⟩
    · rw [if_neg hc] at h
      match hsp : splitFirst sep cs with
      | none =>
        rw [hsp] at h
        cases h
      | some (a2, b2) =>
        rw [hsp] at h
        simp only [Option.some_inj, Prod.mk.injEq] at h
        obtain ⟨ha, hb⟩ := h
        subst ha
        subst hb
        obtain ⟨hna, hs⟩ := ih hsp
        constructor
        · intro hmem
          rcases List.mem_cons.mp hmem with h2 | h2
          · exact hc h2.symm
          · exact hna h2
        · rw [hs]
          rfl

/-! ## Lemmas: `splitWS` -/

theorem splitWSAux_nil_ne (acc : Str) (h : acc ≠ []) :
    splitWSAux [] acc = [acc.reverse] := by
  rw [splitWSAux.eq_1, if_neg h]

theorem splitWSAux_ws_cons {c : Char} (cs : Str) {acc : Str} (hc : isWS c = true)
    (hacc : acc ≠ []) : splitWSAux (c :: cs) acc = acc.reverse :: splitWSAux cs [] := by
  rw [splitWSAux.eq_2, if_pos hc, if_neg hacc]

theorem splitWSAux_ws_cons_nil {c : Char} (cs : Str) (hc : isWS c = true) :
    splitWSAux (c :: cs) [] = splitWSAux cs [] := by
  rw [splitWSAux.eq_2, if_pos hc, if_pos rfl]

theorem splitWSAux_token {t : Str} (hno : ∀ c ∈ t, isWS c = false) (s acc : Str) :
    splitWSAux (t ++ s) acc = splitWSAux s (t.reverse ++ acc) := by
  induction t generalizing acc with
  | nil => simp
  | cons c cs ih =>
    have hc : isWS c = false := hno c (List.mem_cons_self c cs)
    show splitWSAux (c :: (cs ++ s)) acc = _
    rw [splitWSAux.eq_2, if_neg (by rw [hc]; simp)]
    rw [ih (fun x hx => hno x (List.mem_cons_of_mem c hx)) (c :: acc)]
    rw [List.reverse_cons, List.append_assoc]
    rfl

theorem splitWS_single {t : Str} (ht : t ≠ []) (hno : ∀ c ∈ t, isWS c = false) :
    splitWS t = [t] := by
  unfold splitWS
  have h1 := splitWSAux_token hno [] []
  rw [List.append_nil] at h1
  rw [h1, List.append_nil]
  rw [splitWSAux_nil_ne _ (by simp [ht])]
  rw [List.reverse_reverse]

theorem splitWS_cons_tok {t : Str} (ht : t ≠ []) (hno : ∀ c ∈ t, isWS c = false)
    (s : Str) : splitWS (t ++ ' ' :: s) = t :: splitWS s := by
  unfold splitWS
  rw [splitWSAux_token hno (' ' :: s) []]
  rw [splitWSAux_ws_cons s (show isWS ' ' = true from rfl) (by simp [ht])]
  rw [List.append_nil, List.reverse_reverse]

theorem splitWS_join {toks : List Str}
    (h : ∀ t ∈ toks, t ≠ [] ∧ ∀ c ∈ t, isWS c = false) :
    splitWS (joinSep ' ' toks) = toks := by
  induction toks with
  | nil => rfl
  | cons t ts ih =>
    match ts with
    | [] =>
      exact splitWS_single (h t (List.mem_cons_self t [])).1 (h t (List.mem_cons_self t [])).2
    | t2 :: ts2 =>
      show splitWS (t ++ ' ' :: joinSep ' ' (t2 :: ts2)) = t :: t2 :: ts2
      rw [splitWS_cons_tok (h t (List.mem_cons_self t _)).1 (h t (List.mem_cons_self t _)).2]
      rw [ih (fun x hx => h x (List.mem_cons_of_mem t hx))]

theorem splitWSAux_props {s : Str} : ∀ {acc : Str}, (∀ c ∈ acc, isWS c = false) →
    ∀ t ∈ splitWSAux s acc, t ≠ [] ∧ ∀ c ∈ t, isWS c = false := by
  induction s with
  | nil =>
    intro acc hacc t ht
    unfold splitWSAux at ht
    by_cases h : acc = []
    · rw [if_pos h] at ht
      cases ht
    · rw [if_neg h] at ht
      simp only [List.mem_singleton] at ht
      subst ht
      refine ⟨by simp [h], fun c hc => hacc c (List.mem_reverse.mp hc)⟩
  | cons x xs ih =>
    intro acc hacc t ht
    unfold splitWSAux at ht
    by_cases hx : isWS x
    · rw [if_pos hx] at ht
      by_cases h : acc = []
      · rw [if_pos h] at ht
        exact ih (by intro c hc; cases hc) t ht
      · rw [if_neg h] at ht
        rcases List.mem_cons.mp ht with h1 | h1
        · subst h1
          refine ⟨by simp [h], fun c hc => hacc c (List.mem_reverse.mp hc)⟩
        · exact ih (by intro c hc; cases hc) t h1
    · rw [if_neg hx] at ht
      refine ih ?_ t ht
      intro c hc
      rcases List.mem_cons.mp hc with h1 | h1
      · subst h1
        exact Bool.not_eq_true _ ▸ (by simpa using hx)
      · exact hacc c h1

theorem splitWS_props {s : Str} :
    ∀ t ∈ splitWS s, t ≠ [] ∧ ∀ c ∈ t, isWS c = false :=
  splitWSAux_props (by intro c hc; cases hc)

/-! ## Lemmas: `containsArrow` and `splitArrow` -/

theorem containsArrow_arrow (b : Str) : containsArrow ('-' :: '-' :: '>' :: b) = true := by
  unfold containsArrow
  rw [if_pos ⟨rfl, rfl, rfl⟩]

theorem containsArrow_cons_true {c : Char} {cs : Str} (h : containsArrow cs = true) :
    containsArrow (c :: cs) = true := by
  match cs with
  | [] => cases h
  | [d] => cases h
  | [d, e] => cases h
  | d :: e :: f :: r =>
    show (if c = '-' ∧ d = '-' ∧ e = '>' then true
          else containsArrow (d :: e :: f :: r)) = true
    by_cases hc : c = '-' ∧ d = '-' ∧ e = '>'
    · rw [if_pos hc]
    · rw [if_neg hc]
      exact h

theorem containsArrow_append (a b : Str) :
    containsArrow (a ++ '-' :: '-' :: '>' :: b) = true := by
  induction a with
  | nil => exact containsArrow_arrow b
  | cons c cs ih => exact containsArrow_cons_true ih

theorem containsArrow_eq_false {s : Str} (h : '>' ∉ s) : containsArrow s = false := by
  induction s with
  | nil => rfl
  | cons c cs ih =>
    match cs with
    | [] => rfl
    | [d] => rfl
    | d :: e :: r =>
      show (if c = '-' ∧ d = '-' ∧ e = '>' then true else containsArrow (d :: e :: r)) = false
      have he : e ≠ '>' := by
        intro hee
        exact h (hee ▸ List.mem_cons_of_mem c (List.mem_cons_of_mem d
          (List.mem_cons_self e r)))
      rw [if_neg (fun hand => he hand.2.2)]
      exact ih (fun hm => h (List.mem_cons_of_mem c hm))

theorem splitArrowAux_no {s : Str} (h : containsArrow s = false) (acc : Str) :
    splitArrowAux s acc = [acc.reverse ++ s] := by
  induction s generalizing acc with
  | nil => simp [splitArrowAux]
  | cons c cs ih =>
    match cs with
    | [] => simp [splitArrowAux]
    | [d] => simp [splitArrowAux]
    | d :: e :: r =>
      show (if c = '-' ∧ d = '-' ∧ e = '>' then acc.reverse :: splitArrowAux r []
            else splitArrowAux (d :: e :: r) (c :: acc)) = [acc.reverse ++ c :: d :: e :: r]
      have hcond : ¬(c = '-' ∧ d = '-' ∧ e = '>') := by
        intro hand
        unfold containsArrow at h
        rw [if_pos hand] at h
        cases h
      rw [if_neg hcond]
      have htail : containsArrow (d :: e :: r) = false := by
        unfold containsArrow at h
        rw [if_neg hcond] at h
        exact h
      rw [ih htail (c :: acc)]
      simp

theorem splitArrow_of_no {s : Str} (h : containsArrow s = false) :
    splitArrow s = [s] := by
  unfold splitArrow
  rw [splitArrowAux_no h]
  rfl

theorem splitArrowAux_arrow {a : Str} (b : Str) (ha : '-' ∉ a) (acc : Str) :
    splitArrowAux (a ++ '-' :: '-' :: '>' :: b) acc =
      (acc.reverse ++ a) :: splitArrow b := by
  induction a generalizing acc with
  | nil =>
    show (if ('-' : Char) = '-' ∧ ('-' : Char) = '-' ∧ ('>' : Char) = '>' then
            acc.reverse :: splitArrowAux b []
          else splitArrowAux ('-' :: '>' :: b) ('-' :: acc)) = (acc.reverse ++ []) :: splitArrow b
    rw [if_pos ⟨rfl, rfl, rfl⟩, List.append_nil]
    rfl
  | cons c cs ih =>
    have hc : c ≠ '-' := fun hcc => ha (hcc ▸ List.mem_cons_self c cs)
    have hrest : '-' ∉ cs := fun hm => ha (List.mem_cons_of_mem c hm)
    match hsp : cs ++ '-' :: '-' :: '>' :: b with
    | [] =>
      exact absurd (congrArg List.length hsp) (by simp)
    | [d] =>
      exfalso
      have := congrArg List.length hsp
      simp at this
      omega
    | [d, e] =>
      exfalso
      have := congrArg List.length hsp
      simp at this
      omega
    | d :: e :: f :: r =>
      show splitArrowAux (c :: (cs ++ '-' :: '-' :: '>' :: b)) acc = _
      rw [hsp]
      show (if c = '-' ∧ d = '-' ∧ e = '>' then acc.reverse :: splitArrowAux (f :: r) []
            else splitArrowAux (d :: e :: f :: r) (c :: acc)) = _
      rw [if_neg (fun hand => hc hand.1)]
      rw [← hsp, ih hrest (c :: acc)]
      simp

theorem splitArrow_arrow {a : Str} (b : Str) (ha : '-' ∉ a) :
    splitArrow (a ++ '-' :: '-' :: '>' :: b) = a :: splitArrow b := by
  unfold splitArrow
  rw [splitArrowAux_arrow b ha []]
  rfl

/-! ## Lemmas: `linesR` -/

theorem linesR_single {l : Str} (hnl : '\n' ∉ l) (hne : l ≠ []) :
    linesR l = [l] := by
  unfold linesR
  rw [splitOnC_of_not_mem hnl]
  show (if l = [] then [] else [l]) = [l]
  rw [if_neg hne]

theorem linesR_cons {l : Str} (hnl : '\n' ∉ l) (rest : Str) :
    linesR (l ++ '\n' :: rest) = stripCR l :: linesR rest := by
  unfold linesR
  rw [splitOnC_append_sep _ hnl]
  match hsp : splitOnC '\n' rest with
  | [] => exact absurd hsp (splitOnC_ne_nil '\n' rest)
  | q :: qs => rfl

theorem mem_linesCore {ps : List Str} {p : Str} (hp : p ∈ linesCore ps) :
    ∃ q ∈ ps, ∀ c ∈ p, c ∈ q := by
  induction ps with
  | nil => cases hp
  | cons x xs ih =>
    match xs with
    | [] =>
      unfold linesCore at hp
      by_cases hx : x = []
      · rw [if_pos hx] at hp
        cases hp
      · rw [if_neg hx] at hp
        simp only [List.mem_singleton] at hp
        subst hp
        exact ⟨p, List.mem_cons_self p [], fun c hc => hc⟩
    | y :: ys =>
      have hp2 : p ∈ stripCR x :: linesCore (y :: ys) := hp
      rcases List.mem_cons.mp hp2 with h1 | h1
      · subst h1
        exact ⟨x, List.mem_cons_self x _, fun c hc => mem_stripCR hc⟩
      · obtain ⟨q, hq, hsub⟩ := ih h1
        exact ⟨q, List.mem_cons_of_mem x hq, hsub⟩

theorem mem_linesR_no_nl {s p : Str} (hp : p ∈ linesR s) : '\n' ∉ p := by
  unfold linesR at hp
  obtain ⟨q, hq, hsub⟩ := mem_linesCore hp
  intro hmem
  exact not_mem_of_mem_splitOnC hq (hsub '\n' hmem)

theorem linesR_joinSep {ls : List Str} (hne : ls ≠ [])
    (hnl : ∀ l ∈ ls, '\n' ∉ l) (hlast : ∀ l ∈ ls, l ≠ []) :
    linesR (joinSep '\n' ls) = mapExceptLast stripCR ls := by
  induction ls with
  | nil => exact absurd rfl hne
  | cons l ls2 ih =>
    match ls2 with
    | [] =>
      show linesR l = [l]
      exact linesR_single (hnl l (List.mem_cons_self l [])) (hlast l (List.mem_cons_self l []))
    | l2 :: ls3 =>
      show linesR (l ++ '\n' :: joinSep '\n' (l2 :: ls3)) = stripCR l :: mapExceptLast stripCR (l2 :: ls3)
      rw [linesR_cons (hnl l (List.mem_cons_self l _))]
      rw [ih (List.cons_ne_nil l2 ls3) (fun x hx => hnl x (List.mem_cons_of_mem l hx))
        (fun x hx => hlast x (List.mem_cons_of_mem l hx))]

/-! ## Lemmas: the timestamp grammar -/

theorem not_mem_of_digits {s : Str} {k : Char} (hd : allDigits s = true)
    (hk : isDigitC k = false) : k ∉ s :=
  fun hm => (isDigitC_ne (allDigits_mem hd hm) hk) rfl

theorem parseSecondsMs_split {s sd fd : Str} (h : splitFirst '.' s = some (sd, fd)) :
    parseSecondsMs s = parseSecondsMsFrac sd fd := by
  unfold parseSecondsMs
  rw [h]

theorem parseSecondsMs_nosplit {s : Str} (h : splitFirst '.' s = none) :
    parseSecondsMs s = parseSecondsMsPlain s := by
  unfold parseSecondsMs
  rw [h]

theorem parseSecondsMs_frac {sd fd : Str} (hsd : sd ≠ [])
    (hsdd : allDigits sd = true) (hfd : fd ≠ []) (hfdd : allDigits fd = true)
    (hsb : parseDigits sd < 2 ^ 64)
    (hfb : (if fd.length < 3 then parseDigits fd * 10 ^ (3 - fd.length)
            else parseDigits fd) < 2 ^ 64) :
    parseSecondsMs (sd ++ '.' :: fd) =
      .ok (parseDigits sd,
           if fd.length < 3 then parseDigits fd * 10 ^ (3 - fd.length)
           else parseDigits fd) := by
  have hdot : '.' ∉ sd := not_mem_of_digits hsdd rfl
  rw [parseSecondsMs_split (splitFirst_append fd hdot)]
  unfold parseSecondsMsFrac
  rw [parseU64_of_digits hsd hsdd hsb]
  by_cases hlen : fd.length = 3
  · rw [if_pos hlen]
    have hnlt : ¬fd.length < 3 := by omega
    rw [if_neg hnlt] at hfb
    rw [parseU64_of_digits hfd hfdd hfb]
    rw [if_neg hnlt]
  · rw [if_neg hlen]
    have hpad : parseDigits (fd ++ List.replicate (3 - fd.length) '0') =
        parseDigits fd * 10 ^ (3 - fd.length) := by
      rw [parseDigits_append, parseDigits_replicate_zero, List.length_replicate]
      omega
    have hpd : allDigits (fd ++ List.replicate (3 - fd.length) '0') = true := by
      unfold allDigits at hfdd ⊢
      rw [List.all_append]
      refine Bool.and_eq_true_iff.mpr ⟨hfdd, ?_⟩
      simp only [List.all_eq_true]
      intro c hc
      rw [List.eq_of_mem_replicate hc]
      rfl
    have hne2 : fd ++ List.replicate (3 - fd.length) '0' ≠ [] := by simp [hfd]
    by_cases hlt : fd.length < 3
    · rw [if_pos hlt] at hfb ⊢
      rw [parseU64_of_digits hne2 hpd (by rw [hpad]; exact hfb), hpad]
    · have h3 : 3 - fd.length = 0 := by omega
      rw [if_neg hlt] at hfb ⊢
      rw [h3]
      simp only [List.replicate_zero, List.append_nil]
      rw [parseU64_of_digits hfd hfdd hfb]

theorem parseSecondsMs_plain {sd : Str} (hsd : sd ≠ [])
    (hsdd : allDigits sd = true) (hsb : parseDigits sd < 2 ^ 64) :
    parseSecondsMs sd = .ok (parseDigits sd, 0) := by
  have hdot : '.' ∉ sd := not_mem_of_digits hsdd rfl
  rw [parseSecondsMs_nosplit (splitFirst_of_not_mem hdot)]
  unfold parseSecondsMsPlain
  rw [parseU64_of_digits hsd hsdd hsb]

theorem parseTimestamp_one {s p : Str} (h : splitOnC ':' s = [p]) :
    parseTimestamp s = .error .invalidFormat := by
  unfold parseTimestamp
  rw [h]

theorem parseTimestamp_two {s a b : Str} (h : splitOnC ':' s = [a, b]) :
    parseTimestamp s = tsFromMS a b := by
  unfold parseTimestamp
  rw [h]

theorem parseTimestamp_three {s a b c : Str} {r : List Str}
    (h : splitOnC ':' s = a :: b :: c :: r) :
    parseTimestamp s = tsFromHMS a b c := by
  unfold parseTimestamp
  rw [h]

theorem colon_not_mem_pad (k n : Nat) : ':' ∉ padZeros k (natChars n) :=
  not_mem_of_digits (allDigits_padZeros (allDigits_natChars n)) rfl

theorem ts_recompose (v : Nat) :
    v / 3600000 * 3600000 + v % 3600000 / 60000 * 60000 +
      v % 60000 / 1000 * 1000 + v % 1000 = v := by
  have h1 := Nat.div_add_mod v 3600000
  have h2 := Nat.div_add_mod (v % 3600000) 60000
  have h3 := Nat.div_add_mod (v % 60000) 1000
  have h4 : v % 3600000 % 60000 = v % 60000 :=
    Nat.mod_mod_of_dvd v (by norm_num)
  omega

theorem splitOnC_formatTs (v : Nat) :
    splitOnC ':' (formatTs v) =
      [padZeros 2 (natChars (v / 3600000)),
       padZeros 2 (natChars (v % 3600000 / 60000)),
       padZeros 2 (natChars (v % 60000 / 1000)) ++ '.' ::
         padZeros 3 (natChars (v % 1000))] := by
  unfold formatTs
  rw [splitOnC_append_sep _ (colon_not_mem_pad 2 (v / 3600000))]
  rw [splitOnC_append_sep _ (colon_not_mem_pad 2 (v % 3600000 / 60000))]
  rw [splitOnC_of_not_mem]
  intro hmem
  rcases List.mem_append.mp hmem with h1 | h1
  · exact colon_not_mem_pad 2 (v % 60000 / 1000) h1
  · rcases List.mem_cons.mp h1 with h2 | h2
    · cases h2
    · exact colon_not_mem_pad 3 (v % 1000) h2

/-- Reparsing a formatted timestamp recovers the same total millisecond
value. -/
theorem ts_roundtrip {v : Nat} (hv : v < 2 ^ 64) :
    parseTimestamp (formatTs v) = .ok v := by
  rw [parseTimestamp_three (splitOnC_formatTs v)]
  unfold tsFromHMS
  have hb1 : v / 3600000 < 2 ^ 64 := lt_of_le_of_lt (Nat.div_le_self v 3600000) hv
  have hb2 : v % 3600000 / 60000 < 2 ^ 64 :=
    lt_of_le_of_lt (le_trans (Nat.div_le_self _ 60000) (Nat.mod_le v 3600000)) hv
  rw [parseU64_padZeros_natChars hb1, parseU64_padZeros_natChars hb2]
  have hsd : (padZeros 2 (natChars (v % 60000 / 1000)) : Str) ≠ [] :=
    padZeros_ne_nil (natChars_ne_nil _)
  have hsdd : allDigits (padZeros 2 (natChars (v % 60000 / 1000))) = true :=
    allDigits_padZeros (allDigits_natChars _)
  have hfd : (padZeros 3 (natChars (v % 1000)) : Str) ≠ [] :=
    padZeros_ne_nil (natChars_ne_nil _)
  have hfdd : allDigits (padZeros 3 (natChars (v % 1000))) = true :=
    allDigits_padZeros (allDigits_natChars _)
  have hsb : parseDigits (padZeros 2 (natChars (v % 60000 / 1000))) < 2 ^ 64 := by
    rw [parseDigits_padZeros, parseDigits_natChars]
    exact lt_of_le_of_lt (le_trans (Nat.div_le_self _ 1000) (Nat.mod_le v 60000)) hv
  have hlen3 : (padZeros 3 (natChars (v % 1000))).length = 3 :=
    padZeros_tsLen (by omega) (by have := Nat.mod_lt v (show 0 < 1000 by omega); norm_num; omega)
  have hfb : (if (padZeros 3 (natChars (v % 1000))).length < 3 then
      parseDigits (padZeros 3 (natChars (v % 1000))) * 10 ^ (3 - (padZeros 3 (natChars (v % 1000))).length)
      else parseDigits (padZeros 3 (natChars (v % 1000)))) < 2 ^ 64 := by
    rw [hlen3]
    simp only [Nat.lt_irrefl, if_false]
    rw [parseDigits_padZeros, parseDigits_natChars]
    exact lt_of_le_of_lt (Nat.mod_le v 1000) hv
  rw [parseSecondsMs_frac hsd hsdd hfd hfdd hsb hfb]
  rw [hlen3]
  simp only [Nat.lt_irrefl, if_false]
  rw [parseDigits_padZeros, parseDigits_natChars,
      parseDigits_padZeros, parseDigits_natChars]
  rw [ts_recompose v]
  rw [Nat.mod_eq_of_lt hv]

theorem secondsMs_pad {s2 y : Nat} (hy : y ≤ 999) (hs64 : s2 < 2 ^ 64) :
    parseSecondsMs (padZeros 2 (natChars s2) ++ '.' :: padZeros 3 (natChars y)) =
      .ok (s2, y) := by
  have hlen3 : (padZeros 3 (natChars y)).length = 3 :=
    padZeros_tsLen (by omega) (by norm_num; omega)
  have hstep : parseSecondsMs (padZeros 2 (natChars s2) ++ '.' :: padZeros 3 (natChars y)) =
      .ok (parseDigits (padZeros 2 (natChars s2)),
           if (padZeros 3 (natChars y)).length < 3 then
             parseDigits (padZeros 3 (natChars y)) * 10 ^ (3 - (padZeros 3 (natChars y)).length)
           else parseDigits (padZeros 3 (natChars y))) :=
    parseSecondsMs_frac (padZeros_ne_nil (natChars_ne_nil s2))
      (allDigits_padZeros (allDigits_natChars s2))
      (padZeros_ne_nil (natChars_ne_nil y))
      (allDigits_padZeros (allDigits_natChars y))
      (by rw [parseDigits_padZeros, parseDigits_natChars]; exact hs64)
      (by
        rw [hlen3]
        simp only [Nat.lt_irrefl, if_false]
        rw [parseDigits_padZeros, parseDigits_natChars]
        omega)
  rw [hstep, hlen3]
  simp only [Nat.lt_irrefl, if_false]
  rw [parseDigits_padZeros, parseDigits_natChars,
      parseDigits_padZeros, parseDigits_natChars]

theorem secondsMs_noFrac {s2 : Nat} (hs64 : s2 < 2 ^ 64) :
    parseSecondsMs (padZeros 2 (natChars s2)) = .ok (s2, 0) := by
  have hstep : parseSecondsMs (padZeros 2 (natChars s2)) =
      .ok (parseDigits (padZeros 2 (natChars s2)), 0) :=
    parseSecondsMs_plain (padZeros_ne_nil (natChars_ne_nil s2))
      (allDigits_padZeros (allDigits_natChars s2))
      (by rw [parseDigits_padZeros, parseDigits_natChars]; exact hs64)
  rwa [parseDigits_padZeros, parseDigits_natChars] at hstep

theorem tsFromHMS_compute {x tail : Str} {m s2 frOf : Nat}
    (hx : x ≠ []) (hxd : allDigits x = true) (hxb : parseDigits x < 2 ^ 64)
    (hm64 : m < 2 ^ 64) (hsec : parseSecondsMs tail = .ok (s2, frOf)) :
    tsFromHMS x (padZeros 2 (natChars m)) tail =
      .ok ((parseDigits x * 3600000 + m * 60000 + s2 * 1000 + frOf) % 2 ^ 64) := by
  unfold tsFromHMS
  rw [parseU64_of_digits hx hxd hxb, parseU64_padZeros_natChars hm64, hsec]

theorem tsFromMS_compute {tail : Str} {m s2 frOf : Nat}
    (hm64 : m < 2 ^ 64) (hsec : parseSecondsMs tail = .ok (s2, frOf)) :
    tsFromMS (padZeros 2 (natChars m)) tail =
      .ok ((m * 60000 + s2 * 1000 + frOf) % 2 ^ 64) := by
  unfold tsFromMS
  rw [parseU64_padZeros_natChars hm64, hsec]

/-- The code's timestamp rendering agrees with the spec's canonical
`HH:MM:SS.mmm` form. -/
theorem formatTs_canonical (v : Nat) : formatTs v = canonicalTs v := by
  unfold formatTs canonicalTs
  have h1 : v % 3600000 / 60000 = v / 60000 % 60 := by
    have := Nat.mod_mul_right_div_self v 60000 60
    norm_num at this
    exact this
  have h2 : v % 60000 / 1000 = v / 1000 % 60 := by
    have := Nat.mod_mul_right_div_self v 1000 60
    norm_num at this
    exact this
  rw [h1, h2]

/-! ## Lemmas: the cue grammar -/

theorem cueAfterEnd_ok {identifier : Option Str} {start end_ : Nat}
    {settingToks rest : List Str} {c : VttCue}
    (h : cueAfterEnd identifier start end_ settingToks rest = .ok c) :
    c.identifier = identifier ∧ c.payload = joinSep '\n' rest := by
  unfold cueAfterEnd at h
  match h1 : parseOptSettings (joinSep ' ' settingToks) with
  | .error e =>
    rw [h1] at h
    cases h
  | .ok st =>
    rw [h1] at h
    have h2 : Except.ok (⟨identifier, start, end_, st, joinSep '\n' rest⟩ : VttCue) =
        Except.ok c := h
    injection h2 with h3
    subst h3
    exact ⟨rfl, rfl⟩

theorem cueAfterEndTok_ok {identifier : Option Str} {start : Nat} {endTok : Str}
    {settingToks rest : List Str} {c : VttCue}
    (h : cueAfterEndTok identifier start endTok settingToks rest = .ok c) :
    c.identifier = identifier ∧ c.payload = joinSep '\n' rest := by
  unfold cueAfterEndTok at h
  match h1 : parseTimestamp endTok with
  | .error e =>
    rw [h1] at h
    cases h
  | .ok end_ =>
    rw [h1] at h
    exact cueAfterEnd_ok h

theorem cueAfterStart_ok {identifier : Option Str} {start : Nat} {b : Str}
    {rest : List Str} {c : VttCue}
    (h : cueAfterStart identifier start b rest = .ok c) :
    c.identifier = identifier ∧ c.payload = joinSep '\n' rest := by
  unfold cueAfterStart at h
  match h1 : splitWS (trimL b) with
  | [] =>
    rw [h1] at h
    cases h
  | endTok :: settingToks =>
    rw [h1] at h
    exact cueAfterEndTok_ok h

theorem cueCore2_ok {identifier : Option Str} {a b : Str} {rest : List Str} {c : VttCue}
    (h : cueCore2 identifier a b rest = .ok c) :
    c.identifier = identifier ∧ c.payload = joinSep '\n' rest := by
  unfold cueCore2 at h
  match h1 : parseTimestamp (trimL a) with
  | .error e =>
    rw [h1] at h
    cases h
  | .ok start =>
    rw [h1] at h
    exact cueAfterStart_ok h

theorem cueCore_ok {identifier : Option Str} {timing : Str} {rest : List Str} {c : VttCue}
    (h : cueCore identifier timing rest = .ok c) :
    c.identifier = identifier ∧ c.payload = joinSep '\n' rest := by
  unfold cueCore at h
  match h1 : splitArrow timing with
  | [] =>
    rw [h1] at h
    cases h
  | [a] =>
    rw [h1] at h
    cases h
  | [a, b] =>
    rw [h1] at h
    exact cueCore2_ok h
  | a :: b :: d :: r =>
    rw [h1] at h
    cases h

/-! ## Lemmas: the settings grammar error taxonomy -/

theorem applyVertical_error {settings : VttSettings} {value : Str} {e : VttParseError}
    (h : applyVertical settings value = .error e) : ∃ m, e = .invalidSetting m := by
  unfold applyVertical at h
  by_cases h1 : value = ("rl").toList
  · rw [if_pos h1] at h
    cases h
  · rw [if_neg h1] at h
    by_cases h2 : value = ("lr").toList
    · rw [if_pos h2] at h
      cases h
    · rw [if_neg h2] at h
      exact ⟨_, (Except.error.injEq _ _ ▸ h).symm⟩

theorem applyLinePct_error {settings : VttSettings} {stripped : Str} {e : VttParseError}
    (h : applyLinePct settings stripped = .error e) : ∃ m, e = .invalidSetting m := by
  unfold applyLinePct at h
  match h3 : parseU32 stripped with
  | some percent =>
    rw [h3] at h
    cases h
  | none =>
    rw [h3] at h
    exact ⟨_, (Except.error.injEq _ _ ▸ h).symm⟩

theorem applyLineNum_error {settings : VttSettings} {value : Str} {e : VttParseError}
    (h : applyLineNum settings value = .error e) : ∃ m, e = .invalidSetting m := by
  unfold applyLineNum at h
  match h3 : parseI32 value with
  | some number =>
    rw [h3] at h
    cases h
  | none =>
    rw [h3] at h
    exact ⟨_, (Except.error.injEq _ _ ▸ h).symm⟩

theorem applyLine_error {settings : VttSettings} {value : Str} {e : VttParseError}
    (h : applyLine settings value = .error e) : ∃ m, e = .invalidSetting m := by
  unfold applyLine at h
  by_cases h1 : value = ("auto").toList
  · rw [if_pos h1] at h
    cases h
  · rw [if_neg h1] at h
    match h2 : stripPct value with
    | some stripped =>
      rw [h2] at h
      exact applyLinePct_error h
    | none =>
      rw [h2] at h
      exact applyLineNum_error h

theorem applyPosition_error {settings : VttSettings} {value : Str} {e : VttParseError}
    (h : applyPosition settings value = .error e) : ∃ m, e = .invalidSetting m := by
  unfold applyPosition at h
  match h2 : pctValue value with
  | some pos =>
    rw [h2] at h
    cases h
  | none =>
    rw [h2] at h
    exact ⟨_, (Except.error.injEq _ _ ▸ h).symm⟩

theorem applySize_error {settings : VttSettings} {value : Str} {e : VttParseError}
    (h : applySize settings value = .error e) : ∃ m, e = .invalidSetting m := by
  unfold applySize at h
  match h2 : pctValue value with
  | some size =>
    rw [h2] at h
    cases h
  | none =>
    rw [h2] at h
    exact ⟨_, (Except.error.injEq _ _ ▸ h).symm⟩

theorem applyAlign_error {settings : VttSettings} {value : Str} {e : VttParseError}
    (h : applyAlign settings value = .error e) : ∃ m, e = .invalidSetting m := by
  unfold applyAlign at h
  by_cases h1 : value = ("start").toList
  · rw [if_pos h1] at h; cases h
  · rw [if_neg h1] at h
    by_cases h2 : value = ("middle").toList
    · rw [if_pos h2] at h; cases h
    · rw [if_neg h2] at h
      by_cases h3 : value = ("end").toList
      · rw [if_pos h3] at h; cases h
      · rw [if_neg h3] at h
        by_cases h4 : value = ("left").toList
        · rw [if_pos h4] at h; cases h
        · rw [if_neg h4] at h
          by_cases h5 : value = ("right").toList
          · rw [if_pos h5] at h; cases h
          · rw [if_neg h5] at h
            exact ⟨_, (Except.error.injEq _ _ ▸ h).symm⟩

theorem applyKV_error {settings : VttSettings} {key value : Str} {e : VttParseError}
    (h : applyKV settings key value = .error e) : ∃ m, e = .invalidSetting m := by
  unfold applyKV at h
  by_cases h1 : key = ("vertical").toList
  · rw [if_pos h1] at h
    exact applyVertical_error h
  · rw [if_neg h1] at h
    by_cases h2 : key = ("line").toList
    · rw [if_pos h2] at h
      exact applyLine_error h
    · rw [if_neg h2] at h
      by_cases h3 : key = ("position").toList
      · rw [if_pos h3] at h
        exact applyPosition_error h
      · rw [if_neg h3] at h
        by_cases h4 : key = ("size").toList
        · rw [if_pos h4] at h
          exact applySize_error h
        · rw [if_neg h4] at h
          by_cases h5 : key = ("align").toList
          · rw [if_pos h5] at h
            exact applyAlign_error h
          · rw [if_neg h5] at h
            exact ⟨_, (Except.error.injEq _ _ ▸ h).symm⟩

theorem applyToken_error {settings : VttSettings} {t : Str} {e : VttParseError}
    (h : applyToken settings t = .error e) : ∃ m, e = .invalidSetting m := by
  unfold applyToken at h
  match h1 : splitFirst ':' t with
  | none =>
    rw [h1] at h
    exact ⟨_, (Except.error.injEq _ _ ▸ h).symm⟩
  | some (key, value) =>
    rw [h1] at h
    exact applyKV_error h

theorem applyToken_bad {t : Str} (hbad : badTokenB t = true) (settings : VttSettings) :
    ∃ m, applyToken settings t = .error (.invalidSetting m) := by
  unfold badTokenB at hbad
  match h1 : splitFirst ':' t with
  | none =>
    refine ⟨("Invalid setting format: ").toList ++ t, ?_⟩
    unfold applyToken
    rw [h1]
  | some (key, value) =>
    rw [h1] at hbad
    have hbad2 : (if key = ("vertical").toList ∨ key = ("line").toList ∨
        key = ("position").toList ∨ key = ("size").toList ∨ key = ("align").toList
        then false else true) = true := hbad
    have hnk : ¬(key = ("vertical").toList ∨ key = ("line").toList ∨
        key = ("position").toList ∨ key = ("size").toList ∨ key = ("align").toList) := by
      intro hor
      rw [if_pos hor] at hbad2
      cases hbad2
    push_neg at hnk
    obtain ⟨n1, n2, n3, n4, n5⟩ := hnk
    refine ⟨("Unknown setting: ").toList ++ key, ?_⟩
    unfold applyToken
    rw [h1]
    show applyKV settings key value = _
    unfold applyKV
    rw [if_neg n1, if_neg n2, if_neg n3, if_neg n4, if_neg n5]

theorem settingsLoop_bad {t : Str} {toks : List Str} (ht : t ∈ toks)
    (hbad : badTokenB t = true) (acc : VttSettings) :
    ∃ m, settingsLoop acc toks = .error (.invalidSetting m) := by
  induction toks generalizing acc with
  | nil => cases ht
  | cons x xs ih =>
    unfold settingsLoop
    rcases List.mem_cons.mp ht with h1 | h1
    · subst h1
      obtain ⟨m, hm⟩ := applyToken_bad hbad acc
      rw [hm]
      exact ⟨m, rfl⟩
    · match h2 : applyToken acc x with
      | .error e =>
        obtain ⟨m, hm⟩ := applyToken_error h2
        subst hm
        exact ⟨m, rfl⟩
      | .ok acc2 =>
        obtain ⟨m, hm⟩ := ih h1 acc2
        exact ⟨m, hm⟩

/-! ## Lemmas: the settings round trip -/

theorem getLast?_mem {l : Str} {c : Char} (h : l.getLast? = some c) : c ∈ l := by
  induction l with
  | nil => cases h
  | cons x xs ih =>
    match xs with
    | [] =>
      simp only [List.getLast?_singleton, Option.some_inj] at h
      subst h
      exact List.mem_cons_self x []
    | y :: ys =>
      rw [List.getLast?_cons_cons] at h
      exact List.mem_cons_of_mem x (ih h)

theorem stripPct_concat (x : Str) : stripPct (x ++ ['%']) = some x := by
  unfold stripPct
  rw [List.getLast?_concat, if_pos rfl, List.dropLast_concat]

theorem getLast?_cons_ne {a : Char} {l : Str} (h : l ≠ []) :
    (a :: l).getLast? = l.getLast? := by
  match l, h with
  | x :: xs, _ => exact List.getLast?_cons_cons

theorem settingsLoop_cons_ok {acc acc2 : VttSettings} {t : Str} {ts : List Str}
    (h : applyToken acc t = .ok acc2) :
    settingsLoop acc (t :: ts) = settingsLoop acc2 ts := by
  rw [settingsLoop.eq_2, h]

theorem natChars_getLast_digit {n : Nat} {c : Char}
    (h : (natChars n).getLast? = some c) : isDigitC c = true :=
  allDigits_mem (allDigits_natChars n) (getLast?_mem h)

theorem stripPct_intChars (z : Int) : stripPct (intChars z) = none := by
  unfold stripPct
  have hlast : ∀ c, (intChars z).getLast? = some c → isDigitC c = true := by
    intro c hc
    unfold intChars at hc
    by_cases hz : z < 0
    · rw [if_pos hz] at hc
      rw [getLast?_cons_ne (natChars_ne_nil z.natAbs)] at hc
      exact natChars_getLast_digit hc
    · rw [if_neg hz] at hc
      exact natChars_getLast_digit hc
  cases hl : (intChars z).getLast? with
  | none => rw [if_neg (by intro hx; cases hx)]
  | some c =>
    have hd := hlast c hl
    have hne : c ≠ '%' := isDigitC_ne hd rfl
    rw [if_neg (by intro hx; exact hne (Option.some_inj.mp hx))]

theorem natChars_head_append_ne_auto (n : Nat) (y : Str) :
    natChars n ++ y ≠ ("auto").toList := by
  intro heq
  have h1 := congrArg List.head? heq
  rw [List.head?_append] at h1
  match hnc : natChars n, natChars_ne_nil n with
  | x :: r, _ =>
    rw [hnc] at h1
    have hx : isDigitC x = true :=
      allDigits_mem (hnc ▸ allDigits_natChars n) (List.mem_cons_self x r)
    have : x = 'a' := by
      simpa using h1
    rw [this] at hx
    cases hx

theorem intChars_ne_auto (z : Int) : intChars z ≠ ("auto").toList := by
  unfold intChars
  by_cases hz : z < 0
  · rw [if_pos hz]
    intro heq
    have h1 := congrArg List.head? heq
    match hnc : natChars z.natAbs, natChars_ne_nil z.natAbs with
    | x :: r, _ =>
      rw [hnc] at h1
      simp at h1
  · rw [if_neg hz]
    have := natChars_head_append_ne_auto z.toNat []
    rwa [List.append_nil] at this

theorem applyToken_linePct (acc : VttSettings) (n : Nat) (hn : n < 2 ^ 32) :
    applyToken acc (("line").toList ++ ':' :: (natChars n ++ ['%'])) =
      .ok { acc with line := some (.percentage n) } := by
  unfold applyToken
  rw [splitFirst_append _ (by decide)]
  show applyKV acc (("line").toList) (natChars n ++ ['%']) = _
  unfold applyKV
  rw [if_neg (by decide), if_pos rfl]
  unfold applyLine
  rw [if_neg (natChars_head_append_ne_auto n ['%'])]
  rw [stripPct_concat]
  show applyLinePct acc (natChars n) = _
  unfold applyLinePct
  rw [parseU32_natChars hn]

theorem applyToken_lineNum (acc : VttSettings) (z : Int)
    (hlo : -(2 ^ 31) ≤ z) (hhi : z < 2 ^ 31) :
    applyToken acc (("line").toList ++ ':' :: intChars z) =
      .ok { acc with line := some (.number z) } := by
  unfold applyToken
  rw [splitFirst_append _ (by decide)]
  show applyKV acc (("line").toList) (intChars z) = _
  unfold applyKV
  rw [if_neg (by decide), if_pos rfl]
  unfold applyLine
  rw [if_neg (intChars_ne_auto z)]
  rw [stripPct_intChars]
  show applyLineNum acc (intChars z) = _
  unfold applyLineNum
  rw [parseI32_intChars hlo hhi]

theorem applyToken_pos (acc : VttSettings) (n : Nat) (hn : n < 2 ^ 32) :
    applyToken acc (("position").toList ++ ':' :: (natChars n ++ ['%'])) =
      .ok { acc with position := some n } := by
  unfold applyToken
  rw [splitFirst_append _ (by decide)]
  show applyKV acc (("position").toList) (natChars n ++ ['%']) = _
  unfold applyKV
  rw [if_neg (by decide), if_neg (by decide), if_pos rfl]
  unfold applyPosition
  have hpv : pctValue (natChars n ++ ['%']) = some n := by
    unfold pctValue
    rw [stripPct_concat]
    exact parseU32_natChars hn
  rw [hpv]

theorem applyToken_size (acc : VttSettings) (n : Nat) (hn : n < 2 ^ 32) :
    applyToken acc (("size").toList ++ ':' :: (natChars n ++ ['%'])) =
      .ok { acc with size := some n } := by
  unfold applyToken
  rw [splitFirst_append _ (by decide)]
  show applyKV acc (("size").toList) (natChars n ++ ['%']) = _
  unfold applyKV
  rw [if_neg (by decide), if_neg (by decide), if_neg (by decide), if_pos rfl]
  unfold applySize
  have hpv : pctValue (natChars n ++ ['%']) = some n := by
    unfold pctValue
    rw [stripPct_concat]
    exact parseU32_natChars hn
  rw [hpv]

theorem loop_vert (ov : Option VerticalSetting) (acc : VttSettings) (rest : List Str) :
    settingsLoop acc (vertTokens ov ++ rest) = settingsLoop (setVert acc ov) rest := by
  cases ov with
  | none => rfl
  | some v => cases v <;> rfl

theorem loop_line (ol : Option LineSetting) (acc : VttSettings) (rest : List Str)
    (hb1 : ∀ n, ol = some (.percentage n) → n < 2 ^ 32)
    (hb2 : ∀ z, ol = some (.number z) → -(2 ^ 31) ≤ z ∧ z < 2 ^ 31) :
    settingsLoop acc (lineTokens ol ++ rest) = settingsLoop (setLine acc ol) rest := by
  cases ol with
  | none => rfl
  | some l =>
    cases l with
    | auto => rfl
    | percentage n =>
      show settingsLoop acc ((("line").toList ++ ':' :: (natChars n ++ ['%'])) :: rest) = _
      rw [settingsLoop_cons_ok (applyToken_linePct acc n (hb1 n rfl))]
      rfl
    | number z =>
      obtain ⟨hlo, hhi⟩ := hb2 z rfl
      show settingsLoop acc ((("line").toList ++ ':' :: intChars z) :: rest) = _
      rw [settingsLoop_cons_ok (applyToken_lineNum acc z hlo hhi)]
      rfl

theorem loop_pos (op : Option Nat) (acc : VttSettings) (rest : List Str)
    (hb : ∀ n, op = some n → n < 2 ^ 32) :
    settingsLoop acc (posTokens op ++ rest) = settingsLoop (setPos acc op) rest := by
  cases op with
  | none => rfl
  | some n =>
    show settingsLoop acc ((("position").toList ++ ':' :: (natChars n ++ ['%'])) :: rest) = _
    rw [settingsLoop_cons_ok (applyToken_pos acc n (hb n rfl))]
    rfl

theorem loop_size (os : Option Nat) (acc : VttSettings) (rest : List Str)
    (hb : ∀ n, os = some n → n < 2 ^ 32) :
    settingsLoop acc (sizeTokens os ++ rest) = settingsLoop (setSize acc os) rest := by
  cases os with
  | none => rfl
  | some n =>
    show settingsLoop acc ((("size").toList ++ ':' :: (natChars n ++ ['%'])) :: rest) = _
    rw [settingsLoop_cons_ok (applyToken_size acc n (hb n rfl))]
    rfl

theorem loop_align (oa : Option AlignSetting) (acc : VttSettings) :
    settingsLoop acc (alignTokens oa) = .ok (setAlign acc oa) := by
  cases oa with
  | none => rfl
  | some a => cases a <;> rfl

theorem isWS_false_of_mem_natChars {n : Nat} {c : Char} (h : c ∈ natChars n) :
    isWS c = false :=
  isWS_of_digit (allDigits_mem (allDigits_natChars n) h)

theorem settingsTokens_props (st : VttSettings) :
    ∀ t ∈ settingsTokens st, t ≠ [] ∧ ∀ c ∈ t, isWS c = false := by
  obtain ⟨ov, ol, op, os, oa⟩ := st
  intro t ht
  simp only [settingsTokens] at ht
  rcases List.mem_append.mp ht with h1 | h1
  · -- vertical tokens
    rcases ov with _ | v
    · cases h1
    · cases v <;>
        (simp only [vertTokens, List.mem_singleton] at h1; subst h1;
         exact ⟨by decide, by decide⟩)
  rcases List.mem_append.mp h1 with h2 | h2
  · -- line tokens
    rcases ol with _ | l
    · cases h2
    · cases l with
      | percentage n =>
        simp only [lineTokens, List.mem_singleton] at h2
        subst h2
        refine ⟨by simp, ?_⟩
        intro c hc
        rcases List.mem_append.mp hc with h3 | h3
        · have hws : ∀ c ∈ ("line").toList, isWS c = false := by decide
          exact hws c h3
        · rcases List.mem_cons.mp h3 with h4 | h4
          · subst h4
            rfl
          · rcases List.mem_append.mp h4 with h5 | h5
            · exact isWS_false_of_mem_natChars h5
            · simp only [List.mem_singleton] at h5
              subst h5
              rfl
      | number z =>
        simp only [lineTokens, List.mem_singleton] at h2
        subst h2
        refine ⟨by simp, ?_⟩
        intro c hc
        rcases List.mem_append.mp hc with h3 | h3
        · have hws : ∀ c ∈ ("line").toList, isWS c = false := by decide
          exact hws c h3
        · rcases List.mem_cons.mp h3 with h4 | h4
          · subst h4
            rfl
          · unfold intChars at h4
            by_cases hz : z < 0
            · rw [if_pos hz] at h4
              rcases List.mem_cons.mp h4 with h5 | h5
              · subst h5
                rfl
              · exact isWS_false_of_mem_natChars h5
            · rw [if_neg hz] at h4
              exact isWS_false_of_mem_natChars h4
      | auto =>
        simp only [lineTokens, List.mem_singleton] at h2
        subst h2
        exact ⟨by decide, by decide⟩
  rcases List.mem_append.mp h2 with h3 | h3
  · -- position tokens
    rcases op with _ | n
    · cases h3
    · simp only [posTokens, List.mem_singleton] at h3
      subst h3
      refine ⟨by simp, ?_⟩
      intro c hc
      rcases List.mem_append.mp hc with h4 | h4
      · have hws : ∀ c ∈ ("position").toList, isWS c = false := by decide
        exact hws c h4
      · rcases List.mem_cons.mp h4 with h5 | h5
        · subst h5
          rfl
        · rcases List.mem_append.mp h5 with h6 | h6
          · exact isWS_false_of_mem_natChars h6
          · simp only [List.mem_singleton] at h6
            subst h6
            rfl
  rcases List.mem_append.mp h3 with h4 | h4
  · -- size tokens
    rcases os with _ | n
    · cases h4
    · simp only [sizeTokens, List.mem_singleton] at h4
      subst h4
      refine ⟨by simp, ?_⟩
      intro c hc
      rcases List.mem_append.mp hc with h5 | h5
      · have hws : ∀ c ∈ ("size").toList, isWS c = false := by decide
        exact hws c h5
      · rcases List.mem_cons.mp h5 with h6 | h6
        · subst h6
          rfl
        · rcases List.mem_append.mp h6 with h7 | h7
          · exact isWS_false_of_mem_natChars h7
          · simp only [List.mem_singleton] at h7
            subst h7
            rfl
  · -- align tokens
    rcases oa with _ | a
    · cases h4
    · cases a <;>
        (simp only [alignTokens, List.mem_singleton] at h4; subst h4;
         exact ⟨by decide, by decide⟩)

/-- The settings round trip: reparsing the formatted settings recovers
the record exactly (used by C2 and by the document round trip of C7). -/
theorem settings_roundtrip (st : VttSettings)
    (hb1 : ∀ n, st.line = some (.percentage n) → n < 2 ^ 32)
    (hb2 : ∀ z, st.line = some (.number z) → -(2 ^ 31) ≤ z ∧ z < 2 ^ 31)
    (hb3 : ∀ n, st.position = some n → n < 2 ^ 32)
    (hb4 : ∀ n, st.size = some n → n < 2 ^ 32) :
    parseSettings (formatSettings st) = .ok st := by
  unfold parseSettings formatSettings
  rw [splitWS_join (settingsTokens_props st)]
  rcases st with ⟨ov, ol, op, os, oa⟩
  show settingsLoop defaultSettings
    (vertTokens ov ++ (lineTokens ol ++ (posTokens op ++ (sizeTokens os ++ alignTokens oa)))) = _
  rw [loop_vert]
  have e1 : setVert defaultSettings ov = (⟨ov, none, none, none, none⟩ : VttSettings) := by
    cases ov <;> rfl
  rw [e1, loop_line ol _ _ hb1 hb2]
  have e2 : setLine (⟨ov, none, none, none, none⟩ : VttSettings) ol =
      (⟨ov, ol, none, none, none⟩ : VttSettings) := by
    cases ol <;> rfl
  rw [e2, loop_pos op _ _ hb3]
  have e3 : setPos (⟨ov, ol, none, none, none⟩ : VttSettings) op =
      (⟨ov, ol, op, none, none⟩ : VttSettings) := by
    cases op <;> rfl
  rw [e3, loop_size os _ _ hb4]
  have e4 : setSize (⟨ov, ol, op, none, none⟩ : VttSettings) os =
      (⟨ov, ol, op, os, none⟩ : VttSettings) := by
    cases os <;> rfl
  rw [e4, loop_align]
  have e5 : setAlign (⟨ov, ol, op, os, none⟩ : VttSettings) oa =
      (⟨ov, ol, op, os, oa⟩ : VttSettings) := by
    cases oa <;> rfl
  rw [e5]

/-! ## Lemmas: the document layout -/

theorem formatMeta_eq (meta : List (Str × Str)) :
    formatMeta meta = (meta.map (fun kv => kv.1 ++ ':' :: ' ' :: kv.2 ++ ['\n'])).flatten := by
  induction meta with
  | nil => rfl
  | cons kv rest ih =>
    obtain ⟨k, v⟩ := kv
    show k ++ ':' :: ' ' :: v ++ '\n' :: formatMeta rest = _
    rw [ih]
    simp

theorem formatCuesLoop_false (cs : List VttCue) :
    formatCuesLoop false cs = (cs.map (fun c => '\n' :: '\n' :: formatCue c)).flatten := by
  induction cs with
  | nil => rfl
  | cons c rest ih =>
    show '\n' :: '\n' :: (formatCue c ++ formatCuesLoop false rest) = _
    rw [ih]
    simp

theorem sepJoin_nn (x : Str) (xs : List Str) :
    sepJoin ['\n', '\n'] (x :: xs) = x ++ (xs.map (fun y => '\n' :: '\n' :: y)).flatten := by
  induction xs generalizing x with
  | nil => simp [sepJoin]
  | cons y ys ih =>
    show x ++ ['\n', '\n'] ++ sepJoin ['\n', '\n'] (y :: ys) = _
    rw [ih y]
    simp

theorem formatCuesLoop_true (cs : List VttCue) :
    formatCuesLoop true cs = sepJoin ['\n', '\n'] (cs.map formatCue) := by
  cases cs with
  | nil => rfl
  | cons c rest =>
    show formatCue c ++ formatCuesLoop false rest = _
    rw [formatCuesLoop_false, List.map_cons, sepJoin_nn, List.map_map]
    rfl

/-! ## Lemmas: one-sided trimming -/

theorem dropWhile_append_ne {p : Char → Bool} {a : Str} (b : Str)
    (h : a.dropWhile p ≠ []) : (a ++ b).dropWhile p = a.dropWhile p ++ b := by
  rw [List.dropWhile_append, if_neg]
  intro hE
  exact h (List.isEmpty_iff.mp hE)

theorem trimL_as_ends (s : Str) : trimL s = trimEndL (trimStartL s) := rfl

theorem trimStartL_eq_nil_iff (s : Str) : trimStartL s = [] ↔ AllWS s := by
  unfold trimStartL AllWS
  exact List.dropWhile_eq_nil_iff

theorem trimL_eq_nil_iff (s : Str) : trimL s = [] ↔ AllWS s := by
  constructor
  · intro h c hc
    cases hw : isWS c with
    | true => rfl
    | false => exact absurd h (trimL_ne_nil hc hw)
  · intro h
    rw [trimL_as_ends, (trimStartL_eq_nil_iff s).mpr h]
    rfl

theorem trimStartL_ne_nil {s : Str} (h : trimL s ≠ []) : trimStartL s ≠ [] := by
  intro h0
  exact h (by rw [trimL_as_ends, h0]; rfl)

theorem not_allWS {s : Str} (h : trimL s ≠ []) : ¬ AllWS s :=
  fun a => h ((trimL_eq_nil_iff s).mpr a)

theorem not_allWS_of_mem {s : Str} {c : Char} (hm : c ∈ s) (hc : isWS c = false) :
    ¬ AllWS s := by
  intro h
  rw [h c hm] at hc
  cases hc

theorem trimStartL_append {a : Str} (b : Str) (h : trimL a ≠ []) :
    trimStartL (a ++ b) = trimStartL a ++ b :=
  dropWhile_append_ne b (trimStartL_ne_nil h)

theorem rev_dropWhile_ne_nil {s : Str} (h : ¬ AllWS s) :
    s.reverse.dropWhile isWS ≠ [] := by
  intro h0
  apply h
  intro c hc
  exact List.dropWhile_eq_nil_iff.mp h0 c (List.mem_reverse.mpr hc)

theorem trimEndL_append (a : Str) {b : Str} (h : ¬ AllWS b) :
    trimEndL (a ++ b) = a ++ trimEndL b := by
  unfold trimEndL
  rw [List.reverse_append, dropWhile_append_ne a.reverse (rev_dropWhile_ne_nil h),
    List.reverse_append, List.reverse_reverse]

theorem trimEndL_cons {b : Str} (c : Char) (h : ¬ AllWS b) :
    trimEndL (c :: b) = c :: trimEndL b := by
  have h2 := trimEndL_append [c] h
  simpa using h2

theorem mem_of_mem_trimStartL {s : Str} {c : Char} (h : c ∈ trimStartL s) : c ∈ s :=
  mem_of_mem_dropWhile h

theorem mem_of_mem_trimEndL {s : Str} {c : Char} (h : c ∈ trimEndL s) : c ∈ s := by
  unfold trimEndL at h
  rw [List.mem_reverse] at h
  have h1 := mem_of_mem_dropWhile h
  rwa [List.mem_reverse] at h1

theorem mem_trimStartL_of_not_ws {s : Str} {c : Char} (hm : c ∈ s)
    (hc : isWS c = false) : c ∈ trimStartL s :=
  mem_dropWhile_of_not hm hc

theorem mem_trimEndL_of_not_ws {s : Str} {c : Char} (hm : c ∈ s)
    (hc : isWS c = false) : c ∈ trimEndL s := by
  unfold trimEndL
  rw [List.mem_reverse]
  exact mem_dropWhile_of_not (List.mem_reverse.mpr hm) hc

theorem trimL_trimStartL_ne {s : Str} (h : trimL s ≠ []) :
    trimL (trimStartL s) ≠ [] := by
  obtain ⟨c, hc, hw⟩ := trimL_exists_of_ne_nil h
  exact trimL_ne_nil (mem_trimStartL_of_not_ws hc hw) hw

theorem trimL_trimEndL_ne {s : Str} (h : trimL s ≠ []) :
    trimL (trimEndL s) ≠ [] := by
  obtain ⟨c, hc, hw⟩ := trimL_exists_of_ne_nil h
  exact trimL_ne_nil (mem_trimEndL_of_not_ws hc hw) hw

/-- Trimming the right end of a join of non-blank newline-free lines
keeps every line non-blank. -/
theorem trimEndL_joinSep_forall {ls : List Str} (hne : ls ≠ [])
    (hnb : ∀ l ∈ ls, trimL l ≠ []) (hnl : ∀ l ∈ ls, '\n' ∉ l) :
    ∀ q ∈ splitOnC '\n' (trimEndL (joinSep '\n' ls)), trimL q ≠ [] := by
  induction ls with
  | nil => exact absurd rfl hne
  | cons l rest ih =>
    have hl : trimL l ≠ [] := hnb l (List.mem_cons_self l rest)
    cases rest with
    | nil =>
      intro q hq
      have e1 : joinSep '\n' [l] = l := rfl
      rw [e1] at hq
      have hnlE : '\n' ∉ trimEndL l := fun hm =>
        hnl l (List.mem_cons_self l []) (mem_of_mem_trimEndL hm)
      rw [splitOnC_of_not_mem hnlE, List.mem_singleton] at hq
      subst hq
      exact trimL_trimEndL_ne hl
    | cons r rs =>
      intro q hq
      have e1 : joinSep '\n' (l :: r :: rs) = l ++ '\n' :: joinSep '\n' (r :: rs) := rfl
      obtain ⟨c, hcr, hcw⟩ := trimL_exists_of_ne_nil (hnb r (List.mem_cons_of_mem l (List.mem_cons_self r rs)))
      have hcJ : c ∈ joinSep '\n' (r :: rs) :=
        mem_joinSep '\n' (List.mem_cons_self r rs) hcr
      have hJ : ¬ AllWS (joinSep '\n' (r :: rs)) := not_allWS_of_mem hcJ hcw
      have hJ2 : ¬ AllWS ('\n' :: joinSep '\n' (r :: rs)) :=
        not_allWS_of_mem (List.mem_cons_of_mem '\n' hcJ) hcw
      rw [e1, trimEndL_append l hJ2, trimEndL_cons '\n' hJ,
        splitOnC_append_sep _ (hnl l (List.mem_cons_self l (r :: rs)))] at hq
      rcases List.mem_cons.mp hq with h1 | h1
      · subst h1
        exact hl
      · exact ih (List.cons_ne_nil r rs)
          (fun x hx => hnb x (List.mem_cons_of_mem l hx))
          (fun x hx => hnl x (List.mem_cons_of_mem l hx)) q h1

/-- Trimming a join of non-blank newline-free lines keeps every line
non-blank (the claim C7 needs this to show a formatted payload reparses
as one block). -/
theorem trimL_joinSep_forall {ls : List Str} (hne : ls ≠ [])
    (hnb : ∀ l ∈ ls, trimL l ≠ []) (hnl : ∀ l ∈ ls, '\n' ∉ l) :
    ∀ q ∈ splitOnC '\n' (trimL (joinSep '\n' ls)), trimL q ≠ [] := by
  cases ls with
  | nil => exact absurd rfl hne
  | cons l rest =>
    have hl : trimL l ≠ [] := hnb l (List.mem_cons_self l rest)
    cases rest with
    | nil =>
      intro q hq
      have e1 : joinSep '\n' [l] = l := rfl
      rw [e1] at hq
      have hnlT : '\n' ∉ trimL l := fun hm =>
        hnl l (List.mem_cons_self l []) (mem_trimL hm)
      rw [splitOnC_of_not_mem hnlT, List.mem_singleton] at hq
      subst hq
      rw [trimL_idem]
      exact hl
    | cons r rs =>
      have e1 : joinSep '\n' (l :: r :: rs) = l ++ '\n' :: joinSep '\n' (r :: rs) := rfl
      rw [trimL_as_ends, e1, trimStartL_append ('\n' :: joinSep '\n' (r :: rs)) hl]
      have e2 : trimStartL l ++ '\n' :: joinSep '\n' (r :: rs) =
          joinSep '\n' (trimStartL l :: r :: rs) := rfl
      rw [e2]
      refine trimEndL_joinSep_forall (List.cons_ne_nil _ _) ?_ ?_
      · intro x hx
        rcases List.mem_cons.mp hx with h1 | h1
        · subst h1
          exact trimL_trimStartL_ne hl
        · exact hnb x (List.mem_cons_of_mem l h1)
      · intro x hx
        rcases List.mem_cons.mp hx with h1 | h1
        · subst h1
          exact fun hm => hnl l (List.mem_cons_self l (r :: rs)) (mem_of_mem_trimStartL hm)
        · exact hnl x (List.mem_cons_of_mem l h1)

/-! ## Lemmas: characters of formatted timestamps and settings -/

theorem padZeros_mem_digit {k : Nat} {s : Str} (hs : allDigits s = true) {c : Char}
    (hc : c ∈ padZeros k s) : isDigitC c = true := by
  unfold padZeros at hc
  rcases List.mem_append.mp hc with h1 | h1
  · rw [List.eq_of_mem_replicate h1]
    decide
  · exact allDigits_mem hs h1

theorem formatTs_chars (v : Nat) {c : Char} (hc : c ∈ formatTs v) :
    isDigitC c = true ∨ c = ':' ∨ c = '.' := by
  unfold formatTs at hc
  rcases List.mem_append.mp hc with h1 | h1
  · exact Or.inl (padZeros_mem_digit (allDigits_natChars _) h1)
  rcases List.mem_cons.mp h1 with h2 | h2
  · exact Or.inr (Or.inl h2)
  rcases List.mem_append.mp h2 with h3 | h3
  · exact Or.inl (padZeros_mem_digit (allDigits_natChars _) h3)
  rcases List.mem_cons.mp h3 with h4 | h4
  · exact Or.inr (Or.inl h4)
  rcases List.mem_append.mp h4 with h5 | h5
  · exact Or.inl (padZeros_mem_digit (allDigits_natChars _) h5)
  rcases List.mem_cons.mp h5 with h6 | h6
  · exact Or.inr (Or.inr h6)
  · exact Or.inl (padZeros_mem_digit (allDigits_natChars _) h6)

theorem formatTs_no_ws (v : Nat) : ∀ c ∈ formatTs v, isWS c = false := by
  intro c hc
  rcases formatTs_chars v hc with h | h | h
  · exact isWS_of_digit h
  · subst h
    rfl
  · subst h
    rfl

theorem formatTs_no_dash (v : Nat) : '-' ∉ formatTs v := by
  intro hm
  rcases formatTs_chars v hm with h | h | h
  · exact absurd h (by decide)
  · exact absurd h (by decide)
  · exact absurd h (by decide)

theorem formatTs_no_gt (v : Nat) : '>' ∉ formatTs v := by
  intro hm
  rcases formatTs_chars v hm with h | h | h
  · exact absurd h (by decide)
  · exact absurd h (by decide)
  · exact absurd h (by decide)

theorem formatTs_no_nl (v : Nat) : '\n' ∉ formatTs v := fun hm =>
  absurd (formatTs_no_ws v '\n' hm) (by decide)

theorem formatTs_ne_nil (v : Nat) : formatTs v ≠ [] := by
  intro h
  cases (List.append_eq_nil.mp h).2

theorem head?_append_ne {a : Str} (b : Str) (h : a ≠ []) :
    (a ++ b).head? = a.head? := by
  rw [List.head?_append, Option.or_of_isSome]
  cases ha : a.head? with
  | none => exact absurd (List.head?_eq_none_iff.mp ha) h
  | some c => rfl

theorem getLast?_append_ne (a : Str) {b : Str} (h : b ≠ []) :
    (a ++ b).getLast? = b.getLast? := by
  rw [List.getLast?_append, Option.or_of_isSome]
  cases hb : b.getLast? with
  | none => exact absurd (List.getLast?_eq_none_iff.mp hb) h
  | some c => rfl

theorem padZeros_head_digit {k : Nat} {s : Str} (hs : allDigits s = true)
    (hne : s ≠ []) {c : Char} (hc : (padZeros k s).head? = some c) :
    isDigitC c = true :=
  padZeros_mem_digit hs (List.mem_of_mem_head? (Option.mem_def.mpr hc))

theorem formatTs_head_digit (v : Nat) {c : Char}
    (hc : (formatTs v).head? = some c) : isDigitC c = true := by
  unfold formatTs at hc
  rw [head?_append_ne _ (padZeros_ne_nil (natChars_ne_nil _))] at hc
  exact padZeros_head_digit (allDigits_natChars _) (natChars_ne_nil _) hc

theorem formatTs_last_digit (v : Nat) {c : Char}
    (hc : (formatTs v).getLast? = some c) : isDigitC c = true := by
  have e1 : formatTs v =
      (padZeros 2 (natChars (v / 3600000)) ++ ':' ::
       (padZeros 2 (natChars (v % 3600000 / 60000)) ++ ':' ::
        (padZeros 2 (natChars (v % 60000 / 1000)) ++ ['.']))) ++
      padZeros 3 (natChars (v % 1000)) := by
    unfold formatTs
    simp
  rw [e1, getLast?_append_ne _ (padZeros_ne_nil (natChars_ne_nil _))] at hc
  exact padZeros_mem_digit (allDigits_natChars _) (getLast?_mem hc)

theorem formatTs_trim (v : Nat) : trimL (formatTs v) = formatTs v :=
  trimL_eq_self
    (fun c hc => isWS_of_digit (formatTs_head_digit v hc))
    (fun c hc => isWS_of_digit (formatTs_last_digit v hc))

/-- Every character of a settings token is different from `>` (together
with `settingsTokens_props` this keeps a formatted timing line free of
`-->` after the arrow the formatter writes). -/
theorem settingsTokens_no_gt (st : VttSettings) :
    ∀ t ∈ settingsTokens st, ∀ c ∈ t, c ≠ '>' := by
  obtain ⟨ov, ol, op, os, oa⟩ := st
  intro t ht
  simp only [settingsTokens] at ht
  rcases List.mem_append.mp ht with h1 | h1
  · rcases ov with _ | v
    · cases h1
    · cases v <;>
        (simp only [vertTokens, List.mem_singleton] at h1; subst h1;
         exact by decide)
  rcases List.mem_append.mp h1 with h2 | h2
  · rcases ol with _ | l
    · cases h2
    · cases l with
      | percentage n =>
        simp only [lineTokens, List.mem_singleton] at h2
        subst h2
        intro c hc
        rcases List.mem_append.mp hc with h3 | h3
        · have hgt : ∀ c ∈ ("line").toList, c ≠ '>' := by decide
          exact hgt c h3
        · rcases List.mem_cons.mp h3 with h4 | h4
          · subst h4
            decide
          · rcases List.mem_append.mp h4 with h5 | h5
            · exact isDigitC_ne (allDigits_mem (allDigits_natChars n) h5) (by decide)
            · simp only [List.mem_singleton] at h5
              subst h5
              decide
      | number z =>
        simp only [lineTokens, List.mem_singleton] at h2
        subst h2
        intro c hc
        rcases List.mem_append.mp hc with h3 | h3
        · have hgt : ∀ c ∈ ("line").toList, c ≠ '>' := by decide
          exact hgt c h3
        · rcases List.mem_cons.mp h3 with h4 | h4
          · subst h4
            decide
          · unfold intChars at h4
            by_cases hz : z < 0
            · rw [if_pos hz] at h4
              rcases List.mem_cons.mp h4 with h5 | h5
              · subst h5
                decide
              · exact isDigitC_ne (allDigits_mem (allDigits_natChars _) h5) (by decide)
            · rw [if_neg hz] at h4
              exact isDigitC_ne (allDigits_mem (allDigits_natChars _) h4) (by decide)
      | auto =>
        simp only [lineTokens, List.mem_singleton] at h2
        subst h2
        exact by decide
  rcases List.mem_append.mp h2 with h3 | h3
  · rcases op with _ | n
    · cases h3
    · simp only [posTokens, List.mem_singleton] at h3
      subst h3
      intro c hc
      rcases List.mem_append.mp hc with h4 | h4
      · have hgt : ∀ c ∈ ("position").toList, c ≠ '>' := by decide
        exact hgt c h4
      · rcases List.mem_cons.mp h4 with h5 | h5
        · subst h5
          decide
        · rcases List.mem_append.mp h5 with h6 | h6
          · exact isDigitC_ne (allDigits_mem (allDigits_natChars n) h6) (by decide)
          · simp only [List.mem_singleton] at h6
            subst h6
            decide
  rcases List.mem_append.mp h3 with h4 | h4
  · rcases os with _ | n
    · cases h4
    · simp only [sizeTokens, List.mem_singleton] at h4
      subst h4
      intro c hc
      rcases List.mem_append.mp hc with h5 | h5
      · have hgt : ∀ c ∈ ("size").toList, c ≠ '>' := by decide
        exact hgt c h5
      · rcases List.mem_cons.mp h5 with h6 | h6
        · subst h6
          decide
        · rcases List.mem_append.mp h6 with h7 | h7
          · exact isDigitC_ne (allDigits_mem (allDigits_natChars n) h7) (by decide)
          · simp only [List.mem_singleton] at h7
            subst h7
            decide
  · rcases oa with _ | a
    · cases h4
    · cases a <;>
        (simp only [alignTokens, List.mem_singleton] at h4; subst h4;
         exact by decide)

/-- Every character of a joined token list is the separator or a token
character. -/
theorem mem_joinSep_inv {sep : Char} {ps : List Str} {c : Char}
    (hc : c ∈ joinSep sep ps) : c = sep ∨ ∃ p ∈ ps, c ∈ p := by
  induction ps with
  | nil => cases hc
  | cons q qs ih =>
    match qs with
    | [] =>
      exact Or.inr ⟨q, List.mem_singleton.mpr rfl, hc⟩
    | q2 :: qs2 =>
      have e1 : joinSep sep (q :: q2 :: qs2) = q ++ sep :: joinSep sep (q2 :: qs2) := rfl
      rw [e1] at hc
      rcases List.mem_append.mp hc with h1 | h1
      · exact Or.inr ⟨q, List.mem_cons_self q _, h1⟩
      · rcases List.mem_cons.mp h1 with h2 | h2
        · exact Or.inl h2
        · rcases ih h2 with h3 | ⟨p, hp, hcp⟩
          · exact Or.inl h3
          · exact Or.inr ⟨p, List.mem_cons_of_mem q hp, hcp⟩

/-- The last character of a joined token list is the last character of
the last token. -/
theorem joinSep_getLast {sep : Char} {ps : List Str} {p : Str}
    (hp : ps.getLast? = some p) (hne : p ≠ []) :
    (joinSep sep ps).getLast? = p.getLast? := by
  induction ps with
  | nil => cases hp
  | cons q qs ih =>
    match qs with
    | [] =>
      simp only [List.getLast?_singleton] at hp
      cases hp
      rfl
    | q2 :: qs2 =>
      have e1 : joinSep sep (q :: q2 :: qs2) = q ++ sep :: joinSep sep (q2 :: qs2) := rfl
      rw [List.getLast?_cons_cons] at hp
      have hJ : joinSep sep (q2 :: qs2) ≠ [] := by
        intro h0
        have := ih hp
        rw [h0] at this
        cases hgl : p.getLast? with
        | none => exact hne (List.getLast?_eq_none_iff.mp hgl)
        | some c =>
          rw [hgl] at this
          cases this
      rw [e1, getLast?_append_ne _ (List.cons_ne_nil sep _),
        getLast?_cons_ne hJ]
      exact ih hp

/-! ## Lemmas: invariants of parsed settings -/

theorem parseUBounded_lt {bound : Nat} {t : Str} {n : Nat}
    (h : parseUBounded bound t = some n) : n < bound := by
  unfold parseUBounded at h
  split at h
  · split at h
    · cases h
      assumption
    · cases h
  · cases h

theorem parseU32_lt {s : Str} {n : Nat} (h : parseU32 s = some n) : n < 2 ^ 32 :=
  parseUBounded_lt h

theorem parseI32_range {s : Str} {z : Int} (h : parseI32 s = some z) :
    -(2 ^ 31) ≤ z ∧ z < 2 ^ 31 := by
  match s with
  | [] => cases h
  | c :: r =>
    have h0 : parseI32Core c r = some z := h
    unfold parseI32Core at h0
    split at h0
    · split at h0
      · split at h0
        · cases h0
          constructor <;> omega
        · cases h0
      · cases h0
    · have h1 : (if (if c = '+' then r else c :: r) ≠ [] ∧
          allDigits (if c = '+' then r else c :: r) = true then
            if parseDigits (if c = '+' then r else c :: r) < 2 ^ 31 then
              some ((parseDigits (if c = '+' then r else c :: r) : Int))
            else none
          else none) = some z := h0
      by_cases hc2 : c = '+'
      · rw [if_pos hc2] at h1
        split at h1
        · split at h1
          · cases h1
            constructor <;> omega
          · cases h1
        · cases h1
      · rw [if_neg hc2] at h1
        split at h1
        · split at h1
          · cases h1
            constructor <;> omega
          · cases h1
        · cases h1

theorem applyVertical_inv {acc acc2 : VttSettings} {value : Str}
    (h : applyVertical acc value = .ok acc2) :
    ∃ v, acc2 = { acc with vertical := some v } := by
  unfold applyVertical at h
  split at h
  · cases h
    exact ⟨_, rfl⟩
  · split at h
    · cases h
      exact ⟨_, rfl⟩
    · cases h

theorem applyLine_inv {acc acc2 : VttSettings} {value : Str}
    (h : applyLine acc value = .ok acc2) :
    ∃ l, acc2 = { acc with line := some l } ∧
      (∀ n, l = LineSetting.percentage n → n < 2 ^ 32) ∧
      (∀ z, l = LineSetting.number z → -(2 ^ 31) ≤ z ∧ z < 2 ^ 31) := by
  unfold applyLine at h
  split at h
  · cases h
    refine ⟨.auto, rfl, ?_, ?_⟩
    · intro n hn
      cases hn
    · intro z hz
      cases hz
  · cases hs : stripPct value with
    | some stripped =>
      rw [hs] at h
      have h0 : applyLinePct acc stripped = .ok acc2 := h
      unfold applyLinePct at h0
      cases hp : parseU32 stripped with
      | none =>
        rw [hp] at h0
        cases h0
      | some n =>
        rw [hp] at h0
        cases h0
        refine ⟨.percentage n, rfl, ?_, ?_⟩
        · intro m hm
          cases hm
          exact parseU32_lt hp
        · intro z hz
          cases hz
    | none =>
      rw [hs] at h
      have h0 : applyLineNum acc value = .ok acc2 := h
      unfold applyLineNum at h0
      cases hp : parseI32 value with
      | none =>
        rw [hp] at h0
        cases h0
      | some z =>
        rw [hp] at h0
        cases h0
        refine ⟨.number z, rfl, ?_, ?_⟩
        · intro n hn
          cases hn
        · intro w hw
          cases hw
          exact parseI32_range hp

theorem applyPosition_inv {acc acc2 : VttSettings} {value : Str}
    (h : applyPosition acc value = .ok acc2) :
    ∃ n, n < 2 ^ 32 ∧ acc2 = { acc with position := some n } := by
  unfold applyPosition at h
  cases hp : pctValue value with
  | none =>
    rw [hp] at h
    cases h
  | some n =>
    rw [hp] at h
    cases h
    refine ⟨n, ?_, rfl⟩
    unfold pctValue at hp
    cases hs : stripPct value with
    | none =>
      rw [hs] at hp
      cases hp
    | some stripped =>
      rw [hs] at hp
      exact parseU32_lt hp

theorem applySize_inv {acc acc2 : VttSettings} {value : Str}
    (h : applySize acc value = .ok acc2) :
    ∃ n, n < 2 ^ 32 ∧ acc2 = { acc with size := some n } := by
  unfold applySize at h
  cases hp : pctValue value with
  | none =>
    rw [hp] at h
    cases h
  | some n =>
    rw [hp] at h
    cases h
    refine ⟨n, ?_, rfl⟩
    unfold pctValue at hp
    cases hs : stripPct value with
    | none =>
      rw [hs] at hp
      cases hp
    | some stripped =>
      rw [hs] at hp
      exact parseU32_lt hp

theorem applyAlign_inv {acc acc2 : VttSettings} {value : Str}
    (h : applyAlign acc value = .ok acc2) :
    ∃ a, acc2 = { acc with align := some a } := by
  unfold applyAlign at h
  split at h
  · cases h
    exact ⟨_, rfl⟩
  · split at h
    · cases h
      exact ⟨_, rfl⟩
    · split at h
      · cases h
        exact ⟨_, rfl⟩
      · split at h
        · cases h
          exact ⟨_, rfl⟩
        · split at h
          · cases h
            exact ⟨_, rfl⟩
          · cases h

/-- Any successful token application sets one of the five fields, leaves
the others unchanged, and keeps the numeric fields in machine range. -/
theorem applyToken_inv {acc acc2 : VttSettings} {t : Str}
    (h : applyToken acc t = .ok acc2) :
    (∃ v, acc2 = { acc with vertical := some v }) ∨
    (∃ l, acc2 = { acc with line := some l } ∧
      (∀ n, l = LineSetting.percentage n → n < 2 ^ 32) ∧
      (∀ z, l = LineSetting.number z → -(2 ^ 31) ≤ z ∧ z < 2 ^ 31)) ∨
    (∃ n, n < 2 ^ 32 ∧ acc2 = { acc with position := some n }) ∨
    (∃ n, n < 2 ^ 32 ∧ acc2 = { acc with size := some n }) ∨
    (∃ a, acc2 = { acc with align := some a }) := by
  unfold applyToken at h
  cases hsp : splitFirst ':' t with
  | none =>
    rw [hsp] at h
    cases h
  | some kv =>
    obtain ⟨k, v⟩ := kv
    rw [hsp] at h
    have h0 : applyKV acc k v = .ok acc2 := h
    unfold applyKV at h0
    split at h0
    · exact Or.inl (applyVertical_inv h0)
    · split at h0
      · exact Or.inr (Or.inl (applyLine_inv h0))
      · split at h0
        · exact Or.inr (Or.inr (Or.inl (applyPosition_inv h0)))
        · split at h0
          · exact Or.inr (Or.inr (Or.inr (Or.inl (applySize_inv h0))))
          · split at h0
            · exact Or.inr (Or.inr (Or.inr (Or.inr (applyAlign_inv h0))))
            · cases h0

theorem applyToken_bounds {acc acc2 : VttSettings} {t : Str}
    (hb : SettingsBounds acc) (h : applyToken acc t = .ok acc2) :
    SettingsBounds acc2 := by
  obtain ⟨hb1, hb2, hb3, hb4⟩ := hb
  rcases applyToken_inv h with ⟨v, rfl⟩ | ⟨l, rfl, hl1, hl2⟩ | ⟨n, hn, rfl⟩ |
    ⟨n, hn, rfl⟩ | ⟨a, rfl⟩
  · exact ⟨hb1, hb2, hb3, hb4⟩
  · refine ⟨?_, ?_, hb3, hb4⟩
    · intro n hn
      exact hl1 n (Option.some_inj.mp hn)
    · intro z hz
      exact hl2 z (Option.some_inj.mp hz)
  · refine ⟨hb1, hb2, ?_, hb4⟩
    intro m hm
    cases Option.some_inj.mp hm
    exact hn
  · refine ⟨hb1, hb2, hb3, ?_⟩
    intro m hm
    cases Option.some_inj.mp hm
    exact hn
  · exact ⟨hb1, hb2, hb3, hb4⟩

theorem applyToken_hasSome {acc acc2 : VttSettings} {t : Str}
    (h : applyToken acc t = .ok acc2) : HasSome acc2 := by
  rcases applyToken_inv h with ⟨v, rfl⟩ | ⟨l, rfl, h1, h2⟩ | ⟨n, hn, rfl⟩ |
    ⟨n, hn, rfl⟩ | ⟨a, rfl⟩
  · exact Or.inl rfl
  · exact Or.inr (Or.inl rfl)
  · exact Or.inr (Or.inr (Or.inl rfl))
  · exact Or.inr (Or.inr (Or.inr (Or.inl rfl)))
  · exact Or.inr (Or.inr (Or.inr (Or.inr rfl)))

theorem settingsLoop_bounds {toks : List Str} {acc st : VttSettings}
    (hb : SettingsBounds acc) (h : settingsLoop acc toks = .ok st) :
    SettingsBounds st := by
  induction toks generalizing acc with
  | nil =>
    cases h
    exact hb
  | cons t ts ih =>
    have h0 : (match applyToken acc t with
      | .error e => .error e
      | .ok s2 => settingsLoop s2 ts) = Except.ok st := h
    cases ha : applyToken acc t with
    | error e =>
      rw [ha] at h0
      cases h0
    | ok acc2 =>
      rw [ha] at h0
      exact ih (applyToken_bounds hb ha) h0

theorem settingsLoop_hasSome {toks : List Str} (hne : toks ≠ [])
    {acc st : VttSettings} (h : settingsLoop acc toks = .ok st) : HasSome st := by
  induction toks generalizing acc with
  | nil => exact absurd rfl hne
  | cons t ts ih =>
    have h0 : (match applyToken acc t with
      | .error e => .error e
      | .ok s2 => settingsLoop s2 ts) = Except.ok st := h
    cases ha : applyToken acc t with
    | error e =>
      rw [ha] at h0
      cases h0
    | ok acc2 =>
      rw [ha] at h0
      cases ts with
      | nil =>
        cases h0
        exact applyToken_hasSome ha
      | cons t2 ts2 =>
        exact ih (List.cons_ne_nil t2 ts2) h0

theorem defaultSettings_bounds : SettingsBounds defaultSettings := by
  refine ⟨?_, ?_, ?_, ?_⟩ <;> (intro x hx; cases hx)

/-- A successful `parse_settings` run over at least one token produces a
record with bounded numeric fields and at least one field set. -/
theorem parseSettings_inv {s : Str} {st : VttSettings}
    (hne : splitWS s ≠ []) (h : parseSettings s = .ok st) :
    SettingsBounds st ∧ HasSome st := by
  have h0 : settingsLoop defaultSettings (splitWS s) = .ok st := h
  exact ⟨settingsLoop_bounds defaultSettings_bounds h0, settingsLoop_hasSome hne h0⟩

theorem settingsTokens_ne_nil {st : VttSettings} (h : HasSome st) :
    settingsTokens st ≠ [] := by
  obtain ⟨ov, ol, op, os, oa⟩ := st
  intro h0
  simp only [settingsTokens, List.append_eq_nil] at h0
  obtain ⟨e1, e2, e3, e4, e5⟩ := h0
  rcases h with h | h | h | h | h
  · cases ov with
    | none => simp at h
    | some v => cases v <;> cases e1
  · cases ol with
    | none => simp at h
    | some l => cases l <;> cases e2
  · cases op with
    | none => simp at h
    | some n => cases e3
  · cases os with
    | none => simp at h
    | some n => cases e4
  · cases oa with
    | none => simp at h
    | some a => cases a <;> cases e5

theorem formatSettings_ne_nil {st : VttSettings} (h : HasSome st) :
    formatSettings st ≠ [] := by
  unfold formatSettings
  cases hts : settingsTokens st with
  | nil => exact absurd hts (settingsTokens_ne_nil h)
  | cons t ts =>
    have hne : t ≠ [] :=
      (settingsTokens_props st t (hts ▸ List.mem_cons_self t ts)).1
    cases ts with
    | nil => simpa [joinSep] using hne
    | cons t2 ts2 =>
      have e1 : joinSep ' ' (t :: t2 :: ts2) = t ++ ' ' :: joinSep ' ' (t2 :: ts2) := rfl
      rw [e1]
      intro h0
      cases (List.append_eq_nil.mp h0).2

theorem formatSettings_last {st : VttSettings} {c : Char}
    (h : (formatSettings st).getLast? = some c) : isWS c = false := by
  unfold formatSettings at h
  cases hgl : (settingsTokens st).getLast? with
  | none =>
    rw [List.getLast?_eq_none_iff.mp hgl] at h
    cases h
  | some p =>
    have hpmem : p ∈ settingsTokens st := List.mem_of_mem_getLast? hgl
    have hprops := settingsTokens_props st p hpmem
    rw [joinSep_getLast hgl hprops.1] at h
    exact hprops.2 c (getLast?_mem h)

theorem formatSettings_chars {st : VttSettings} {c : Char}
    (hc : c ∈ formatSettings st) : (isWS c = false ∨ c = ' ') ∧ c ≠ '>' := by
  unfold formatSettings at hc
  rcases mem_joinSep_inv hc with h | ⟨p, hp, hcp⟩
  · subst h
    exact ⟨Or.inr rfl, by decide⟩
  · exact ⟨Or.inl ((settingsTokens_props st p hp).2 c hcp),
      settingsTokens_no_gt st p hp c hcp⟩

theorem formatSettings_no_nl {st : VttSettings} : '\n' ∉ formatSettings st := by
  intro hm
  rcases (formatSettings_chars hm).1 with h | h
  · exact absurd h (by decide)
  · exact absurd h (by decide)

/-! ## Lemmas: invariants of parsed cues -/

theorem tsFromHMS_lt {a b c : Str} {v : Nat} (h : tsFromHMS a b c = .ok v) :
    v < 2 ^ 64 := by
  unfold tsFromHMS at h
  split at h
  · cases h
  · split at h
    · cases h
    · split at h
      · cases h
      · cases h
        exact Nat.mod_lt _ (by norm_num)

theorem tsFromMS_lt {a b : Str} {v : Nat} (h : tsFromMS a b = .ok v) :
    v < 2 ^ 64 := by
  unfold tsFromMS at h
  split at h
  · cases h
  · split at h
    · cases h
    · cases h
      exact Nat.mod_lt _ (by norm_num)

/-- Every value a timestamp parse can produce fits in `u64` (the source
computes it with wrapping `u64` arithmetic). -/
theorem parseTimestamp_lt {s : Str} {v : Nat} (h : parseTimestamp s = .ok v) :
    v < 2 ^ 64 := by
  unfold parseTimestamp at h
  split at h
  · cases h
  · cases h
  · exact tsFromMS_lt h
  · exact tsFromHMS_lt h

theorem parseOptSettings_some {settingsStr : Str} {st : VttSettings}
    (h : parseOptSettings settingsStr = .ok (some st)) :
    settingsStr ≠ [] ∧ parseSettings settingsStr = .ok st := by
  unfold parseOptSettings at h
  by_cases hne : settingsStr ≠ []
  · rw [if_pos hne] at h
    cases hp : parseSettings settingsStr with
    | error e =>
      rw [hp] at h
      cases h
    | ok st2 =>
      rw [hp] at h
      injection h with h2
      injection h2 with h3
      refine ⟨hne, ?_⟩
      rw [← h3]
  · rw [if_neg hne] at h
    injection h with h2
    cases h2

theorem cueAfterEnd_inv2 {identifier : Option Str} {start end_ : Nat}
    {settingToks rest : List Str} {c : VttCue}
    (hstart : start < 2 ^ 64) (hend : end_ < 2 ^ 64)
    (hts : ∀ st, parseOptSettings (joinSep ' ' settingToks) = .ok (some st) →
      SettingsBounds st ∧ HasSome st)
    (h : cueAfterEnd identifier start end_ settingToks rest = .ok c) :
    c.start < 2 ^ 64 ∧ c.end_ < 2 ^ 64 ∧
    (∀ st, c.settings = some st → SettingsBounds st ∧ HasSome st) := by
  unfold cueAfterEnd at h
  match h1 : parseOptSettings (joinSep ' ' settingToks) with
  | .error e =>
    rw [h1] at h
    cases h
  | .ok st0 =>
    rw [h1] at h
    have h2 : Except.ok (⟨identifier, start, end_, st0, joinSep '\n' rest⟩ : VttCue) =
        Except.ok c := h
    injection h2 with h3
    subst h3
    refine ⟨hstart, hend, ?_⟩
    intro st hst
    have hst2 : st0 = some st := hst
    exact hts st (hst2 ▸ h1)

theorem cueAfterEndTok_inv2 {identifier : Option Str} {start : Nat} {endTok : Str}
    {settingToks rest : List Str} {c : VttCue} (hstart : start < 2 ^ 64)
    (hts : ∀ st, parseOptSettings (joinSep ' ' settingToks) = .ok (some st) →
      SettingsBounds st ∧ HasSome st)
    (h : cueAfterEndTok identifier start endTok settingToks rest = .ok c) :
    c.start < 2 ^ 64 ∧ c.end_ < 2 ^ 64 ∧
    (∀ st, c.settings = some st → SettingsBounds st ∧ HasSome st) := by
  unfold cueAfterEndTok at h
  match h1 : parseTimestamp endTok with
  | .error e =>
    rw [h1] at h
    cases h
  | .ok end_ =>
    rw [h1] at h
    exact cueAfterEnd_inv2 hstart (parseTimestamp_lt h1) hts h

theorem cueAfterStart_inv2 {identifier : Option Str} {start : Nat} {b : Str}
    {rest : List Str} {c : VttCue} (hstart : start < 2 ^ 64)
    (h : cueAfterStart identifier start b rest = .ok c) :
    c.start < 2 ^ 64 ∧ c.end_ < 2 ^ 64 ∧
    (∀ st, c.settings = some st → SettingsBounds st ∧ HasSome st) := by
  unfold cueAfterStart at h
  match h1 : splitWS (trimL b) with
  | [] =>
    rw [h1] at h
    cases h
  | endTok :: settingToks =>
    rw [h1] at h
    have hprops : ∀ t ∈ settingToks, t ≠ [] ∧ ∀ ch ∈ t, isWS ch = false := by
      intro t ht
      exact splitWS_props t (h1 ▸ List.mem_cons_of_mem endTok ht)
    refine cueAfterEndTok_inv2 hstart ?_ h
    intro st hst
    obtain ⟨hne, hps⟩ := parseOptSettings_some hst
    have htoksne : settingToks ≠ [] := by
      intro h0
      subst h0
      exact hne rfl
    have hsw : splitWS (joinSep ' ' settingToks) = settingToks := splitWS_join hprops
    exact parseSettings_inv (by rw [hsw]; exact htoksne) hps

theorem cueCore2_inv2 {identifier : Option Str} {a b : Str} {rest : List Str}
    {c : VttCue} (h : cueCore2 identifier a b rest = .ok c) :
    c.start < 2 ^ 64 ∧ c.end_ < 2 ^ 64 ∧
    (∀ st, c.settings = some st → SettingsBounds st ∧ HasSome st) := by
  unfold cueCore2 at h
  match h1 : parseTimestamp (trimL a) with
  | .error e =>
    rw [h1] at h
    cases h
  | .ok start =>
    rw [h1] at h
    exact cueAfterStart_inv2 (parseTimestamp_lt h1) h

theorem cueCore_good {identifier : Option Str} {timing : Str} {rest : List Str}
    {c : VttCue} (hnb : ∀ l ∈ rest, trimL l ≠ []) (hnl : ∀ l ∈ rest, '\n' ∉ l)
    (h : cueCore identifier timing rest = .ok c) :
    c.start < 2 ^ 64 ∧ c.end_ < 2 ^ 64 ∧
    (∀ st, c.settings = some st → SettingsBounds st ∧ HasSome st) ∧
    (trimL c.payload = [] ∨ ∀ q ∈ splitOnC '\n' (trimL c.payload), trimL q ≠ []) := by
  obtain ⟨h1, h2, h3⟩ : c.start < 2 ^ 64 ∧ c.end_ < 2 ^ 64 ∧
      (∀ st, c.settings = some st → SettingsBounds st ∧ HasSome st) := by
    unfold cueCore at h
    match h4 : splitArrow timing with
    | [] =>
      rw [h4] at h
      cases h
    | [a] =>
      rw [h4] at h
      cases h
    | [a, b] =>
      rw [h4] at h
      exact cueCore2_inv2 h
    | a :: b :: d :: r =>
      rw [h4] at h
      cases h
  refine ⟨h1, h2, h3, ?_⟩
  rw [(cueCore_ok h).2]
  cases rest with
  | nil => exact Or.inl rfl
  | cons r rs =>
    exact Or.inr (trimL_joinSep_forall (List.cons_ne_nil r rs) hnb hnl)

theorem mapExceptLast_mem {f : Str → Str} {ls : List Str} {x : Str}
    (hx : x ∈ mapExceptLast f ls) : (∃ l ∈ ls, x = f l) ∨ x ∈ ls := by
  induction ls with
  | nil => cases hx
  | cons l rest ih =>
    cases rest with
    | nil =>
      have hx2 : x ∈ [l] := hx
      exact Or.inr hx2
    | cons l2 rest2 =>
      have e1 : mapExceptLast f (l :: l2 :: rest2) = f l :: mapExceptLast f (l2 :: rest2) := rfl
      rw [e1] at hx
      rcases List.mem_cons.mp hx with h1 | h1
      · exact Or.inl ⟨l, List.mem_cons_self l _, h1⟩
      · rcases ih h1 with ⟨l3, hl3, he⟩ | h2
        · exact Or.inl ⟨l3, List.mem_cons_of_mem l hl3, he⟩
        · exact Or.inr (List.mem_cons_of_mem l h2)

theorem mapExceptLast_ne_nil {f : Str → Str} {ls : List Str} (h : ls ≠ []) :
    mapExceptLast f ls ≠ [] := by
  cases ls with
  | nil => exact absurd rfl h
  | cons l rest =>
    cases rest with
    | nil => exact List.cons_ne_nil l []
    | cons l2 rest2 => exact List.cons_ne_nil (f l) _

/-- The parser invariant for one cue: `VttCue::from_str` on a join of
non-blank newline-free lines produces a `GoodCue`. -/
theorem cue_good {gls : List Str} {c : VttCue}
    (hnb : ∀ l ∈ gls, trimL l ≠ []) (hnl : ∀ l ∈ gls, '\n' ∉ l)
    (h : VttCue.fromStr (joinSep '\n' gls) = .ok c) : GoodCue c := by
  cases gls with
  | nil => cases h
  | cons g grest =>
    have hlast : ∀ l ∈ g :: grest, l ≠ [] := by
      intro l hl h0
      exact hnb l hl (by rw [h0]; rfl)
    have hlr := linesR_joinSep (List.cons_ne_nil g grest) hnl hlast
    have hclsP : ∀ l ∈ mapExceptLast stripCR (g :: grest), trimL l ≠ [] ∧ '\n' ∉ l := by
      intro l hl
      rcases mapExceptLast_mem hl with ⟨l0, hl0, rfl⟩ | hmem
      · exact ⟨trimL_stripCR_ne_nil (hnb l0 hl0),
          fun hm => hnl l0 hl0 (mem_stripCR hm)⟩
      · exact ⟨hnb l hmem, hnl l hmem⟩
    have h0 : VttCue.fromStr (joinSep '\n' (g :: grest)) = .ok c := h
    unfold VttCue.fromStr at h0
    rw [hlr] at h0
    cases hc : mapExceptLast stripCR (g :: grest) with
    | nil => exact absurd hc (mapExceptLast_ne_nil (List.cons_ne_nil g grest))
    | cons first rest0 =>
      rw [hc] at h0 hclsP
      have hfirst := hclsP first (List.mem_cons_self first rest0)
      have hrest0 : ∀ l ∈ rest0, trimL l ≠ [] ∧ '\n' ∉ l := by
        intro l hl
        exact hclsP l (List.mem_cons_of_mem first hl)
      cases rest0 with
      | nil =>
        have h2 : (if containsArrow first = true then cueCore none first []
            else Except.error VttParseError.invalidFormat) = Except.ok c := h0
        by_cases harr : containsArrow first = true
        · rw [if_pos harr] at h2
          obtain ⟨hid, hpay⟩ := cueCore_ok h2
          obtain ⟨hs1, hs2, hs3, hs4⟩ := cueCore_good
            (fun l hl => absurd hl (List.not_mem_nil l))
            (fun l hl => absurd hl (List.not_mem_nil l)) h2
          refine ⟨?_, hs1, hs2, hs3, hs4⟩
          intro id hid2
          rw [hid] at hid2
          cases hid2
        · rw [if_neg harr] at h2
          cases h2
      | cons timing rest1 =>
        have h2 : (if containsArrow first = true then cueCore none first (timing :: rest1)
            else cueCore (some first) timing rest1) = Except.ok c := h0
        have hrest1 : ∀ l ∈ rest1, trimL l ≠ [] ∧ '\n' ∉ l := by
          intro l hl
          exact hrest0 l (List.mem_cons_of_mem timing hl)
        by_cases harr : containsArrow first = true
        · rw [if_pos harr] at h2
          obtain ⟨hid, hpay⟩ := cueCore_ok h2
          obtain ⟨hs1, hs2, hs3, hs4⟩ := cueCore_good
            (fun l hl => (hrest0 l hl).1) (fun l hl => (hrest0 l hl).2) h2
          refine ⟨?_, hs1, hs2, hs3, hs4⟩
          intro id hid2
          rw [hid] at hid2
          cases hid2
        · rw [if_neg harr] at h2
          obtain ⟨hid, hpay⟩ := cueCore_ok h2
          obtain ⟨hs1, hs2, hs3, hs4⟩ := cueCore_good
            (fun l hl => (hrest1 l hl).1) (fun l hl => (hrest1 l hl).2) h2
          refine ⟨?_, hs1, hs2, hs3, hs4⟩
          intro id hid2
          rw [hid] at hid2
          cases hid2
          exact ⟨Bool.eq_false_iff.mpr harr, hfirst.1, hfirst.2⟩

/-! ## Lemmas: the metadata map -/

theorem metaInsert_forall {P : Str × Str → Prop} {acc : List (Str × Str)} {k v : Str}
    (hacc : ∀ kv ∈ acc, P kv) (hkv : P (k, v)) :
    ∀ kv ∈ metaInsert k v acc, P kv := by
  induction acc with
  | nil =>
    intro kv hkv2
    have hkv3 : kv ∈ [(k, v)] := hkv2
    rw [List.mem_singleton] at hkv3
    subst hkv3
    exact hkv
  | cons p rest ih =>
    obtain ⟨k2, v2⟩ := p
    intro kv hkv2
    unfold metaInsert at hkv2
    by_cases he : k2 = k
    · rw [if_pos he] at hkv2
      rcases List.mem_cons.mp hkv2 with rfl | hm
      · exact hkv
      · exact hacc _ (List.mem_cons_of_mem _ hm)
    · rw [if_neg he] at hkv2
      rcases List.mem_cons.mp hkv2 with rfl | hm
      · exact hacc _ (List.mem_cons_self _ _)
      · exact ih (fun x h => hacc x (List.mem_cons_of_mem _ h)) kv hm

theorem metaInsert_keys {acc : List (Str × Str)} {k v : Str} {kv : Str × Str}
    (h : kv ∈ metaInsert k v acc) : kv.1 = k ∨ kv ∈ acc := by
  induction acc with
  | nil =>
    have h2 : kv ∈ [(k, v)] := h
    rw [List.mem_singleton] at h2
    subst h2
    exact Or.inl rfl
  | cons p rest ih =>
    obtain ⟨k2, v2⟩ := p
    unfold metaInsert at h
    by_cases he : k2 = k
    · rw [if_pos he] at h
      rcases List.mem_cons.mp h with rfl | hm
      · exact Or.inl rfl
      · exact Or.inr (List.mem_cons_of_mem _ hm)
    · rw [if_neg he] at h
      rcases List.mem_cons.mp h with rfl | hm
      · exact Or.inr (List.mem_cons_self _ _)
      · rcases ih hm with h1 | h1
        · exact Or.inl h1
        · exact Or.inr (List.mem_cons_of_mem _ h1)

theorem metaInsert_pairwise {acc : List (Str × Str)} {k v : Str}
    (h : acc.Pairwise (fun a b => a.1 ≠ b.1)) :
    (metaInsert k v acc).Pairwise (fun a b => a.1 ≠ b.1) := by
  induction acc with
  | nil => simp [metaInsert]
  | cons p rest ih =>
    obtain ⟨k2, v2⟩ := p
    rw [List.pairwise_cons] at h
    obtain ⟨h1, h2⟩ := h
    unfold metaInsert
    by_cases he : k2 = k
    · rw [if_pos he]
      rw [List.pairwise_cons]
      refine ⟨?_, h2⟩
      intro b hb
      subst he
      exact h1 b hb
    · rw [if_neg he]
      rw [List.pairwise_cons]
      refine ⟨?_, ih h2⟩
      intro b hb
      rcases metaInsert_keys hb with hk | hm
      · rw [hk]
        exact he
      · exact h1 b hm

theorem metaInsert_append {acc : List (Str × Str)} {k v : Str}
    (h : ∀ kv ∈ acc, kv.1 ≠ k) : metaInsert k v acc = acc ++ [(k, v)] := by
  induction acc with
  | nil => rfl
  | cons p rest ih =>
    obtain ⟨k2, v2⟩ := p
    unfold metaInsert
    rw [if_neg (h (k2, v2) (List.mem_cons_self _ _)),
      ih (fun kv hkv => h kv (List.mem_cons_of_mem _ hkv))]
    rfl

/-- The metadata loop of `WebVtt::from_str` establishes `MetaOK` and only
ever returns a suffix of its input as the remaining lines. -/
theorem parseMeta_inv {ls : List Str} {acc meta : List (Str × Str)} {rem : List Str}
    (hls : ∀ l ∈ ls, '\n' ∉ l)
    (hacc : ∀ kv ∈ acc, trimL kv.1 = kv.1 ∧ trimL kv.2 = kv.2 ∧
      ':' ∉ kv.1 ∧ '\n' ∉ kv.1 ∧ '\n' ∉ kv.2)
    (hpw : acc.Pairwise (fun a b => a.1 ≠ b.1))
    (h : parseMeta acc ls = .ok (meta, rem)) :
    MetaOK meta ∧ ∀ l ∈ rem, l ∈ ls := by
  induction ls generalizing acc with
  | nil =>
    injection h with h2
    injection h2 with h3 h4
    subst h3
    subst h4
    exact ⟨⟨hacc, hpw⟩, fun l hl => absurd hl (List.not_mem_nil l)⟩
  | cons l ls2 ih =>
    have h0 : (if trimL l = [] then Except.ok (acc, ls2)
        else match splitFirst ':' (trimL l) with
          | some (k, v) => parseMeta (metaInsert (trimL k) (trimL v) acc) ls2
          | none => Except.error (.invalidMetadataLine (trimL l))) =
        Except.ok (meta, rem) := h
    by_cases hb : trimL l = []
    · rw [if_pos hb] at h0
      injection h0 with h2
      injection h2 with h3 h4
      subst h3
      subst h4
      exact ⟨⟨hacc, hpw⟩, fun x hx => List.mem_cons_of_mem l hx⟩
    · rw [if_neg hb] at h0
      cases hsp : splitFirst ':' (trimL l) with
      | none =>
        rw [hsp] at h0
        cases h0
      | some kv =>
        obtain ⟨k, v⟩ := kv
        rw [hsp] at h0
        obtain ⟨hnk, heq⟩ := splitFirst_some hsp
        have hksub : ∀ c ∈ k, c ∈ l := by
          intro c hc
          apply mem_trimL
          rw [heq]
          exact List.mem_append.mpr (Or.inl hc)
        have hvsub : ∀ c ∈ v, c ∈ l := by
          intro c hc
          apply mem_trimL
          rw [heq]
          exact List.mem_append.mpr (Or.inr (List.mem_cons_of_mem ':' hc))
        have hP : trimL (trimL k) = trimL k ∧ trimL (trimL v) = trimL v ∧
            ':' ∉ trimL k ∧ '\n' ∉ trimL k ∧ '\n' ∉ trimL v :=
          ⟨trimL_idem k, trimL_idem v,
           fun hm => hnk (mem_trimL hm),
           fun hm => hls l (List.mem_cons_self l ls2) (hksub _ (mem_trimL hm)),
           fun hm => hls l (List.mem_cons_self l ls2) (hvsub _ (mem_trimL hm))⟩
        have hrec := ih (fun x hx => hls x (List.mem_cons_of_mem l hx))
          (metaInsert_forall hacc hP) (metaInsert_pairwise hpw) h0
        exact ⟨hrec.1, fun x hx => List.mem_cons_of_mem l (hrec.2 x hx)⟩

theorem parseMeta_blank (acc : List (Str × Str)) (ls : List Str) :
    parseMeta acc ([] :: ls) = .ok (acc, ls) := rfl

theorem parseMeta_cons_kv {l k2 v2 : Str} (acc : List (Str × Str)) (ls : List Str)
    (hnb : trimL l ≠ []) (hsp : splitFirst ':' (trimL l) = some (k2, v2)) :
    parseMeta acc (l :: ls) = parseMeta (metaInsert (trimL k2) (trimL v2) acc) ls := by
  have h0 : parseMeta acc (l :: ls) =
      (if trimL l = [] then Except.ok (acc, ls)
       else match splitFirst ':' (trimL l) with
         | some (k, v) => parseMeta (metaInsert (trimL k) (trimL v) acc) ls
         | none => Except.error (.invalidMetadataLine (trimL l))) := rfl
  rw [h0, if_neg hnb, hsp]

/-- Reparsing one formatted `key: value` line inserts exactly the pair it
was formatted from. -/
theorem parseMeta_metaLine {k v : Str} (hk : trimL k = k) (hv : trimL v = v)
    (hnc : ':' ∉ k) (acc : List (Str × Str)) (ls : List Str) :
    parseMeta acc (metaLine (k, v) :: ls) = parseMeta (metaInsert k v acc) ls := by
  have hhead : ∀ x : Str, ∀ c, ((k ++ ':' :: x)).head? = some c → isWS c = false := by
    intro x c hc
    cases k with
    | nil =>
      have hc2 : some ':' = some c := hc
      injection hc2 with hc3
      rw [← hc3]
      rfl
    | cons a as =>
      rw [head?_append_ne _ (List.cons_ne_nil a as)] at hc
      exact trimL_head (by rw [hk]; exact hc)
  by_cases hvn : v = []
  · subst hvn
    have e0 : metaLine (k, []) = (k ++ [':']) ++ [' '] := by
      simp [metaLine]
    have e1 : trimL (metaLine (k, [])) = k ++ [':'] := by
      rw [e0, trimL_append_ws (show isWS ' ' = true from rfl)]
      refine trimL_eq_self (hhead []) ?_
      intro c hc
      rw [getLast?_append_ne k (List.cons_ne_nil ':' [])] at hc
      have hc2 : some ':' = some c := hc
      injection hc2 with hc3
      rw [← hc3]
      rfl
    have hsp : splitFirst ':' (trimL (metaLine (k, []))) = some (k, []) := by
      rw [e1]
      exact splitFirst_append [] hnc
    rw [parseMeta_cons_kv acc ls
      (by rw [e1]; intro hx; cases (List.append_eq_nil.mp hx).2) hsp, hk]
    rfl
  · have e1 : trimL (metaLine (k, v)) = k ++ ':' :: ' ' :: v := by
      refine trimL_eq_self (hhead (' ' :: v)) ?_
      intro c hc
      have hc2 : (k ++ ':' :: ' ' :: v).getLast? = some c := hc
      rw [getLast?_append_ne k (List.cons_ne_nil ':' _), List.getLast?_cons_cons,
        getLast?_cons_ne hvn] at hc2
      exact trimL_last (by rw [hv]; exact hc2)
    have hsp : splitFirst ':' (trimL (metaLine (k, v))) = some (k, ' ' :: v) := by
      rw [e1]
      exact splitFirst_append (' ' :: v) hnc
    rw [parseMeta_cons_kv acc ls
      (by rw [e1]; intro hx; cases (List.append_eq_nil.mp hx).2) hsp,
      hk, trimL_cons_ws (show isWS ' ' = true from rfl), hv]

/-- Reparsing the formatted metadata block rebuilds the map exactly. -/
theorem parseMeta_run {meta : List (Str × Str)} {acc : List (Str × Str)} (tail : List Str)
    (hm : ∀ kv ∈ meta, trimL kv.1 = kv.1 ∧ trimL kv.2 = kv.2 ∧
      ':' ∉ kv.1 ∧ '\n' ∉ kv.1 ∧ '\n' ∉ kv.2)
    (hpw : meta.Pairwise (fun a b => a.1 ≠ b.1))
    (hdisj : ∀ kv ∈ meta, ∀ kv2 ∈ acc, kv2.1 ≠ kv.1) :
    parseMeta acc (meta.map metaLine ++ tail) = parseMeta (acc ++ meta) tail := by
  induction meta generalizing acc with
  | nil => simp
  | cons kv rest ih =>
    obtain ⟨k, v⟩ := kv
    obtain ⟨hk, hv, hnc, hnl1, hnl2⟩ := hm (k, v) (List.mem_cons_self _ _)
    rw [List.map_cons, List.cons_append,
      parseMeta_metaLine hk hv hnc acc (rest.map metaLine ++ tail),
      metaInsert_append (fun kv2 hkv2 => hdisj (k, v) (List.mem_cons_self _ _) kv2 hkv2)]
    rw [List.pairwise_cons] at hpw
    have hdisj2 : ∀ kv2 ∈ rest, ∀ kv3 ∈ acc ++ [(k, v)], kv3.1 ≠ kv2.1 := by
      intro kv2 hkv2 kv3 hkv3
      rcases List.mem_append.mp hkv3 with h1 | h1
      · exact hdisj kv2 (List.mem_cons_of_mem _ hkv2) kv3 h1
      · have h2 : kv3 ∈ [(k, v)] := h1
        rw [List.mem_singleton] at h2
        subst h2
        exact hpw.1 kv2 hkv2
    rw [ih (fun x hx => hm x (List.mem_cons_of_mem _ hx)) hpw.2 hdisj2]
    simp

/-! ## Lemmas: the cue grouping loop -/

/-- The parser invariant at the document level for cues: every cue a
successful `parseCues` run produces is a `GoodCue`. -/
theorem parseCues_inv {ls : List Str} {g : List Str} {cues : List VttCue}
    (hls : ∀ l ∈ ls, '\n' ∉ l)
    (hg : ∀ l ∈ g, trimL l ≠ [] ∧ '\n' ∉ l)
    (h : parseCues g ls = .ok cues) :
    ∀ c ∈ cues, GoodCue c := by
  induction ls generalizing g cues with
  | nil =>
    have h0 : (if g = [] then Except.ok ([] : List VttCue)
        else match VttCue.fromStr (joinSep '\n' g.reverse) with
          | .error e => Except.error e
          | .ok c => Except.ok [c]) = Except.ok cues := h
    by_cases hge : g = []
    · rw [if_pos hge] at h0
      injection h0 with h2
      subst h2
      intro c hc
      cases hc
    · rw [if_neg hge] at h0
      cases hf : VttCue.fromStr (joinSep '\n' g.reverse) with
      | error e =>
        rw [hf] at h0
        cases h0
      | ok c =>
        rw [hf] at h0
        injection h0 with h2
        subst h2
        intro c2 hc2
        rw [List.mem_singleton] at hc2
        subst hc2
        exact cue_good (fun x hx => (hg x (List.mem_reverse.mp hx)).1)
          (fun x hx => (hg x (List.mem_reverse.mp hx)).2) hf
  | cons l ls2 ih =>
    have h0 : (if trimL l = [] then
        (if g = [] then parseCues [] ls2
         else match VttCue.fromStr (joinSep '\n' g.reverse) with
           | .error e => Except.error e
           | .ok c =>
             match parseCues [] ls2 with
             | .error e => Except.error e
             | .ok cs => Except.ok (c :: cs))
        else parseCues (l :: g) ls2) = Except.ok cues := h
    by_cases hb : trimL l = []
    · rw [if_pos hb] at h0
      by_cases hge : g = []
      · rw [if_pos hge] at h0
        exact ih (fun x hx => hls x (List.mem_cons_of_mem l hx))
          (fun x hx => absurd hx (List.not_mem_nil x)) h0
      · rw [if_neg hge] at h0
        cases hf : VttCue.fromStr (joinSep '\n' g.reverse) with
        | error e =>
          rw [hf] at h0
          cases h0
        | ok c =>
          rw [hf] at h0
          cases hp : parseCues [] ls2 with
          | error e =>
            rw [hp] at h0
            cases h0
          | ok cs =>
            rw [hp] at h0
            injection h0 with h2
            subst h2
            intro c2 hc2
            rcases List.mem_cons.mp hc2 with rfl | hm
            · exact cue_good (fun x hx => (hg x (List.mem_reverse.mp hx)).1)
                (fun x hx => (hg x (List.mem_reverse.mp hx)).2) hf
            · exact ih (fun x hx => hls x (List.mem_cons_of_mem l hx))
                (fun x hx => absurd hx (List.not_mem_nil x)) hp c2 hm
    · rw [if_neg hb] at h0
      refine ih (fun x hx => hls x (List.mem_cons_of_mem l hx)) ?_ h0
      intro x hx
      rcases List.mem_cons.mp hx with rfl | hm
      · exact ⟨hb, hls x (List.mem_cons_self x ls2)⟩
      · exact hg x hm

theorem parseCues_cons_tok {l : Str} (hl : trimL l ≠ []) (g rest2 : List Str) :
    parseCues g (l :: rest2) = parseCues (l :: g) rest2 := by
  have h0 : parseCues g (l :: rest2) =
      (if trimL l = [] then
        (if g = [] then parseCues [] rest2
         else match VttCue.fromStr (joinSep '\n' g.reverse) with
           | .error e => Except.error e
           | .ok c =>
             match parseCues [] rest2 with
             | .error e => Except.error e
             | .ok cs => Except.ok (c :: cs))
      else parseCues (l :: g) rest2) := rfl
  rw [h0, if_neg hl]

theorem parseCues_blank_flush {g : List Str} (hg : g ≠ []) (rest2 : List Str) :
    parseCues g ([] :: rest2) =
      (match VttCue.fromStr (joinSep '\n' g.reverse) with
       | .error e => Except.error e
       | .ok c =>
         match parseCues [] rest2 with
         | .error e => Except.error e
         | .ok cs => Except.ok (c :: cs)) := by
  have h0 : parseCues g ([] :: rest2) =
      (if trimL ([] : Str) = [] then
        (if g = [] then parseCues [] rest2
         else match VttCue.fromStr (joinSep '\n' g.reverse) with
           | .error e => Except.error e
           | .ok c =>
             match parseCues [] rest2 with
             | .error e => Except.error e
             | .ok cs => Except.ok (c :: cs))
      else parseCues ([] :: g) rest2) := rfl
  rw [h0, if_pos (show trimL ([] : Str) = [] from rfl), if_neg hg]

theorem parseCues_blank_skip (rest2 : List Str) :
    parseCues [] ([] :: rest2) = parseCues [] rest2 := rfl

theorem parseCues_end_flush {g : List Str} (hg : g ≠ []) :
    parseCues g [] =
      (match VttCue.fromStr (joinSep '\n' g.reverse) with
       | .error e => Except.error e
       | .ok c => Except.ok [c]) := by
  have h0 : parseCues g [] =
      (if g = [] then Except.ok ([] : List VttCue)
       else match VttCue.fromStr (joinSep '\n' g.reverse) with
         | .error e => Except.error e
         | .ok c => Except.ok [c]) := rfl
  rw [h0, if_neg hg]

/-- A run of non-blank lines only accumulates into the current group. -/
theorem parseCues_run {B : List Str} (hB : ∀ l ∈ B, trimL l ≠ [])
    (g Z : List Str) : parseCues g (B ++ Z) = parseCues (B.reverse ++ g) Z := by
  induction B generalizing g with
  | nil => simp
  | cons l B2 ih =>
    rw [List.cons_append, parseCues_cons_tok (hB l (List.mem_cons_self l B2)) g (B2 ++ Z),
      ih (fun x hx => hB x (List.mem_cons_of_mem l hx)) (l :: g)]
    simp

/-! ## Lemmas: lines of a formatted cue -/

theorem formatCue_eq (c : VttCue) :
    formatCue c = (match c.identifier with
      | some id => id ++ ['\n']
      | none => []) ++ (timingLine c ++ '\n' :: trimL c.payload) := by
  unfold formatCue timingLine settingsPart
  simp [List.append_assoc]

theorem settingsPart_none : settingsPart none = [] := rfl

theorem settingsPart_some {st : VttSettings} (hne : formatSettings st ≠ []) :
    settingsPart (some st) = ' ' :: formatSettings st := by
  show (if formatSettings st ≠ [] then ' ' :: formatSettings st else []) = _
  rw [if_pos hne]

theorem timingLine_none {c : VttCue} (hs : c.settings = none) :
    timingLine c = formatTs c.start ++ ((" --> ").toList ++ formatTs c.end_) := by
  unfold timingLine
  rw [hs, settingsPart_none]
  simp

theorem timingLine_some {c : VttCue} {st : VttSettings} (hs : c.settings = some st)
    (hne : formatSettings st ≠ []) :
    timingLine c = formatTs c.start ++
      ((" --> ").toList ++ (formatTs c.end_ ++ ' ' :: formatSettings st)) := by
  unfold timingLine
  rw [hs, settingsPart_some hne]
  simp [List.append_assoc]

theorem settingsPart_cases {c : VttCue} (hg : GoodCue c) :
    c.settings = none ∨ ∃ st, c.settings = some st ∧ formatSettings st ≠ [] ∧
      SettingsBounds st := by
  obtain ⟨h1, h2, h3, h4, h5⟩ := hg
  cases hs : c.settings with
  | none => exact Or.inl rfl
  | some st =>
    obtain ⟨hb, hh⟩ := h4 st hs
    exact Or.inr ⟨st, rfl, formatSettings_ne_nil hh, hb⟩

theorem formatTs_has_digit (v : Nat) :
    ∃ ch ∈ formatTs v, isDigitC ch = true := by
  cases hf : formatTs v with
  | nil => exact absurd hf (formatTs_ne_nil v)
  | cons a as =>
    refine ⟨a, ?_, formatTs_head_digit v (by rw [hf]; rfl)⟩
    exact List.mem_cons_self a as

theorem timingLine_facts {c : VttCue} (hg : GoodCue c) :
    '\n' ∉ timingLine c ∧ stripCR (timingLine c) = timingLine c ∧
    trimL (timingLine c) ≠ [] ∧ timingLine c ≠ [] := by
  have harrNl : '\n' ∉ (" --> ").toList := by decide
  obtain ⟨chd, hchd, hchdD⟩ := formatTs_has_digit c.start
  rcases settingsPart_cases hg with hs | ⟨st, hs, hne, hb⟩
  · rw [timingLine_none hs]
    have hrne : (" --> ").toList ++ formatTs c.end_ ≠ [] := by
      intro h0
      exact formatTs_ne_nil _ (List.append_eq_nil.mp h0).2
    have hlast : ∀ ch, (formatTs c.start ++
        ((" --> ").toList ++ formatTs c.end_)).getLast? = some ch → isWS ch = false := by
      intro ch hch
      rw [getLast?_append_ne _ hrne, getLast?_append_ne _ (formatTs_ne_nil _)] at hch
      exact isWS_of_digit (formatTs_last_digit _ hch)
    refine ⟨?_, stripCR_of_getLast hlast, ?_, ?_⟩
    · intro hm
      rcases List.mem_append.mp hm with h1 | h1
      · exact formatTs_no_nl _ h1
      rcases List.mem_append.mp h1 with h2 | h2
      · exact harrNl h2
      · exact formatTs_no_nl _ h2
    · exact trimL_ne_nil (List.mem_append.mpr (Or.inl hchd)) (isWS_of_digit hchdD)
    · intro h0
      exact formatTs_ne_nil _ (List.append_eq_nil.mp h0).1
  · rw [timingLine_some hs hne]
    have hr3 : formatTs c.end_ ++ ' ' :: formatSettings st ≠ [] := by
      intro h0
      exact formatTs_ne_nil _ (List.append_eq_nil.mp h0).1
    have hr2 : (" --> ").toList ++ (formatTs c.end_ ++ ' ' :: formatSettings st) ≠ [] := by
      intro h0
      cases (List.append_eq_nil.mp h0).1
    have hlast : ∀ ch, (formatTs c.start ++ ((" --> ").toList ++
        (formatTs c.end_ ++ ' ' :: formatSettings st))).getLast? = some ch →
        isWS ch = false := by
      intro ch hch
      rw [getLast?_append_ne _ hr2, getLast?_append_ne _ hr3,
        getLast?_append_ne _ (List.cons_ne_nil ' ' _), getLast?_cons_ne hne] at hch
      exact formatSettings_last hch
    refine ⟨?_, stripCR_of_getLast hlast, ?_, ?_⟩
    · intro hm
      rcases List.mem_append.mp hm with h1 | h1
      · exact formatTs_no_nl _ h1
      rcases List.mem_append.mp h1 with h2 | h2
      · exact harrNl h2
      rcases List.mem_append.mp h2 with h3 | h3
      · exact formatTs_no_nl _ h3
      rcases List.mem_cons.mp h3 with h4 | h4
      · exact absurd h4 (by decide)
      · exact formatSettings_no_nl h4
    · exact trimL_ne_nil (List.mem_append.mpr (Or.inl hchd)) (isWS_of_digit hchdD)
    · intro h0
      exact formatTs_ne_nil _ (List.append_eq_nil.mp h0).1

theorem linesCore_id {ps : List Str} (hcr : ∀ p ∈ ps, stripCR p = p)
    (hlast : ∀ p, ps.getLast? = some p → p ≠ []) : linesCore ps = ps := by
  induction ps with
  | nil => rfl
  | cons p rest ih =>
    cases rest with
    | nil =>
      have hp : p ≠ [] := hlast p rfl
      show (if p = [] then [] else [p]) = [p]
      rw [if_neg hp]
    | cons q qs =>
      show stripCR p :: linesCore (q :: qs) = p :: q :: qs
      rw [hcr p (List.mem_cons_self p _),
        ih (fun x hx => hcr x (List.mem_cons_of_mem p hx))
          (fun x hx => hlast x (by rw [List.getLast?_cons_cons]; exact hx))]

theorem linesR_eq_splitOnC {p : Str}
    (hcr : ∀ q ∈ splitOnC '\n' p, stripCR q = q)
    (hlast : ∀ q, (splitOnC '\n' p).getLast? = some q → q ≠ []) :
    linesR p = splitOnC '\n' p :=
  linesCore_id hcr hlast

theorem linesR_pieces_append {ps : List Str} (hne : ps ≠ [])
    (hnl : ∀ q ∈ ps, '\n' ∉ q)
    (hcr : ∀ q ∈ ps, stripCR q = q) (Y : Str) :
    linesR (joinSep '\n' ps ++ '\n' :: Y) = ps ++ linesR Y := by
  induction ps with
  | nil => exact absurd rfl hne
  | cons q qs ih =>
    cases qs with
    | nil =>
      have e := linesR_cons (hnl q (List.mem_cons_self q [])) Y
      rw [show joinSep '\n' [q] = q from rfl, e, hcr q (List.mem_cons_self q [])]
      rfl
    | cons q2 qs2 =>
      have e1 : joinSep '\n' (q :: q2 :: qs2) = q ++ '\n' :: joinSep '\n' (q2 :: qs2) := rfl
      rw [e1, List.append_assoc, List.cons_append,
        linesR_cons (hnl q (List.mem_cons_self q _)) _,
        hcr q (List.mem_cons_self q _),
        ih (List.cons_ne_nil q2 qs2) (fun x hx => hnl x (List.mem_cons_of_mem q hx))
          (fun x hx => hcr x (List.mem_cons_of_mem q hx))]
      rfl

/-- Splitting after appending a blank separator line and more text. -/
theorem linesR_payload_append {P : Str}
    (hcr : ∀ q ∈ splitOnC '\n' P, stripCR q = q) (X : Str) :
    linesR (P ++ '\n' :: '\n' :: X) = splitOnC '\n' P ++ [] :: linesR X := by
  have hnlq : ∀ q ∈ splitOnC '\n' P, '\n' ∉ q := fun q hq => not_mem_of_mem_splitOnC hq
  have e0 : joinSep '\n' (splitOnC '\n' P) = P := joinSep_splitOnC '\n' P
  have e2 := linesR_pieces_append (splitOnC_ne_nil '\n' P) hnlq hcr ('\n' :: X)
  rw [e0] at e2
  rw [e2]
  have e1 := linesR_cons (show '\n' ∉ ([] : Str) from fun h => absurd h (List.not_mem_nil _)) X
  simp only [List.nil_append] at e1
  rw [e1]
  rfl

/-- The lines of a cue's trimmed payload, as the formatter writes them. -/
theorem linesR_trimPayload {c : VttCue} (hg : GoodCue c) (hcr : CRSafeCue c) :
    linesR (trimL c.payload) = cueTailLines c := by
  by_cases hp : trimL c.payload = []
  · rw [hp]
    unfold cueTailLines
    rw [if_pos hp]
    rfl
  · unfold cueTailLines
    rw [if_neg hp]
    refine linesR_eq_splitOnC ?_ ?_
    · intro q hq
      exact stripCR_of_ne_cr (hcr.2 q hq)
    · intro q hq
      rcases hg.2.2.2.2 with h | h
      · exact absurd h hp
      · have h2 := h q (List.mem_of_mem_getLast? hq)
        intro h0
        exact h2 (by rw [h0]; rfl)

/-- The lines of one formatted cue. -/
theorem linesR_formatCue {c : VttCue} (hg : GoodCue c) (hcr : CRSafeCue c) :
    linesR (formatCue c) = blockLines c := by
  have htl := timingLine_facts hg
  rw [formatCue_eq]
  unfold blockLines
  cases hoid : c.identifier with
  | none =>
    show linesR (timingLine c ++ '\n' :: trimL c.payload) =
      [] ++ timingLine c :: cueTailLines c
    rw [linesR_cons htl.1 _, htl.2.1, linesR_trimPayload hg hcr]
    rfl
  | some id =>
    show linesR ((id ++ ['\n']) ++ (timingLine c ++ '\n' :: trimL c.payload)) =
      [id] ++ timingLine c :: cueTailLines c
    rw [List.append_assoc, List.singleton_append,
      linesR_cons (hg.1 id hoid).2.2 _, stripCR_of_ne_cr (hcr.1 id hoid),
      linesR_cons htl.1 _, htl.2.1, linesR_trimPayload hg hcr]
    rfl

/-- The lines of one formatted cue followed by the blank-line separator
and more text: the empty-payload case contributes one extra blank
line. -/
theorem linesR_formatCue_sep {c : VttCue} (hg : GoodCue c) (hcr : CRSafeCue c)
    (X : Str) :
    linesR (formatCue c ++ '\n' :: '\n' :: X) =
      blockLines c ++ [] ::
        (if trimL c.payload = [] then [] :: linesR X else linesR X) := by
  have htl := timingLine_facts hg
  have hpayTail : linesR (trimL c.payload ++ '\n' :: '\n' :: X) =
      cueTailLines c ++ [] ::
        (if trimL c.payload = [] then [] :: linesR X else linesR X) := by
    by_cases hp : trimL c.payload = []
    · unfold cueTailLines
      rw [if_pos hp, if_pos hp, hp]
      simp only [List.nil_append]
      have e1 := linesR_cons (show '\n' ∉ ([] : Str) from fun h => absurd h (List.not_mem_nil _)) ('\n' :: X)
      have e2 := linesR_cons (show '\n' ∉ ([] : Str) from fun h => absurd h (List.not_mem_nil _)) X
      simp only [List.nil_append] at e1 e2
      rw [e1, e2]
      rfl
    · unfold cueTailLines
      rw [if_neg hp, if_neg hp]
      exact linesR_payload_append (fun q hq => stripCR_of_ne_cr (hcr.2 q hq)) X
  rw [formatCue_eq]
  unfold blockLines
  cases hoid : c.identifier with
  | none =>
    show linesR ((timingLine c ++ '\n' :: trimL c.payload) ++ '\n' :: '\n' :: X) =
      ([] ++ timingLine c :: cueTailLines c) ++ [] ::
        (if trimL c.payload = [] then [] :: linesR X else linesR X)
    rw [List.append_assoc, List.cons_append,
      linesR_cons htl.1 _, htl.2.1, hpayTail]
    rfl
  | some id =>
    show linesR (((id ++ ['\n']) ++ (timingLine c ++ '\n' :: trimL c.payload)) ++
        '\n' :: '\n' :: X) =
      ([id] ++ timingLine c :: cueTailLines c) ++ [] ::
        (if trimL c.payload = [] then [] :: linesR X else linesR X)
    have e1 : ((id ++ ['\n']) ++ (timingLine c ++ '\n' :: trimL c.payload)) ++
        '\n' :: '\n' :: X =
        id ++ '\n' :: (timingLine c ++ '\n' :: (trimL c.payload ++ '\n' :: '\n' :: X)) := by
      simp
    rw [e1, linesR_cons (hg.1 id hoid).2.2 _, stripCR_of_ne_cr (hcr.1 id hoid),
      linesR_cons htl.1 _, htl.2.1, hpayTail]
    rfl

/-! ## Lemmas: reparsing one formatted cue -/

theorem timingLine_arrow_none {c : VttCue} (hs : c.settings = none) :
    timingLine c = (formatTs c.start ++ [' ']) ++
      '-' :: '-' :: '>' :: (' ' :: formatTs c.end_) := by
  rw [timingLine_none hs,
    show (" --> ").toList = ' ' :: '-' :: '-' :: '>' :: [' '] from rfl]
  simp

theorem timingLine_arrow_some {c : VttCue} {st : VttSettings} (hs : c.settings = some st)
    (hne : formatSettings st ≠ []) :
    timingLine c = (formatTs c.start ++ [' ']) ++
      '-' :: '-' :: '>' :: (' ' :: (formatTs c.end_ ++ ' ' :: formatSettings st)) := by
  rw [timingLine_some hs hne,
    show (" --> ").toList = ' ' :: '-' :: '-' :: '>' :: [' '] from rfl]
  simp

theorem timingLine_arrow {c : VttCue} (hg : GoodCue c) :
    containsArrow (timingLine c) = true := by
  rcases settingsPart_cases hg with hs | ⟨st, hs, hne, hb⟩
  · rw [timingLine_arrow_none hs]
    exact containsArrow_append _ _
  · rw [timingLine_arrow_some hs hne]
    exact containsArrow_append _ _

theorem start_no_dash (v : Nat) : '-' ∉ formatTs v ++ [' '] := by
  intro hm
  rcases List.mem_append.mp hm with h1 | h1
  · exact formatTs_no_dash _ h1
  · rw [List.mem_singleton] at h1
    exact absurd h1 (by decide)

theorem parseOptSettings_nil : parseOptSettings ([] : Str) = .ok none := rfl

/-- Reparsing a formatted timing line recovers the cue's times and
settings. -/
theorem cueCore_timingLine {c : VttCue} (hg : GoodCue c) (idf : Option Str)
    (rest : List Str) :
    cueCore idf (timingLine c) rest =
      .ok ⟨idf, c.start, c.end_, c.settings, joinSep '\n' rest⟩ := by
  rcases settingsPart_cases hg with hs | ⟨st, hs, hne, hb⟩
  · have hgt : '>' ∉ (' ' :: formatTs c.end_) := by
      intro hm
      rcases List.mem_cons.mp hm with h1 | h1
      · exact absurd h1 (by decide)
      · exact formatTs_no_gt _ h1
    have hsp : splitArrow (timingLine c) =
        [formatTs c.start ++ [' '], ' ' :: formatTs c.end_] := by
      rw [timingLine_arrow_none hs, splitArrow_arrow _ (start_no_dash c.start),
        splitArrow_of_no (containsArrow_eq_false hgt)]
    have e2 : cueCore idf (timingLine c) rest =
        cueCore2 idf (formatTs c.start ++ [' ']) (' ' :: formatTs c.end_) rest := by
      unfold cueCore
      rw [hsp]
    have e3 : cueCore2 idf (formatTs c.start ++ [' ']) (' ' :: formatTs c.end_) rest =
        cueAfterStart idf c.start (' ' :: formatTs c.end_) rest := by
      unfold cueCore2
      rw [trimL_append_ws (show isWS ' ' = true from rfl), formatTs_trim,
        ts_roundtrip hg.2.1]
    have e4 : cueAfterStart idf c.start (' ' :: formatTs c.end_) rest =
        cueAfterEndTok idf c.start (formatTs c.end_) [] rest := by
      unfold cueAfterStart
      rw [trimL_cons_ws (show isWS ' ' = true from rfl), formatTs_trim,
        splitWS_single (formatTs_ne_nil _) (formatTs_no_ws _)]
    have e5 : cueAfterEndTok idf c.start (formatTs c.end_) [] rest =
        cueAfterEnd idf c.start c.end_ [] rest := by
      unfold cueAfterEndTok
      rw [ts_roundtrip hg.2.2.1]
    rw [e2, e3, e4, e5]
    unfold cueAfterEnd
    rw [show joinSep ' ' ([] : List Str) = [] from rfl, parseOptSettings_nil, hs]
  · have hgt : '>' ∉ (' ' :: (formatTs c.end_ ++ ' ' :: formatSettings st)) := by
      intro hm
      rcases List.mem_cons.mp hm with h1 | h1
      · exact absurd h1 (by decide)
      rcases List.mem_append.mp h1 with h2 | h2
      · exact formatTs_no_gt _ h2
      rcases List.mem_cons.mp h2 with h3 | h3
      · exact absurd h3 (by decide)
      · exact (formatSettings_chars h3).2 rfl
    have hsp : splitArrow (timingLine c) =
        [formatTs c.start ++ [' '],
         ' ' :: (formatTs c.end_ ++ ' ' :: formatSettings st)] := by
      rw [timingLine_arrow_some hs hne, splitArrow_arrow _ (start_no_dash c.start),
        splitArrow_of_no (containsArrow_eq_false hgt)]
    have e2 : cueCore idf (timingLine c) rest =
        cueCore2 idf (formatTs c.start ++ [' '])
          (' ' :: (formatTs c.end_ ++ ' ' :: formatSettings st)) rest := by
      unfold cueCore
      rw [hsp]
    have e3 : cueCore2 idf (formatTs c.start ++ [' '])
        (' ' :: (formatTs c.end_ ++ ' ' :: formatSettings st)) rest =
        cueAfterStart idf c.start
          (' ' :: (formatTs c.end_ ++ ' ' :: formatSettings st)) rest := by
      unfold cueCore2
      rw [trimL_append_ws (show isWS ' ' = true from rfl), formatTs_trim,
        ts_roundtrip hg.2.1]
    have htrb : trimL (formatTs c.end_ ++ ' ' :: formatSettings st) =
        formatTs c.end_ ++ ' ' :: formatSettings st := by
      refine trimL_eq_self ?_ ?_
      · intro ch hch
        rw [head?_append_ne _ (formatTs_ne_nil _)] at hch
        exact isWS_of_digit (formatTs_head_digit _ hch)
      · intro ch hch
        rw [getLast?_append_ne _ (List.cons_ne_nil ' ' _),
          getLast?_cons_ne hne] at hch
        exact formatSettings_last hch
    have e4 : cueAfterStart idf c.start
        (' ' :: (formatTs c.end_ ++ ' ' :: formatSettings st)) rest =
        cueAfterEndTok idf c.start (formatTs c.end_) (settingsTokens st) rest := by
      unfold cueAfterStart
      rw [trimL_cons_ws (show isWS ' ' = true from rfl), htrb,
        splitWS_cons_tok (formatTs_ne_nil _) (formatTs_no_ws _) _,
        show formatSettings st = joinSep ' ' (settingsTokens st) from rfl,
        splitWS_join (settingsTokens_props st)]
    have e5 : cueAfterEndTok idf c.start (formatTs c.end_) (settingsTokens st) rest =
        cueAfterEnd idf c.start c.end_ (settingsTokens st) rest := by
      unfold cueAfterEndTok
      rw [ts_roundtrip hg.2.2.1]
    have e6 : parseOptSettings (joinSep ' ' (settingsTokens st)) = .ok (some st) := by
      have e7 : parseSettings (formatSettings st) = .ok st :=
        settings_roundtrip st hb.1 hb.2.1 hb.2.2.1 hb.2.2.2
      unfold parseOptSettings
      have hne2 : joinSep ' ' (settingsTokens st) ≠ [] := hne
      rw [if_pos hne2]
      have e8 : parseSettings (joinSep ' ' (settingsTokens st)) = Except.ok st := e7
      rw [e8]
    rw [e2, e3, e4, e5]
    unfold cueAfterEnd
    rw [e6, hs]

theorem mapExceptLast_id {f : Str → Str} {ls : List Str}
    (h : ∀ l ∈ ls, f l = l) : mapExceptLast f ls = ls := by
  induction ls with
  | nil => rfl
  | cons l rest ih =>
    cases rest with
    | nil => rfl
    | cons l2 rest2 =>
      show f l :: mapExceptLast f (l2 :: rest2) = l :: l2 :: rest2
      rw [h l (List.mem_cons_self l _), ih (fun x hx => h x (List.mem_cons_of_mem l hx))]

theorem cueTailLines_props {c : VttCue} (hg : GoodCue c) (hcr : CRSafeCue c) :
    ∀ q ∈ cueTailLines c, '\n' ∉ q ∧ q ≠ [] ∧ stripCR q = q ∧ trimL q ≠ [] := by
  intro q hq
  unfold cueTailLines at hq
  by_cases hp : trimL c.payload = []
  · rw [if_pos hp] at hq
    cases hq
  · rw [if_neg hp] at hq
    have htr : trimL q ≠ [] := by
      rcases hg.2.2.2.2 with h | h
      · exact absurd h hp
      · exact h q hq
    exact ⟨not_mem_of_mem_splitOnC hq, fun h0 => htr (by rw [h0]; rfl),
      stripCR_of_ne_cr (hcr.2 q hq), htr⟩

theorem blockLines_props {c : VttCue} (hg : GoodCue c) (hcr : CRSafeCue c) :
    ∀ l ∈ blockLines c, '\n' ∉ l ∧ l ≠ [] ∧ stripCR l = l ∧ trimL l ≠ [] := by
  have htl := timingLine_facts hg
  intro l hl
  unfold blockLines at hl
  cases hoid : c.identifier with
  | none =>
    rw [hoid] at hl
    have hl2 : l ∈ timingLine c :: cueTailLines c := hl
    rcases List.mem_cons.mp hl2 with rfl | hm
    · exact ⟨htl.1, htl.2.2.2, htl.2.1, htl.2.2.1⟩
    · exact cueTailLines_props hg hcr l hm
  | some id =>
    rw [hoid] at hl
    have hl2 : l ∈ id :: timingLine c :: cueTailLines c := hl
    rcases List.mem_cons.mp hl2 with rfl | hm
    · refine ⟨(hg.1 l hoid).2.2, ?_, stripCR_of_ne_cr (hcr.1 l hoid), (hg.1 l hoid).2.1⟩
      intro h0
      exact (hg.1 l hoid).2.1 (by rw [h0]; rfl)
    · rcases List.mem_cons.mp hm with rfl | hm2
      · exact ⟨htl.1, htl.2.2.2, htl.2.1, htl.2.2.1⟩
      · exact cueTailLines_props hg hcr l hm2

theorem blockLines_ne_nil (c : VttCue) : blockLines c ≠ [] := by
  unfold blockLines
  cases c.identifier with
  | none => simp
  | some id => simp

theorem joinSep_cueTailLines (c : VttCue) :
    joinSep '\n' (cueTailLines c) = trimL c.payload := by
  unfold cueTailLines
  by_cases hp : trimL c.payload = []
  · rw [if_pos hp, hp]
    rfl
  · rw [if_neg hp]
    exact joinSep_splitOnC '\n' (trimL c.payload)

/-- Reparsing one formatted cue block recovers the cue with its payload
trimmed. -/
theorem cue_reparse {c : VttCue} (hg : GoodCue c) (hcr : CRSafeCue c) :
    VttCue.fromStr (joinSep '\n' (blockLines c)) = .ok (normCue c) := by
  have hbp := blockLines_props hg hcr
  have hlines : linesR (joinSep '\n' (blockLines c)) = blockLines c := by
    rw [linesR_joinSep (blockLines_ne_nil c) (fun l hl => (hbp l hl).1)
      (fun l hl => (hbp l hl).2.1)]
    exact mapExceptLast_id (fun l hl => (hbp l hl).2.2.1)
  have h0 : VttCue.fromStr (joinSep '\n' (blockLines c)) =
      (match linesR (joinSep '\n' (blockLines c)) with
       | [] => Except.error VttParseError.invalidFormat
       | firstLine :: rest0 =>
         if containsArrow firstLine = true then cueCore none firstLine rest0
         else match rest0 with
           | [] => Except.error VttParseError.invalidFormat
           | timing :: rest => cueCore (some firstLine) timing rest) := rfl
  rw [h0, hlines]
  cases hoid : c.identifier with
  | some id =>
    have e : blockLines c = id :: timingLine c :: cueTailLines c := by
      unfold blockLines
      rw [hoid]
      rfl
    rw [e]
    have e3 : (match id :: timingLine c :: cueTailLines c with
       | [] => Except.error VttParseError.invalidFormat
       | firstLine :: rest0 =>
         if containsArrow firstLine = true then cueCore none firstLine rest0
         else match rest0 with
           | [] => Except.error VttParseError.invalidFormat
           | timing :: rest => cueCore (some firstLine) timing rest) =
        (if containsArrow id = true then
          cueCore none id (timingLine c :: cueTailLines c)
        else cueCore (some id) (timingLine c) (cueTailLines c)) := rfl
    rw [e3, if_neg (by rw [(hg.1 id hoid).1]; exact Bool.false_ne_true),
      cueCore_timingLine hg (some id) (cueTailLines c), joinSep_cueTailLines,
      ← hoid]
    rfl
  | none =>
    have e : blockLines c = timingLine c :: cueTailLines c := by
      unfold blockLines
      rw [hoid]
      rfl
    rw [e]
    have e3 : (match timingLine c :: cueTailLines c with
       | [] => Except.error VttParseError.invalidFormat
       | firstLine :: rest0 =>
         if containsArrow firstLine = true then cueCore none firstLine rest0
         else match rest0 with
           | [] => Except.error VttParseError.invalidFormat
           | timing :: rest => cueCore (some firstLine) timing rest) =
        (if containsArrow (timingLine c) = true then
          cueCore none (timingLine c) (cueTailLines c)
        else match cueTailLines c with
          | [] => Except.error VttParseError.invalidFormat
          | timing :: rest => cueCore (some (timingLine c)) timing rest) := rfl
    rw [e3, if_pos (timingLine_arrow hg),
      cueCore_timingLine hg none (cueTailLines c), joinSep_cueTailLines, ← hoid]
    rfl

/-! ## Lemmas: the document round trip -/

theorem metaLine_facts {k v : Str} (hk : '\n' ∉ k) (hv1 : trimL v = v)
    (hv2 : '\n' ∉ v) :
    '\n' ∉ metaLine (k, v) ∧ stripCR (metaLine (k, v)) = metaLine (k, v) := by
  constructor
  · intro hm
    unfold metaLine at hm
    rcases List.mem_append.mp hm with h1 | h1
    · exact hk h1
    rcases List.mem_cons.mp h1 with h2 | h2
    · exact absurd h2 (by decide)
    rcases List.mem_cons.mp h2 with h3 | h3
    · exact absurd h3 (by decide)
    · exact hv2 h3
  · apply stripCR_of_ne_cr
    intro hch
    unfold metaLine at hch
    rw [getLast?_append_ne k (List.cons_ne_nil ':' _), List.getLast?_cons_cons] at hch
    by_cases hvn : v = []
    · subst hvn
      have hch2 : some ' ' = some '\r' := hch
      injection hch2 with h3
      exact absurd h3 (by decide)
    · rw [getLast?_cons_ne hvn] at hch
      have h4 := trimL_last (by rw [hv1]; exact hch)
      exact absurd h4 (by decide)

theorem headerLine_facts {d : WebVtt} (hd : DescOK d.header.description) :
    '\n' ∉ headerLine d ∧ stripCR (headerLine d) = headerLine d := by
  unfold headerLine
  cases hds : d.header.description with
  | none => exact ⟨by decide, by decide⟩
  | some ds =>
    rw [hds] at hd
    obtain ⟨hd1, hd2, hd3⟩ := hd
    constructor
    · intro hm
      rcases List.mem_append.mp hm with h1 | h1
      · have hW : '\n' ∉ ("WEBVTT").toList := by decide
        exact hW h1
      rcases List.mem_cons.mp h1 with h2 | h2
      · exact absurd h2 (by decide)
      · exact hd3 h2
    · apply stripCR_of_ne_cr
      intro hch
      rw [getLast?_append_ne _ (List.cons_ne_nil ' ' _), getLast?_cons_ne hd2] at hch
      have h4 := trimL_last (by rw [hd1]; exact hch)
      exact absurd h4 (by decide)

theorem headerLine_trim {d : WebVtt} (hd : DescOK d.header.description) :
    trimL (headerLine d) = headerLine d := by
  unfold headerLine
  cases hds : d.header.description with
  | none => decide
  | some ds =>
    rw [hds] at hd
    obtain ⟨hd1, hd2, hd3⟩ := hd
    refine trimL_eq_self ?_ ?_
    · intro ch hch
      rw [head?_append_ne _ (by decide)] at hch
      have hch2 : some 'W' = some ch := hch
      injection hch2 with h3
      rw [← h3]
      rfl
    · intro ch hch
      rw [getLast?_append_ne _ (List.cons_ne_nil ' ' _), getLast?_cons_ne hd2] at hch
      exact trimL_last (by rw [hd1]; exact hch)

theorem startsWithL_header (d : WebVtt) :
    startsWithL ("WEBVTT").toList (headerLine d) = true := by
  unfold startsWithL headerLine
  rw [decide_eq_true_eq]
  exact List.take_left _ _

theorem headerDescription_headerLine {d : WebVtt} (hd : DescOK d.header.description) :
    headerDescription (headerLine d) = d.header.description := by
  unfold headerDescription headerLine
  cases hds : d.header.description with
  | none => rfl
  | some ds =>
    rw [hds] at hd
    obtain ⟨hd1, hd2, hd3⟩ := hd
    have e6 : (("WEBVTT").toList).length = 6 := rfl
    have hlt : 6 < (("WEBVTT").toList ++ ' ' :: ds).length := by
      rw [List.length_append, e6, List.length_cons]
      omega
    rw [if_pos hlt, show (6 : Nat) = (("WEBVTT").toList).length from rfl,
      List.drop_left, trimL_cons_ws (show isWS ' ' = true from rfl), hd1]

theorem formatDoc_eq (d : WebVtt) :
    formatDoc d = headerLine d ++ '\n' ::
      (formatMeta d.header.metadata ++ '\n' :: formatCuesLoop true d.cues) := by
  unfold formatDoc headerLine
  simp [List.append_assoc]

theorem linesR_formatMeta {meta : List (Str × Str)}
    (hm : ∀ kv ∈ meta, '\n' ∉ metaLine kv ∧ stripCR (metaLine kv) = metaLine kv)
    (Y : Str) :
    linesR (formatMeta meta ++ '\n' :: Y) = meta.map metaLine ++ [] :: linesR Y := by
  induction meta with
  | nil =>
    have e1 := linesR_cons (show '\n' ∉ ([] : Str) from fun h => absurd h (List.not_mem_nil _)) Y
    simpa using e1
  | cons kv rest ih =>
    obtain ⟨k, v⟩ := kv
    have e0 : formatMeta ((k, v) :: rest) = metaLine (k, v) ++ '\n' :: formatMeta rest := rfl
    rw [e0, List.append_assoc, List.cons_append,
      linesR_cons (hm (k, v) (List.mem_cons_self _ _)).1 _,
      (hm (k, v) (List.mem_cons_self _ _)).2,
      ih (fun x hx => hm x (List.mem_cons_of_mem _ hx))]
    rfl

/-- The line decomposition of a formatted document. -/
theorem docLines {d : WebVtt} (hd : DescOK d.header.description)
    (hm : ∀ kv ∈ d.header.metadata, trimL kv.1 = kv.1 ∧ trimL kv.2 = kv.2 ∧
      ':' ∉ kv.1 ∧ '\n' ∉ kv.1 ∧ '\n' ∉ kv.2) :
    linesR (formatDoc d) = headerLine d ::
      (d.header.metadata.map metaLine ++ [] :: linesR (formatCuesLoop true d.cues)) := by
  rw [formatDoc_eq, linesR_cons (headerLine_facts hd).1 _, (headerLine_facts hd).2,
    linesR_formatMeta (fun kv hkv =>
      metaLine_facts (hm kv hkv).2.2.2.1 (hm kv hkv).2.1 (hm kv hkv).2.2.2.2) _]

/-- Reparsing the formatted cue section recovers the cues with trimmed
payloads. -/
theorem cues_reparse {cues : List VttCue}
    (hg : ∀ c ∈ cues, GoodCue c) (hcr : ∀ c ∈ cues, CRSafeCue c) :
    parseCues [] (linesR (formatCuesLoop true cues)) = .ok (cues.map normCue) := by
  induction cues with
  | nil => rfl
  | cons c rest ih =>
    have hgc := hg c (List.mem_cons_self c rest)
    have hcrc := hcr c (List.mem_cons_self c rest)
    have hbp := blockLines_props hgc hcrc
    have hrevne : (blockLines c).reverse ≠ [] := by
      intro h0
      exact blockLines_ne_nil c (List.reverse_eq_nil_iff.mp h0)
    cases rest with
    | nil =>
      have e0 : formatCuesLoop true [c] = formatCue c := by
        show formatCue c ++ formatCuesLoop false [] = formatCue c
        rw [show formatCuesLoop false [] = [] from rfl, List.append_nil]
      rw [e0, linesR_formatCue hgc hcrc]
      have e1 : parseCues [] (blockLines c) = parseCues (blockLines c).reverse [] := by
        have e2 := parseCues_run (fun l hl => (hbp l hl).2.2.2) [] []
        simpa using e2
      rw [e1, parseCues_end_flush hrevne, List.reverse_reverse, cue_reparse hgc hcrc]
      rfl
    | cons c2 rest2 =>
      have e0 : formatCuesLoop true (c :: c2 :: rest2) =
          formatCue c ++ '\n' :: '\n' :: formatCuesLoop true (c2 :: rest2) := rfl
      rw [e0, linesR_formatCue_sep hgc hcrc _]
      have e1 := parseCues_run (fun l hl => (hbp l hl).2.2.2) []
        ([] :: (if trimL c.payload = [] then
          [] :: linesR (formatCuesLoop true (c2 :: rest2))
          else linesR (formatCuesLoop true (c2 :: rest2))))
      rw [List.append_nil] at e1
      rw [e1, parseCues_blank_flush hrevne, List.reverse_reverse, cue_reparse hgc hcrc]
      have hih := ih (fun x hx => hg x (List.mem_cons_of_mem c hx))
        (fun x hx => hcr x (List.mem_cons_of_mem c hx))
      have hIF : parseCues [] (if trimL c.payload = [] then
          [] :: linesR (formatCuesLoop true (c2 :: rest2))
          else linesR (formatCuesLoop true (c2 :: rest2))) =
          .ok ((c2 :: rest2).map normCue) := by
        by_cases hp : trimL c.payload = []
        · rw [if_pos hp, parseCues_blank_skip, hih]
        · rw [if_neg hp, hih]
      show (match parseCues [] (if trimL c.payload = [] then
          [] :: linesR (formatCuesLoop true (c2 :: rest2))
          else linesR (formatCuesLoop true (c2 :: rest2))) with
        | .error e => Except.error e
        | .ok cs => Except.ok (normCue c :: cs)) =
        Except.ok ((c :: c2 :: rest2).map normCue)
      rw [hIF]
      rfl

/-- L1 of claim C7: every successfully parsed document satisfies the
structural invariant `GoodDoc`. -/
theorem fromStr_good {s : Str} {d : WebVtt} (h : WebVtt.fromStr s = .ok d) :
    GoodDoc d := by
  have h0 : (match linesR s with
    | [] => Except.error VttParseError.invalidFormat
    | l0 :: rest =>
      if startsWithL (("WEBVTT").toList) (trimL l0) = true then
        docBody (headerDescription (trimL l0)) rest
      else Except.error VttParseError.missingHeader) = Except.ok d := h
  cases hls : linesR s with
  | nil =>
    rw [hls] at h0
    cases h0
  | cons l0 rest =>
    rw [hls] at h0
    have h1 : (if startsWithL (("WEBVTT").toList) (trimL l0) = true then
        docBody (headerDescription (trimL l0)) rest
      else Except.error VttParseError.missingHeader) = Except.ok d := h0
    by_cases hsw : startsWithL (("WEBVTT").toList) (trimL l0) = true
    · rw [if_pos hsw] at h1
      have hrest : ∀ l ∈ rest, '\n' ∉ l := by
        intro l hl
        exact mem_linesR_no_nl (hls ▸ List.mem_cons_of_mem l0 hl)
      have hdesc : DescOK (headerDescription (trimL l0)) := by
        unfold headerDescription
        by_cases hlen : 6 < (trimL l0).length
        · rw [if_pos hlen]
          refine ⟨trimL_idem _, ?_, ?_⟩
          · cases hgl : (trimL l0).getLast? with
            | none =>
              rw [List.getLast?_eq_none_iff] at hgl
              rw [hgl] at hlen
              simp at hlen
            | some ch =>
              have hwch : isWS ch = false := trimL_last hgl
              have hdl : ((trimL l0).drop 6).getLast? = some ch := by
                rw [List.getLast?_drop, if_neg (by omega)]
                exact hgl
              exact trimL_ne_nil (List.mem_of_mem_getLast? hdl) hwch
          · intro hmem
            have h5 := mem_trimL hmem
            have h6 := List.mem_of_mem_drop h5
            have h7 := mem_trimL h6
            exact mem_linesR_no_nl (hls ▸ List.mem_cons_self l0 rest) h7
        · rw [if_neg hlen]
          exact trivial
      have h2 : (match parseMeta [] rest with
        | .error e => Except.error e
        | .ok (meta, remaining) =>
          docAfterMeta (headerDescription (trimL l0)) meta remaining) = Except.ok d := h1
      cases hpm : parseMeta [] rest with
      | error e =>
        rw [hpm] at h2
        cases h2
      | ok mr =>
        obtain ⟨meta, remaining⟩ := mr
        rw [hpm] at h2
        obtain ⟨hmOK, hrem⟩ := parseMeta_inv hrest
          (fun kv hkv => absurd hkv (List.not_mem_nil kv)) List.Pairwise.nil hpm
        have h3 : (match parseCues [] remaining with
          | .error e => Except.error e
          | .ok cues =>
            Except.ok (⟨⟨headerDescription (trimL l0), meta⟩, cues⟩ : WebVtt)) =
            Except.ok d := h2
        cases hpc : parseCues [] remaining with
        | error e =>
          rw [hpc] at h3
          cases h3
        | ok cues =>
          rw [hpc] at h3
          injection h3 with h4
          subst h4
          refine ⟨hdesc, hmOK, ?_⟩
          intro c hc
          exact parseCues_inv (fun l hl => hrest l (hrem l hl))
            (fun l hl => absurd hl (List.not_mem_nil l)) hpc c hc
    · rw [if_neg hsw] at h1
      cases h1

/-- L2 of claim C7: formatting a good carriage-return-safe document and
reparsing it yields the document with its cue payloads trimmed. -/
theorem doc_reparse {d : WebVtt} (hg : GoodDoc d) (hcr : CRSafe d) :
    WebVtt.fromStr (formatDoc d) = .ok (normDoc d) := by
  obtain ⟨hd, hmOK, hcues⟩ := hg
  obtain ⟨hmP, hmPW⟩ := hmOK
  have h0 : WebVtt.fromStr (formatDoc d) =
      (match linesR (formatDoc d) with
       | [] => Except.error VttParseError.invalidFormat
       | l0 :: rest =>
         if startsWithL (("WEBVTT").toList) (trimL l0) = true then
           docBody (headerDescription (trimL l0)) rest
         else Except.error VttParseError.missingHeader) := rfl
  rw [h0, docLines hd hmP]
  have h1 : (match headerLine d :: (d.header.metadata.map metaLine ++
      [] :: linesR (formatCuesLoop true d.cues)) with
       | [] => Except.error VttParseError.invalidFormat
       | l0 :: rest =>
         if startsWithL (("WEBVTT").toList) (trimL l0) = true then
           docBody (headerDescription (trimL l0)) rest
         else Except.error VttParseError.missingHeader) =
      (if startsWithL (("WEBVTT").toList) (trimL (headerLine d)) = true then
        docBody (headerDescription (trimL (headerLine d)))
          (d.header.metadata.map metaLine ++ [] :: linesR (formatCuesLoop true d.cues))
      else Except.error VttParseError.missingHeader) := rfl
  rw [h1, headerLine_trim hd, if_pos (startsWithL_header d),
    headerDescription_headerLine hd]
  unfold docBody
  rw [parseMeta_run _ hmP hmPW (fun kv hkv kv2 hkv2 => absurd hkv2 (List.not_mem_nil kv2)),
    List.nil_append, parseMeta_blank]
  show docAfterMeta d.header.description d.header.metadata
    (linesR (formatCuesLoop true d.cues)) = Except.ok (normDoc d)
  unfold docAfterMeta
  rw [cues_reparse hcues hcr]
  rfl

theorem formatCue_normCue (c : VttCue) : formatCue (normCue c) = formatCue c := by
  unfold formatCue normCue
  simp [trimL_idem]

theorem formatCuesLoop_normList (b : Bool) (cs : List VttCue) :
    formatCuesLoop b (cs.map normCue) = formatCuesLoop b cs := by
  induction cs generalizing b with
  | nil => rfl
  | cons c rest ih =>
    cases b with
    | true =>
      show formatCue (normCue c) ++ formatCuesLoop false (rest.map normCue) =
        formatCue c ++ formatCuesLoop false rest
      rw [formatCue_normCue, ih false]
    | false =>
      show '\n' :: '\n' :: (formatCue (normCue c) ++ formatCuesLoop false (rest.map normCue)) =
        '\n' :: '\n' :: (formatCue c ++ formatCuesLoop false rest)
      rw [formatCue_normCue, ih false]

/-- One normalization pass is idempotent at the output level: formatting
the normalized document reproduces the original formatted text. -/
theorem formatDoc_normDoc (d : WebVtt) : formatDoc (normDoc d) = formatDoc d := by
  unfold formatDoc normDoc
  rw [formatCuesLoop_normList]

/-! ## The claims -/

/-- C8: the formatted document is exactly the `WEBVTT` line (with a
trailing space and the description when present), one `key: value` line
per metadata entry, one blank line, then the formatted cues joined by a
single blank line, with no trailing separator after the last cue. -/
theorem c8 (d : WebVtt) : formatDoc d = docLayout d := by
  unfold formatDoc docLayout
  rw [formatMeta_eq, formatCuesLoop_true]

/-- C2: for every Settings record built from the five enumerated optional
fields (with its numeric fields in the `u32`/`i32` ranges the code
stores), parsing the formatted output yields a structurally equal
record. -/
theorem c2 (st : VttSettings)
    (hb1 : ∀ n, st.line = some (.percentage n) → n < 2 ^ 32)
    (hb2 : ∀ z, st.line = some (.number z) → -(2 ^ 31) ≤ z ∧ z < 2 ^ 31)
    (hb3 : ∀ n, st.position = some n → n < 2 ^ 32)
    (hb4 : ∀ n, st.size = some n → n < 2 ^ 32) :
    parseSettings (formatSettings st) = .ok st :=
  settings_roundtrip st hb1 hb2 hb3 hb4

/-- C2, witness: a record with all five fields present, including a
negative line number. -/
theorem c2_witness :
    parseSettings (formatSettings
      (⟨some .leftToRight, some (.number (-5)), some 50, some 40, some .middle⟩ : VttSettings)) =
      .ok (⟨some .leftToRight, some (.number (-5)), some 50, some 40, some .middle⟩ : VttSettings) :=
  c2 (⟨some .leftToRight, some (.number (-5)), some 50, some 40, some .middle⟩ : VttSettings)
    (by intro n h; injection h with h2; cases h2)
    (by
      intro z h
      injection h with h2
      injection h2 with h3
      cases h3
      exact ⟨by norm_num, by norm_num⟩)
    (by intro n h; injection h with h2; cases h2; norm_num)
    (by intro n h; injection h with h2; cases h2; norm_num)

/-- C1: for every valid timestamp string of shape `H+:MM:SS.mmm` or
`MM:SS.mmm` (fraction optional) denoting the total millisecond value
`v`, parsing yields exactly `v`; formatting `v` yields the canonical
zero-padded `HH:MM:SS.mmm` form, and that form denotes the same value
(reparsing it yields `v` again). -/
theorem c1 (hd : Option Str) (m s2 : Nat) (fr : Option Nat)
    (hhd : ∀ x, hd = some x → x ≠ [] ∧ allDigits x = true)
    (hm : m ≤ 59) (hs : s2 ≤ 59)
    (hfr : ∀ y, fr = some y → y ≤ 999)
    (hv : tsValue hd m s2 fr < 2 ^ 64) :
    parseTimestamp (tsString hd m s2 fr) = .ok (tsValue hd m s2 fr) ∧
    parseTimestamp (formatTs (tsValue hd m s2 fr)) = .ok (tsValue hd m s2 fr) ∧
    formatTs (tsValue hd m s2 fr) = canonicalTs (tsValue hd m s2 fr) := by
  refine ⟨?_, ts_roundtrip hv, formatTs_canonical _⟩
  have hm64 : m < 2 ^ 64 := by omega
  have hs64 : s2 < 2 ^ 64 := by omega
  cases hd with
  | some x =>
    obtain ⟨hx, hxd⟩ := hhd x rfl
    have hcx : ':' ∉ x := not_mem_of_digits hxd rfl
    cases fr with
    | some y =>
      have hy : y ≤ 999 := hfr y rfl
      have hval : tsValue (some x) m s2 (some y) =
          parseDigits x * 3600000 + m * 60000 + s2 * 1000 + y := rfl
      rw [hval] at hv ⊢
      have hxb : parseDigits x < 2 ^ 64 := by omega
      show parseTimestamp (x ++ ':' ::
        (padZeros 2 (natChars m) ++ ':' ::
         (padZeros 2 (natChars s2) ++ '.' :: padZeros 3 (natChars y)))) = _
      have htail : ':' ∉ padZeros 2 (natChars s2) ++ '.' :: padZeros 3 (natChars y) := by
        intro hmem
        rcases List.mem_append.mp hmem with h1 | h1
        · exact colon_not_mem_pad 2 s2 h1
        · rcases List.mem_cons.mp h1 with h2 | h2
          · cases h2
          · exact colon_not_mem_pad 3 y h2
      have hsplit : splitOnC ':' (x ++ ':' ::
          (padZeros 2 (natChars m) ++ ':' ::
           (padZeros 2 (natChars s2) ++ '.' :: padZeros 3 (natChars y)))) =
          [x, padZeros 2 (natChars m),
           padZeros 2 (natChars s2) ++ '.' :: padZeros 3 (natChars y)] := by
        rw [splitOnC_append_sep _ hcx, splitOnC_append_sep _ (colon_not_mem_pad 2 m),
            splitOnC_of_not_mem htail]
      rw [parseTimestamp_three hsplit]
      rw [tsFromHMS_compute hx hxd hxb hm64 (secondsMs_pad hy hs64)]
      rw [Nat.mod_eq_of_lt hv]
    | none =>
      have hval : tsValue (some x) m s2 none =
          parseDigits x * 3600000 + m * 60000 + s2 * 1000 + 0 := rfl
      rw [hval] at hv ⊢
      have hxb : parseDigits x < 2 ^ 64 := by omega
      show parseTimestamp (x ++ ':' ::
        (padZeros 2 (natChars m) ++ ':' :: (padZeros 2 (natChars s2) ++ []))) = _
      rw [List.append_nil]
      have hsplit : splitOnC ':' (x ++ ':' ::
          (padZeros 2 (natChars m) ++ ':' :: padZeros 2 (natChars s2))) =
          [x, padZeros 2 (natChars m), padZeros 2 (natChars s2)] := by
        rw [splitOnC_append_sep _ hcx, splitOnC_append_sep _ (colon_not_mem_pad 2 m),
            splitOnC_of_not_mem (colon_not_mem_pad 2 s2)]
      rw [parseTimestamp_three hsplit]
      rw [tsFromHMS_compute hx hxd hxb hm64 (secondsMs_noFrac hs64)]
      rw [Nat.mod_eq_of_lt hv]
  | none =>
    cases fr with
    | some y =>
      have hy : y ≤ 999 := hfr y rfl
      have hval : tsValue none m s2 (some y) =
          0 * 3600000 + m * 60000 + s2 * 1000 + y := rfl
      rw [hval] at hv ⊢
      show parseTimestamp
        (padZeros 2 (natChars m) ++ ':' ::
         (padZeros 2 (natChars s2) ++ '.' :: padZeros 3 (natChars y))) = _
      have htail : ':' ∉ padZeros 2 (natChars s2) ++ '.' :: padZeros 3 (natChars y) := by
        intro hmem
        rcases List.mem_append.mp hmem with h1 | h1
        · exact colon_not_mem_pad 2 s2 h1
        · rcases List.mem_cons.mp h1 with h2 | h2
          · cases h2
          · exact colon_not_mem_pad 3 y h2
      have hsplit : splitOnC ':'
          (padZeros 2 (natChars m) ++ ':' ::
           (padZeros 2 (natChars s2) ++ '.' :: padZeros 3 (natChars y))) =
          [padZeros 2 (natChars m),
           padZeros 2 (natChars s2) ++ '.' :: padZeros 3 (natChars y)] := by
        rw [splitOnC_append_sep _ (colon_not_mem_pad 2 m), splitOnC_of_not_mem htail]
      rw [parseTimestamp_two hsplit]
      rw [tsFromMS_compute hm64 (secondsMs_pad hy hs64)]
      have hv2 : m * 60000 + s2 * 1000 + y < 2 ^ 64 := by omega
      rw [Nat.mod_eq_of_lt hv2]
      norm_num
    | none =>
      have hval : tsValue none m s2 none = 0 * 3600000 + m * 60000 + s2 * 1000 + 0 := rfl
      rw [hval] at hv ⊢
      show parseTimestamp
        (padZeros 2 (natChars m) ++ ':' :: (padZeros 2 (natChars s2) ++ [])) = _
      rw [List.append_nil]
      have hsplit : splitOnC ':'
          (padZeros 2 (natChars m) ++ ':' :: padZeros 2 (natChars s2)) =
          [padZeros 2 (natChars m), padZeros 2 (natChars s2)] := by
        rw [splitOnC_append_sep _ (colon_not_mem_pad 2 m),
            splitOnC_of_not_mem (colon_not_mem_pad 2 s2)]
      rw [parseTimestamp_two hsplit]
      rw [tsFromMS_compute hm64 (secondsMs_noFrac hs64)]
      have hv2 : m * 60000 + s2 * 1000 + 0 < 2 ^ 64 := by omega
      rw [Nat.mod_eq_of_lt hv2]
      norm_num

/-- C1, witness: `"01:23:45.678"` parses to 5025678 ms, and formatting
5025678 ms yields exactly `"01:23:45.678"` again. -/
theorem c1_witness :
    parseTimestamp (("01:23:45.678").toList) = .ok 5025678 ∧
    parseTimestamp (formatTs 5025678) = .ok 5025678 ∧
    formatTs 5025678 = canonicalTs 5025678 ∧
    formatTs 5025678 = ("01:23:45.678").toList := by
  have h := c1 (some (("01").toList)) 23 45 (some 678)
    (by intro x hx; cases hx; exact ⟨by decide, by decide⟩)
    (by omega) (by omega)
    (by intro y hy; cases hy; omega)
    (by decide)
  exact ⟨h.1, h.2.1, h.2.2, by decide⟩

/-- C6: for every settings string one of whose whitespace-separated
tokens has an unrecognized key (the text before its first colon is none
of `vertical`, `line`, `position`, `size`, `align`) or has no colon at
all, settings parsing fails, and the error is of the invalid-setting
kind: no unknown or malformed token is silently ignored. -/
theorem c6 (s t : Str) (ht : t ∈ splitWS s) (hbad : badTokenB t = true) :
    ∃ m, parseSettings s = .error (.invalidSetting m) := by
  unfold parseSettings
  exact settingsLoop_bad ht hbad defaultSettings

/-- C6, witness: the spec's own example `foo:bar` (unknown key), and a
colon-less token after a valid one. -/
theorem c6_witness :
    (∃ m, parseSettings (("foo:bar").toList) = .error (.invalidSetting m)) ∧
    (∃ m, parseSettings (("line:90% junk").toList) = .error (.invalidSetting m)) :=
  ⟨c6 (("foo:bar").toList) (("foo:bar").toList) (by decide) (by decide),
   c6 (("line:90% junk").toList) (("junk").toList) (by decide) (by decide)⟩

/-- C5, counterexample: the claim says an input with four colon-separated
parts is rejected with the malformed-overall-shape error, but
`VttTimestamp::from_str` never looks past the third part: `"1:2:3:4"`
parses successfully to 1h 2min 3s = 3723000 ms. -/
theorem c5_counterexample :
    parseTimestamp (("1:2:3:4").toList) = .ok 3723000 ∧
    parseTimestamp (("1:2:3:4").toList) ≠ .error .invalidFormat := by
  constructor
  · decide
  · decide

/-- C5, amended: timestamp parsing accepts the two documented shapes; an
input with a single colon-separated part is rejected with the
malformed-overall-shape error (`InvalidFormat`), but an input with four
or more parts is NOT rejected: every part beyond the third is silently
ignored, so the input parses exactly as its first three parts would. -/
theorem c5_amended :
    (∀ s : Str, ':' ∉ s → parseTimestamp s = .error .invalidFormat) ∧
    (∀ (s p1 p2 p3 : Str) (rest : List Str), splitOnC ':' s = p1 :: p2 :: p3 :: rest →
      parseTimestamp s = parseTimestamp (p1 ++ ':' :: (p2 ++ ':' :: p3))) := by
  constructor
  · intro s h
    exact parseTimestamp_one (splitOnC_of_not_mem h)
  · intro s p1 p2 p3 rest h
    have h1 : ':' ∉ p1 := not_mem_of_mem_splitOnC (h ▸ List.mem_cons_self p1 _)
    have h2 : ':' ∉ p2 :=
      not_mem_of_mem_splitOnC (h ▸ List.mem_cons_of_mem p1 (List.mem_cons_self p2 _))
    have h3 : ':' ∉ p3 :=
      not_mem_of_mem_splitOnC (h ▸ List.mem_cons_of_mem p1
        (List.mem_cons_of_mem p2 (List.mem_cons_self p3 _)))
    have hsp : splitOnC ':' (p1 ++ ':' :: (p2 ++ ':' :: p3)) = p1 :: p2 :: p3 :: [] := by
      rw [splitOnC_append_sep _ h1]
      rw [splitOnC_append_sep _ h2]
      rw [splitOnC_of_not_mem h3]
    rw [parseTimestamp_three h, parseTimestamp_three hsp]

/-- C5, witness: the amended claim at `"1234"` (one part, rejected) and at
`"1:2:3:4"` (four parts, parsed as `"1:2:3"`). -/
theorem c5_amended_witness :
    parseTimestamp (("1234").toList) = .error .invalidFormat ∧
    parseTimestamp (("1:2:3:4").toList) =
      parseTimestamp (("1").toList ++ ':' :: (("2").toList ++ ':' :: ("3").toList)) := by
  constructor
  · exact c5_amended.1 (("1234").toList) (by decide)
  · have h := c5_amended.2 (("1:2:3:4").toList) (("1").toList) (("2").toList)
      (("3").toList) [("4").toList] (by decide)
    exact h

/-- C10: in `parse_seconds_ms`, a fractional suffix shorter than 3 digits
is right-zero-padded before being read as milliseconds, a fractional
suffix of 3 or more digits is parsed literally as an integer number of
milliseconds, and an absent fraction yields 0 ms. -/
theorem c10 (sd fd : Str) (hsd : sd ≠ []) (hsdd : allDigits sd = true)
    (hfd : fd ≠ []) (hfdd : allDigits fd = true)
    (hsb : parseDigits sd < 2 ^ 64)
    (hfb : (if fd.length < 3 then parseDigits fd * 10 ^ (3 - fd.length)
            else parseDigits fd) < 2 ^ 64) :
    parseSecondsMs (sd ++ '.' :: fd) =
      .ok (parseDigits sd,
           if fd.length < 3 then parseDigits fd * 10 ^ (3 - fd.length)
           else parseDigits fd) ∧
    parseSecondsMs sd = .ok (parseDigits sd, 0) :=
  ⟨parseSecondsMs_frac hsd hsdd hfd hfdd hsb hfb,
   parseSecondsMs_plain hsd hsdd hsb⟩

/-- C10, witness: `".5"` is padded to 500 ms, `".1234"` is parsed
literally as 1234 ms, and in a full timestamp the excess carries into the
seconds (1234 ms = 1.234 s). -/
theorem c10_witness :
    parseSecondsMs (("1.5").toList) = .ok (1, 500) ∧
    parseSecondsMs (("1.1234").toList) = .ok (1, 1234) ∧
    parseTimestamp (("00:00:00.1234").toList) = .ok 1234 := by
  refine ⟨?_, ?_, by decide⟩
  · exact (c10 (("1").toList) (("5").toList) (by decide) (by decide) (by decide)
      (by decide) (by decide) (by decide)).1
  · exact (c10 (("1").toList) (("1234").toList) (by decide) (by decide) (by decide)
      (by decide) (by decide) (by decide)).1

/-- C4, counterexample: the claim says the empty input yields the
distinct missing-header error, but `"".lines().next()` is `None`, so
`WebVtt::from_str` returns the generic `InvalidFormat` error instead. -/
theorem c4_counterexample :
    WebVtt.fromStr ([] : Str) = .error .invalidFormat ∧
    VttParseError.invalidFormat ≠ VttParseError.missingHeader := by
  constructor
  · rfl
  · decide

/-- C4, amended: for every input with at least one line whose first line,
after trimming, does not start with `WEBVTT`, document parsing returns
the distinct missing-header error; the empty input (no lines at all)
instead returns the generic invalid-format error. -/
theorem c4_amended :
    (∀ (s l0 : Str) (rest : List Str), linesR s = l0 :: rest →
      startsWithL (("WEBVTT").toList) (trimL l0) = false →
      WebVtt.fromStr s = .error .missingHeader) ∧
    WebVtt.fromStr ([] : Str) = .error .invalidFormat := by
  constructor
  · intro s l0 rest hl hw
    unfold WebVtt.fromStr
    rw [hl]
    show (if startsWithL (("WEBVTT").toList) (trimL l0) = true then
            docBody (headerDescription (trimL l0)) rest
          else Except.error VttParseError.missingHeader) =
        Except.error VttParseError.missingHeader
    have hb : ¬startsWithL (("WEBVTT").toList) (trimL l0) = true := by
      rw [hw]
      simp
    exact if_neg hb
  · rfl

/-- C4, witness: a two-line document whose first line is `"hello"`. -/
theorem c4_amended_witness :
    WebVtt.fromStr (("hello\nworld").toList) = .error .missingHeader :=
  c4_amended.1 (("hello\nworld").toList) (("hello").toList) [("world").toList]
    (by decide) (by decide)

/-- C3, counterexample: the claim says the parsed payload is trimmed of
leading and trailing whitespace, but `VttCue::from_str` stores the
newline-join of the remaining lines verbatim; the whitespace survives
(trimming happens only in `Display`). -/
theorem c3_counterexample :
    (VttCue.fromStr (("00:00:00.000 --> 00:00:01.000\n hi ").toList)).map VttCue.payload =
      .ok ((" hi ").toList) ∧
    (" hi ").toList ≠ trimL ((" hi ").toList) := by
  constructor
  · decide
  · decide

/-- C3, amended: for every cue block, the parsed cue's payload is the
newline-join of all lines after the timing line, stored verbatim (NOT
trimmed at parse time; leading/trailing whitespace is removed only when
the cue is formatted). -/
theorem c3_amended (s : Str) (c : VttCue) (h : VttCue.fromStr s = .ok c) :
    c.payload =
      joinSep '\n' ((linesR s).drop (if c.identifier.isSome then 2 else 1)) := by
  unfold VttCue.fromStr at h
  match hl : linesR s with
  | [] =>
    rw [hl] at h
    cases h
  | [first] =>
    rw [hl] at h
    have h2 : (if containsArrow first = true then cueCore none first []
               else Except.error VttParseError.invalidFormat) = Except.ok c := h
    by_cases harr : containsArrow first = true
    · rw [if_pos harr] at h2
      obtain ⟨hid, hpay⟩ := cueCore_ok h2
      rw [hid]
      exact hpay
    · rw [if_neg harr] at h2
      cases h2
  | first :: timing :: rest =>
    rw [hl] at h
    have h2 : (if containsArrow first = true then cueCore none first (timing :: rest)
               else cueCore (some first) timing rest) = Except.ok c := h
    by_cases harr : containsArrow first = true
    · rw [if_pos harr] at h2
      obtain ⟨hid, hpay⟩ := cueCore_ok h2
      rw [hid]
      exact hpay
    · rw [if_neg harr] at h2
      obtain ⟨hid, hpay⟩ := cueCore_ok h2
      rw [hid]
      exact hpay

/-- C3, witness: the amended claim at a concrete identified cue. -/
theorem c3_amended_witness :
    (⟨some (("id1").toList), 0, 1000, none, ("hello").toList⟩ : VttCue).payload =
      joinSep '\n' ((linesR (("id1\n00:00:00.000 --> 00:00:01.000\nhello").toList)).drop
        (if (⟨some (("id1").toList), 0, 1000, none,
             ("hello").toList⟩ : VttCue).identifier.isSome then 2 else 1)) :=
  c3_amended (("id1\n00:00:00.000 --> 00:00:01.000\nhello").toList)
    (⟨some (("id1").toList), 0, 1000, none, ("hello").toList⟩ : VttCue) (by decide)

/-- C7 is false as stated: the document `"WEBVTT\n\nx\r\r\r\n..."` parses
successfully with cue identifier `"x\r"` (the `\r\r\n` line ending leaves
one carriage return in the line), the formatter writes that identifier
verbatim, and the reparse strips the `\r` before the line break
(`str::lines`), so the second pass formats a different string than the
first: `format(parse(format(parse(text))))` is not stable after one
normalization pass. -/
theorem c7_counterexample :
    WebVtt.fromStr (("WEBVTT\n\nx\r\r\r\n00:00:00.000 --> 00:00:01.000\np").toList) =
      .ok (⟨⟨none, []⟩, [⟨some ('x' :: ['\r']), 0, 1000, none, ['p']⟩]⟩ : WebVtt) ∧
    WebVtt.fromStr (formatDoc (⟨⟨none, []⟩,
        [⟨some ('x' :: ['\r']), 0, 1000, none, ['p']⟩]⟩ : WebVtt)) =
      .ok (⟨⟨none, []⟩, [⟨some ['x'], 0, 1000, none, ['p']⟩]⟩ : WebVtt) ∧
    formatDoc (⟨⟨none, []⟩, [⟨some ['x'], 0, 1000, none, ['p']⟩]⟩ : WebVtt) ≠
      formatDoc (⟨⟨none, []⟩, [⟨some ('x' :: ['\r']), 0, 1000, none, ['p']⟩]⟩ : WebVtt) :=
  ⟨by decide, by decide, by decide⟩

/-- C7 (amended): one normalization pass reaches a fixed point for every
text that parses to a carriage-return-safe document (no cue identifier
ends in `\r` and no line of a trimmed cue payload ends in `\r`):
reparsing the formatted output succeeds and formatting the reparsed
document reproduces the formatted output exactly, so
`format(parse(format(parse(text)))) = format(parse(text))`. -/
theorem c7_amended (s : Str) (d : WebVtt) (h : WebVtt.fromStr s = .ok d)
    (hcr : CRSafe d) :
    ∃ d2, WebVtt.fromStr (formatDoc d) = .ok d2 ∧ formatDoc d2 = formatDoc d :=
  ⟨normDoc d, doc_reparse (fromStr_good h) hcr, formatDoc_normDoc d⟩

theorem c7_amended_witness :
    WebVtt.fromStr (("WEBVTT\n\n00:00.000 --> 00:01.000\nhi").toList) =
      .ok (⟨⟨none, []⟩, [⟨none, 0, 1000, none, ("hi").toList⟩]⟩ : WebVtt) ∧
    CRSafe (⟨⟨none, []⟩, [⟨none, 0, 1000, none, ("hi").toList⟩]⟩ : WebVtt) ∧
    ∃ d2, WebVtt.fromStr (formatDoc (⟨⟨none, []⟩,
        [⟨none, 0, 1000, none, ("hi").toList⟩]⟩ : WebVtt)) = .ok d2 ∧
      formatDoc d2 = formatDoc (⟨⟨none, []⟩,
        [⟨none, 0, 1000, none, ("hi").toList⟩]⟩ : WebVtt) := by
  have hcr : CRSafe (⟨⟨none, []⟩, [⟨none, 0, 1000, none, ("hi").toList⟩]⟩ : WebVtt) := by
    intro c hc
    rw [List.mem_singleton] at hc
    subst hc
    constructor
    · intro id hid
      cases hid
    · intro q hq
      rw [show splitOnC '\n' (trimL (("hi").toList)) = [("hi").toList] from by decide,
        List.mem_singleton] at hq
      subst hq
      intro h0
      exact absurd h0 (by decide)
  exact ⟨by decide, hcr,
    c7_amended (("WEBVTT\n\n00:00.000 --> 00:01.000\nhi").toList)
      (⟨⟨none, []⟩, [⟨none, 0, 1000, none, ("hi").toList⟩]⟩ : WebVtt) (by decide) hcr⟩

/-- C9 is false of the code: under Rust's derived `PartialEq`, two
`HashMap`s are structurally equal when they hold the same key-value
pairs, regardless of iteration order; in this embedding the metadata
list order models the map's iteration order, so structural equality of
documents reads as permutation of the metadata entries.  Two documents
whose metadata lists are permutations of each other (with pairwise
distinct keys, so both are valid renderings of one and the same map)
format to different output strings: the formatter emits the entries in
iteration order, which for `HashMap`'s `RandomState` hasher is not a
function of the map's contents. -/
theorem c9_counterexample :
    List.Perm [((("a").toList, ("1").toList)), ((("b").toList, ("2").toList))]
      [((("b").toList, ("2").toList)), ((("a").toList, ("1").toList))] ∧
    List.Pairwise (fun x y => x.1 ≠ y.1)
      [((("a").toList, ("1").toList)), ((("b").toList, ("2").toList))] ∧
    formatDoc (⟨⟨none, [((("a").toList, ("1").toList)), ((("b").toList, ("2").toList))]⟩,
        []⟩ : WebVtt) ≠
      formatDoc (⟨⟨none, [((("b").toList, ("2").toList)), ((("a").toList, ("1").toList))]⟩,
        []⟩ : WebVtt) :=
  ⟨by decide, by decide, by decide⟩

/-- C9 (amended): document formatting is deterministic in the model
document with its metadata entry order (the order modelling the map's
iteration order): for a fixed description and cue list, two metadata
lists format to the same document exactly when they render to the same
metadata block, entry for entry.  Output identity therefore holds for
identical iteration sequences and fails in general for maps that merely
hold the same key-value pairs. -/
theorem c9_amended (desc : Option Str) (m1 m2 : List (Str × Str)) (cues : List VttCue) :
    formatDoc ⟨⟨desc, m1⟩, cues⟩ = formatDoc ⟨⟨desc, m2⟩, cues⟩ ↔
      formatMeta m1 = formatMeta m2 := by
  cases desc with
  | none =>
    constructor
    · intro h
      have h1 : ("WEBVTT").toList ++
          '\n' :: (formatMeta m1 ++ '\n' :: formatCuesLoop true cues) =
          ("WEBVTT").toList ++
          '\n' :: (formatMeta m2 ++ '\n' :: formatCuesLoop true cues) := h
      have h2 := List.append_cancel_left h1
      injection h2 with h3 h4
      exact List.append_cancel_right h4
    · intro h
      show ("WEBVTT").toList ++
          '\n' :: (formatMeta m1 ++ '\n' :: formatCuesLoop true cues) =
        ("WEBVTT").toList ++
          '\n' :: (formatMeta m2 ++ '\n' :: formatCuesLoop true cues)
      rw [h]
  | some ds =>
    constructor
    · intro h
      have h1 : ("WEBVTT").toList ++ ((' ' :: ds) ++
          '\n' :: (formatMeta m1 ++ '\n' :: formatCuesLoop true cues)) =
          ("WEBVTT").toList ++ ((' ' :: ds) ++
          '\n' :: (formatMeta m2 ++ '\n' :: formatCuesLoop true cues)) := h
      have h2 := List.append_cancel_left h1
      have h3 := List.append_cancel_left h2
      injection h3 with h4 h5
      exact List.append_cancel_right h5
    · intro h
      show ("WEBVTT").toList ++ ((' ' :: ds) ++
          '\n' :: (formatMeta m1 ++ '\n' :: formatCuesLoop true cues)) =
        ("WEBVTT").toList ++ ((' ' :: ds) ++
          '\n' :: (formatMeta m2 ++ '\n' :: formatCuesLoop true cues))
      rw [h]

end Vtt
